import Mathlib

/-!
# MacroTaskQ: the task queue of `src/madness/mra/macrotaskq.h`

A shallow embedding of the scheduler part of `MacroTaskQ`, of `create_worlds`,
and of functions of `src/apps/molresponse/testing/runners.hpp`
(`generate_response_frequency_run_path`, `tryMOLDFT`) together with its
`RunResponse` and `runFrequencyTests`.

* A task object (`MacroTaskBase`) carries a `priority` and a status `stat`.
* The queue stores `std::shared_ptr<MacroTaskBase>`: a task is referred to by
  a pointer (`TaskPtr`), and the objects live in the memory of the process
  (`heap`).  The same pointer may occur at several indices of `taskq`, and a
  status written through one occurrence is seen through all of them.
* Every process of the universe has its own `MacroTaskQ` object (`rank`,
  `heap`, `taskq`); the scheduler is the one on `universe.rank()==0`, the
  coordinator.  `get_scheduled_task_number_local` and `set_complete_local` are
  the two calls other processes have executed there.
* `MADNESS_ASSERT` failures and unchecked `operator[]` accesses outside the
  vector are results of type `Fault`.
* `long` values are `Int`; indices of a `std::vector` are far below `2^63`.
-/

namespace madness

/-- The enumeration `MacroTaskBase::Status`, in the order of the source. -/
inductive Status
  | Running
  | Waiting
  | Complete
  | Unknown
  deriving DecidableEq, Repr

/-- The data members of `class MacroTaskBase`: `double priority=0.0` (a rational
here) and `Status stat=Unknown`. -/
structure MacroTaskBase where
  priority : Rat
  stat : Status

namespace MacroTaskBase

/-- The default constructor `MacroTaskBase() {}`. -/
def new : MacroTaskBase := ⟨0, Status.Unknown⟩

/-- Member `void set_complete() {stat=Complete;}`. -/
def set_complete (t : MacroTaskBase) : MacroTaskBase := ⟨t.priority, Status.Complete⟩

/-- Member `void set_running() {stat=Running;}`. -/
def set_running (t : MacroTaskBase) : MacroTaskBase := ⟨t.priority, Status.Running⟩

/-- Member `void set_waiting() {stat=Waiting;}`. -/
def set_waiting (t : MacroTaskBase) : MacroTaskBase := ⟨t.priority, Status.Waiting⟩

/-- Member `bool is_complete() const {return stat==Complete;}`. -/
def is_complete (t : MacroTaskBase) : Bool := decide (t.stat = Status.Complete)

/-- Member `bool is_running() const {return stat==Running;}`. -/
def is_running (t : MacroTaskBase) : Bool := decide (t.stat = Status.Running)

/-- Member `bool is_waiting() const {return stat==Waiting;}`. -/
def is_waiting (t : MacroTaskBase) : Bool := decide (t.stat = Status.Waiting)

/-- Member `double get_priority() const {return priority;}`. -/
def get_priority (t : MacroTaskBase) : Rat := t.priority

end MacroTaskBase

/-- The place of a status in the life cycle of a task given in the
specification, `Unknown → Waiting → Running → Complete`. -/
def Status.stage : Status → Nat
  | Status.Unknown => 0
  | Status.Waiting => 1
  | Status.Running => 2
  | Status.Complete => 3

/-- A `std::shared_ptr<MacroTaskBase>`, identified by the object it points to. -/
abbrev TaskPtr := Nat

/-- The ways a call can leave the normal control flow. -/
inductive Fault
  /-- A `MADNESS_ASSERT` did not hold. -/
  | assertion
  /-- An unchecked `taskq[...]` access outside the vector. -/
  | outOfRange
  deriving DecidableEq, Repr

/-- The state of one process that the scheduler code reads and writes:
`universe.rank()`, the task objects reachable through shared pointers, and the
member `MacroTaskBase::taskqT taskq` (a vector of shared pointers). -/
structure MacroTaskQ where
  rank : Nat
  heap : TaskPtr → MacroTaskBase
  taskq : List TaskPtr

/-- The algorithm `std::find_if(first, last, pred)` on a vector, as the distance
of the returned iterator from `first`; the length stands for `last`. -/
def find_if (pred : TaskPtr → Bool) : List TaskPtr → Nat
  | [] => 0
  | p :: rest => if pred p then 0 else find_if pred rest + 1

namespace MacroTaskQ

/-- A member call `p->f()` through a shared pointer: the object `p` points to
is replaced by `f` of it, every other object is untouched. -/
def call (q : MacroTaskQ) (p : TaskPtr) (f : MacroTaskBase → MacroTaskBase) : MacroTaskQ :=
  ⟨q.rank, fun x => if x = p then f (q.heap p) else q.heap x, q.taskq⟩

/-- Private member `add_replicated_task`: `taskq.push_back(task)`. -/
def add_replicated_task (q : MacroTaskQ) (task : TaskPtr) : MacroTaskQ :=
  ⟨q.rank, q.heap, q.taskq ++ [task]⟩

/-- One iteration of the loop of `add_tasks`:
`if (universe.rank()==0) t->set_waiting(); add_replicated_task(t);`. -/
def add_tasks_body (q : MacroTaskQ) (t : TaskPtr) : MacroTaskQ :=
  add_replicated_task (if q.rank = 0 then q.call t MacroTaskBase.set_waiting else q) t

/-- Member `add_tasks(vtask)`: the range-for loop over `vtask`. -/
def add_tasks (q : MacroTaskQ) (vtask : List TaskPtr) : MacroTaskQ :=
  vtask.foldl add_tasks_body q

/-- The first two statements of `run_all(vtask)`, its submission phase:
`for (t : vtask) if (universe.rank()==0) t->set_waiting();` followed by
`for (i<vtask.size()) add_replicated_task(vtask[i]);`. -/
def run_all_submit (q : MacroTaskQ) (vtask : List TaskPtr) : MacroTaskQ :=
  vtask.foldl add_replicated_task
    (vtask.foldl (fun s t => if s.rank = 0 then s.call t MacroTaskBase.set_waiting else s) q)

/-- Member `get_scheduled_task_number_local()`: the assertion on the rank, then
`find_if` for the first waiting task; when the iterator is not `end` the task is
set running and its distance from `begin` is returned, otherwise `-1`.
The result is the returned `long` together with the state after the call. -/
def get_scheduled_task_number_local (q : MacroTaskQ) : Except Fault (Int × MacroTaskQ) :=
  if q.rank = 0 then
    let it := find_if (fun p => (q.heap p).is_waiting) q.taskq
    if h : it < q.taskq.length then
      Except.ok ((it : Int), q.call (q.taskq.get ⟨it, h⟩) MacroTaskBase.set_running)
    else
      Except.ok (-1, q)
  else
    Except.error Fault.assertion

/-- Member `set_complete_local(task_number)`: the assertion on the rank, then
`taskq[task_number]->set_complete()`; the vector access is unchecked. -/
def set_complete_local (q : MacroTaskQ) (task_number : Int) : Except Fault MacroTaskQ :=
  if q.rank = 0 then
    if h : 0 ≤ task_number ∧ task_number.toNat < q.taskq.length then
      Except.ok (q.call (q.taskq.get ⟨task_number.toNat, h.2⟩) MacroTaskBase.set_complete)
    else
      Except.error Fault.outOfRange
  else
    Except.error Fault.assertion

/-- Private member `size()`: `taskq.size()`. -/
def size (q : MacroTaskQ) : Nat := q.taskq.length

/-- The status read through the pointer stored at index `i` (`taskq[i]->stat`),
when `i` is inside the vector. -/
def statusAt (q : MacroTaskQ) (i : Nat) : Option Status :=
  (q.taskq[i]?).map (fun p => (q.heap p).stat)

/-- The statuses of all entries, in index order. -/
def statuses (q : MacroTaskQ) : List Status :=
  q.taskq.map (fun p => (q.heap p).stat)

end MacroTaskQ

open MacroTaskQ

/-- A call executed at the coordinator: `get_scheduled_task_number_local()` or
`set_complete_local(i)`. -/
inductive Op
  | select
  | complete (i : Int)
  deriving DecidableEq, Repr

/-- The select-next calls of a sequence of coordinator calls started in state
`q`, in order: for each one the state it was called in and the value it
returned.  A call that faults ends the sequence (the process has aborted, or the
behaviour is undefined). -/
def dispatches : MacroTaskQ → List Op → List (MacroTaskQ × Int)
  | _, [] => []
  | q, Op.select :: ops =>
    match get_scheduled_task_number_local q with
    | Except.ok (r, q') => (q, r) :: dispatches q' ops
    | Except.error _ => []
  | q, Op.complete i :: ops =>
    match set_complete_local q i with
    | Except.ok q' => dispatches q' ops
    | Except.error _ => []

/-- The values returned by the select-next calls of a sequence of coordinator
calls, in order. -/
def returned (q : MacroTaskQ) (ops : List Op) : List Int :=
  (dispatches q ops).map Prod.snd

/-- The indices whose entry has status Waiting, in ascending order. -/
def waitingIndices (q : MacroTaskQ) : List Nat :=
  (List.range q.taskq.length).filter (fun i => decide (q.statusAt i = some Status.Waiting))

/-- The waiting tasks of the list are pairwise different objects: no task object
that is waiting is stored at two indices. -/
def waitingDistinct (q : MacroTaskQ) : Bool :=
  decide (q.taskq.filter (fun p => (q.heap p).is_waiting)).Nodup

/-- The set-complete calls of a sequence are those of the dispatch loop of
`run_all`: each `set_complete_local(i)` comes after a select-next call of the
sequence that returned `i`, and `i` is not the sentinel. -/
def completesReturned (q : MacroTaskQ) (ops : List Op) : Bool :=
  (List.range ops.length).all fun k =>
    match ops[k]? with
    | some (Op.complete i) => decide (0 ≤ i) && decide (i ∈ returned q (ops.take k))
    | _ => true

/-- Index form of `waitingDistinct`: a task object that is waiting is stored at
one index only. -/
def waitingOnce (q : MacroTaskQ) : Prop :=
  ∀ (i j : Nat) (p : TaskPtr), q.taskq[i]? = some p → q.taskq[j]? = some p →
    (q.heap p).stat = Status.Waiting → i = j

/-- The indices in `D` that are not negative are inside the vector and their
entries are not waiting. -/
def settled (q : MacroTaskQ) (D : List Int) : Prop :=
  ∀ d ∈ D, 0 ≤ d → d.toNat < q.taskq.length ∧ q.statusAt d.toNat ≠ some Status.Waiting

/-- The empty queue of a freshly constructed `MacroTaskQ` on the coordinator;
all task objects are in the state their constructor leaves them in. -/
def emptyQueue : MacroTaskQ := ⟨0, fun _ => MacroTaskBase.new, []⟩

/-- The coordinator queue after `add_tasks` of a vector that holds the same
shared pointer (`7`) twice: two entries, one task object, waiting. -/
def aliasedPair : MacroTaskQ := add_tasks emptyQueue [7, 7]

/-- The coordinator queue after `add_tasks` of two different tasks (`7` and
`8`): two entries, two task objects, both waiting. -/
def distinctPair : MacroTaskQ := add_tasks emptyQueue [7, 8]

/-- The two lists share task objects between indices in the same way: two
indices hold one object in the first list exactly when they do in the second. -/
def sameSharing (l1 l2 : List TaskPtr) : Bool :=
  (List.range l1.length).all fun i =>
    (List.range l1.length).all fun j =>
      decide (l1[i]? = l1[j]? ↔ l2[i]? = l2[j]?)

/-! ### The dispatch loop of `run_all` across the subclusters

Every process of a subcluster runs the `while (true)` loop of `run_all`.  The
leader of the subcluster asks rank 0 for the next task number
(`get_scheduled_task_number`), the answer is broadcast inside the subcluster, a
negative answer leaves the loop; otherwise the members execute `task->run` and
then every member calls `set_complete(element)`, which sends a request for
`set_complete_local(element)` to rank 0.  The requests of different subclusters
reach rank 0 in any order.  `task->run` and `cleanup` are user code outside the
queue; they are taken not to touch the list or the statuses. -/

/-- The place of a subcluster in the loop of `run_all`. -/
inductive Loop
  /-- At `get_scheduled_task_number(subworld)`. -/
  | requesting
  /-- Between the answer `element >= 0` and `set_complete(element)`. -/
  | running (element : Int)
  /-- After `if (element<0) break;`. -/
  | left
  deriving DecidableEq, Repr

/-- A subcluster: the number of its processes (`subworld.size()`) and the place
of its processes in the loop. -/
structure Subcluster where
  members : Nat
  loop : Loop
  deriving DecidableEq, Repr

/-- The universe during the loop of `run_all`: the queue of rank 0, the
subclusters, and the `set_complete_local` requests that were sent to rank 0 and
are not executed yet. -/
structure Universe where
  coordinator : MacroTaskQ
  subclusters : List Subcluster
  inflight : List Int

/-- The steps of the universe. -/
inductive Event
  /-- The request of subcluster `g` is executed on rank 0 and answered. -/
  | request (g : Nat)
  /-- The members of subcluster `g` return from `task->run` and each sends its
  `set_complete(element)`. -/
  | finish (g : Nat)
  /-- The `k`-th pending `set_complete_local` request is executed on rank 0. -/
  | deliver (k : Nat)
  deriving DecidableEq, Repr

/-- One step of the universe.  An event that is not possible in the state (the
subcluster is elsewhere in its loop, there is no such request) changes nothing;
a fault of the call on rank 0 is the result of the step. -/
def step (u : Universe) : Event → Except Fault Universe
  | Event.request g =>
    match u.subclusters[g]? with
    | some ⟨m, Loop.requesting⟩ =>
      match get_scheduled_task_number_local u.coordinator with
      | Except.ok (element, c) =>
        Except.ok ⟨c, u.subclusters.set g
          ⟨m, if element < 0 then Loop.left else Loop.running element⟩, u.inflight⟩
      | Except.error e => Except.error e
    | _ => Except.ok u
  | Event.finish g =>
    match u.subclusters[g]? with
    | some ⟨m, Loop.running element⟩ =>
      Except.ok ⟨u.coordinator, u.subclusters.set g ⟨m, Loop.requesting⟩,
        u.inflight ++ List.replicate m element⟩
    | _ => Except.ok u
  | Event.deliver k =>
    match u.inflight[k]? with
    | some task_number =>
      match set_complete_local u.coordinator task_number with
      | Except.ok c => Except.ok ⟨c, u.subclusters, u.inflight.eraseIdx k⟩
      | Except.error e => Except.error e
    | none => Except.ok u

/-- A finite run of the universe: the events of a schedule one after the other,
up to the first fault. -/
def exec : Universe → List Event → Except Fault Universe
  | u, [] => Except.ok u
  | u, ev :: rest =>
    match step u ev with
    | Except.ok u' => exec u' rest
    | Except.error e => Except.error e

/-- The universe when the loop of `run_all` starts: every subcluster is about to
ask for its first task, no request is pending.  `sizes` lists the number of
processes of each subcluster. -/
def loopStart (c : MacroTaskQ) (sizes : List Nat) : Universe :=
  ⟨c, sizes.map (fun m => ⟨m, Loop.requesting⟩), []⟩

/-- Every subcluster has left its loop and every completion request it sent has
been executed on rank 0. -/
def quiescent (u : Universe) : Bool :=
  u.subclusters.all (fun s => decide (s.loop = Loop.left)) && u.inflight.isEmpty

/-- What holds of the universe throughout the loops of a `run_all` that started
from the coordinator queue `c` with `G` subclusters: the list is the one of `c`;
the subclusters stay as many and none is empty; every task in the list that is
Running belongs to an index that a subcluster is executing or for which a
completion request is pending; a task that was Waiting in `c` is Waiting,
Running or Complete; once a subcluster has left its loop no entry is Waiting. -/
structure LoopInv (c : MacroTaskQ) (G : Nat) (u : Universe) : Prop where
  taskq_eq : u.coordinator.taskq = c.taskq
  count : u.subclusters.length = G
  members_pos : ∀ (g : Nat) (s : Subcluster), u.subclusters[g]? = some s → 1 ≤ s.members
  owner : ∀ p ∈ u.coordinator.taskq, (u.coordinator.heap p).stat = Status.Running →
    ∃ e : Int, 0 ≤ e ∧ u.coordinator.taskq[e.toNat]? = some p ∧
      (e ∈ u.inflight ∨
        ∃ (g m : Nat), u.subclusters[g]? = some (Subcluster.mk m (Loop.running e)))
  progress : ∀ p, (c.heap p).stat = Status.Waiting →
    (u.coordinator.heap p).stat = Status.Waiting ∨
    (u.coordinator.heap p).stat = Status.Running ∨
    (u.coordinator.heap p).stat = Status.Complete
  drained : (∃ (g m : Nat), u.subclusters[g]? = some (Subcluster.mk m Loop.left)) →
    ∀ i, u.coordinator.statusAt i ≠ some Status.Waiting

/-- A `run_all(vtask)` as rank 0 sees it: the submission phase, then (after the
fence) the loops of the subclusters under the schedule `sched`. -/
def run_all (c : MacroTaskQ) (vtask : List TaskPtr) (sizes : List Nat) (sched : List Event) :
    Except Fault Universe :=
  exec (loopStart (run_all_submit c vtask) sizes) sched

/-- A schedule for two subclusters (of two processes and of one process) that
runs the queue `threeTasks` to the end. -/
def twoSubclustersSchedule : List Event :=
  [Event.request 0, Event.request 1, Event.finish 1, Event.request 1, Event.finish 0,
   Event.deliver 1, Event.request 0, Event.deliver 0, Event.finish 1, Event.deliver 0,
   Event.deliver 0, Event.request 1]

/-- A coordinator queue of three entries: a task that is complete and two tasks
that are waiting. -/
def threeTasks : MacroTaskQ :=
  ⟨0, fun x => ⟨0, if x = 40 then Status.Complete else Status.Waiting⟩, [40, 41, 42]⟩

/-- The universe at the end of `twoSubclustersSchedule` on `threeTasks`: the
calls made on rank 0, in the order of the schedule. -/
def threeTasksDone : Universe :=
  ⟨((((threeTasks.call 41 MacroTaskBase.set_running).call 42 MacroTaskBase.set_running).call 41
      MacroTaskBase.set_complete).call 42 MacroTaskBase.set_complete).call 41
      MacroTaskBase.set_complete,
    [⟨2, Loop.left⟩, ⟨1, Loop.left⟩], []⟩

/-- The list `l'` keeps the entries of `l`: `l` is an initial segment of `l'`, so
`l'` is not shorter and holds at every index of `l` the task `l` holds there. -/
def keepsEntries (l l' : List TaskPtr) : Prop :=
  l <+: l' ∧ l.length ≤ l'.length ∧ ∀ (i : Nat) (p : TaskPtr), l[i]? = some p → l'[i]? = some p

/-- A coordinator queue holding one task object (pointer `7`) that has run to
completion. -/
def oneComplete : MacroTaskQ := ⟨0, fun _ => ⟨0, Status.Complete⟩, [7]⟩

/-- Two coordinator queues over the same task objects with the same statuses
and different priorities. -/
def lowPriorities : MacroTaskQ :=
  ⟨0, fun x => ⟨1, if x = 30 then Status.Complete else Status.Waiting⟩, [30, 31, 32]⟩

/-- The queue `lowPriorities` with other priority values. -/
def mixedPriorities : MacroTaskQ :=
  ⟨0, fun x => ⟨if x = 31 then 9 else 4, if x = 30 then Status.Complete else Status.Waiting⟩,
    [30, 31, 32]⟩

/-- A coordinator queue after a first batch of two tasks: both complete; the
task objects `22` and `23` exist but were not submitted yet. -/
def firstBatchDone : MacroTaskQ :=
  ⟨0, fun x => ⟨0, if x < 22 then Status.Complete else Status.Unknown⟩, [20, 21]⟩

/-- The concrete scenario of the specification on the coordinator: five
different tasks, all waiting. -/
def fiveTasks : MacroTaskQ := ⟨0, fun _ => ⟨0, Status.Waiting⟩, [10, 11, 12, 13, 14]⟩

/-- A run of the five-task scenario with two subclusters, as seen by the
coordinator: seven select-next calls, and one set-complete call for each of the
five indices after it was returned. -/
def fiveTasksRun : List Op :=
  [Op.select, Op.select, Op.complete 1, Op.select, Op.complete 0, Op.select, Op.complete 2,
   Op.select, Op.complete 4, Op.complete 3, Op.select, Op.select]

/-- The number of select-next calls in a sequence of coordinator calls. -/
def selects (ops : List Op) : Nat :=
  (ops.filter (fun op => decide (op = Op.select))).length

/-! ### `create_worlds`: the subclusters

`create_worlds(universe, nsubworld)` computes on every process
`color = universe.rank() % nsubworld` and calls
`universe.mpi.comm().Split(color, universe.rank() / nsubworld)`.  The group
count is at least 1 in everything below; `nsubworld == 0` is a division by zero
in the source. -/

/-- The first argument of `Split` in `create_worlds`:
`int color = universe.rank() % nsubworld;`. -/
def color (rank nsubworld : Nat) : Nat := rank % nsubworld

/-- The second argument of `Split` in `create_worlds`:
`universe.rank() / nsubworld`. -/
def split_key (rank nsubworld : Nat) : Nat := rank / nsubworld

/-- Modelled from the spec: `SafeMPI::Intracomm::Split` is not among the source
files.  As the specification has it (assignment by `rank mod groupCount`, as
`MPI_Comm_split` does) the processes of a universe of `size` processes that pass
the colour `c` form one group; they are listed by universe rank. -/
def subworld_members (size nsubworld c : Nat) : List Nat :=
  (List.range size).filter (fun r => decide (color r nsubworld = c))

/-- The number of processes of the subcluster of colour `c`. -/
def subworld_size (size nsubworld c : Nat) : Nat :=
  (subworld_members size nsubworld c).length

/-- Modelled from the spec: `SafeMPI::Intracomm::Split` is not among the source
files.  The rank of universe rank `r` in its new group (`subworld.rank()`), as
`MPI_Comm_split` assigns it: the members of a group are ordered by the key they
passed, equal keys by their old rank, so the new rank is the number of members
ordered before `r`. -/
def subworld_rank (size nsubworld r : Nat) : Nat :=
  ((subworld_members size nsubworld (color r nsubworld)).filter
    (fun r' => decide (split_key r' nsubworld < split_key r nsubworld ∨
      (split_key r' nsubworld = split_key r nsubworld ∧ r' < r)))).length

/-- The colours below `nsubworld` whose group has at least one process. -/
def nonempty_colors (size nsubworld : Nat) : List Nat :=
  (List.range nsubworld).filter (fun c => decide (subworld_members size nsubworld c ≠ []))

/-! ### The two calls on rank 0, statement by statement

`get_scheduled_task_number_local` and `set_complete_local` are executed on rank 0
by different threads, so their statements can alternate.  The memory they share
is the queue and `std::mutex taskq_mutex`. -/

/-- Modelled from the spec: the macro `MADNESS_ASSERT` is not among the source
files.  As the specification has it (an assertion-style abort that fails fast),
a condition that does not hold ends the call at once with an assertion failure,
and a condition that holds has no effect. -/
def MADNESS_ASSERT (condition : Bool) : Except Fault Unit :=
  if condition then Except.ok () else Except.error Fault.assertion

/-- The memory of rank 0 the two calls share: the queue and whether
`taskq_mutex` is held. -/
structure Coordinator where
  queue : MacroTaskQ
  taskq_mutex : Bool

/-- The statements of `get_scheduled_task_number_local`, as the places of the
thread that executes it. -/
inductive SelectPoint
  /-- Before `MADNESS_ASSERT(universe.rank()==0);`. -/
  | assertRank
  /-- Before `std::lock_guard<std::mutex> lock(taskq_mutex);`. -/
  | lockGuard
  /-- Before `auto it=std::find_if(taskq.begin(),taskq.end(),is_Waiting);`. -/
  | findIf
  /-- Before `if (it!=taskq.end()) {…}`, with the iterator found. -/
  | branch (it : Nat)
  /-- At `return`, before the destructor of `lock` releases the mutex. -/
  | unlock (result : Int)
  /-- Returned. -/
  | done (result : Int)
  /-- Ended by the assertion. -/
  | aborted
  deriving DecidableEq, Repr

/-- The statements of `set_complete_local`, as the places of the thread that
executes it. -/
inductive CompletePoint
  /-- Before `MADNESS_ASSERT(universe.rank()==0);`. -/
  | assertRank
  /-- Before `taskq[task_number]->set_complete();`. -/
  | setComplete
  /-- Returned. -/
  | done
  /-- Ended by the assertion or by an access outside the vector. -/
  | aborted (fault : Fault)
  deriving DecidableEq, Repr

/-- One statement of `get_scheduled_task_number_local`.  The thread cannot move
(`none`) when it waits for the mutex or has ended. -/
def selectStep (m : Coordinator) : SelectPoint → Option (Coordinator × SelectPoint)
  | SelectPoint.assertRank =>
    match MADNESS_ASSERT (decide (m.queue.rank = 0)) with
    | Except.ok _ => some (m, SelectPoint.lockGuard)
    | Except.error _ => some (m, SelectPoint.aborted)
  | SelectPoint.lockGuard =>
    if m.taskq_mutex then none else some (⟨m.queue, true⟩, SelectPoint.findIf)
  | SelectPoint.findIf =>
    some (m, SelectPoint.branch (find_if (fun p => (m.queue.heap p).is_waiting) m.queue.taskq))
  | SelectPoint.branch it =>
    if h : it < m.queue.taskq.length then
      some (⟨m.queue.call (m.queue.taskq.get ⟨it, h⟩) MacroTaskBase.set_running, m.taskq_mutex⟩,
        SelectPoint.unlock (it : Int))
    else
      some (m, SelectPoint.unlock (-1))
  | SelectPoint.unlock result => some (⟨m.queue, false⟩, SelectPoint.done result)
  | SelectPoint.done _ => none
  | SelectPoint.aborted => none

/-- One statement of `set_complete_local(task_number)`.  No statement of it
takes or waits for the mutex. -/
def completeStep (task_number : Int) (m : Coordinator) :
    CompletePoint → Option (Coordinator × CompletePoint)
  | CompletePoint.assertRank =>
    match MADNESS_ASSERT (decide (m.queue.rank = 0)) with
    | Except.ok _ => some (m, CompletePoint.setComplete)
    | Except.error e => some (m, CompletePoint.aborted e)
  | CompletePoint.setComplete =>
    if h : 0 ≤ task_number ∧ task_number.toNat < m.queue.taskq.length then
      some (⟨m.queue.call (m.queue.taskq.get ⟨task_number.toNat, h.2⟩)
        MacroTaskBase.set_complete, m.taskq_mutex⟩, CompletePoint.done)
    else
      some (m, CompletePoint.aborted Fault.outOfRange)
  | CompletePoint.done => none
  | CompletePoint.aborted _ => none

/-- The thread of `get_scheduled_task_number_local` running alone for at most
`n` statements. -/
def selectRun : Nat → Coordinator → SelectPoint → Coordinator × SelectPoint
  | 0, m, pt => (m, pt)
  | n + 1, m, pt =>
    match selectStep m pt with
    | some (m', pt') => selectRun n m' pt'
    | none => (m, pt)

/-- The thread of `set_complete_local(task_number)` running alone for at most
`n` statements. -/
def completeRun (task_number : Int) : Nat → Coordinator → CompletePoint →
    Coordinator × CompletePoint
  | 0, m, pt => (m, pt)
  | n + 1, m, pt =>
    match completeStep task_number m pt with
    | some (m', pt') => completeRun task_number n m' pt'
    | none => (m, pt)

/-- A thread in `get_scheduled_task_number_local` and a thread in
`set_complete_local` on rank 0. -/
structure Racing where
  shared : Coordinator
  select : SelectPoint
  complete : CompletePoint

/-- Which of the two threads executes the next statement. -/
inductive Turn
  | select
  | complete
  deriving DecidableEq, Repr

/-- One statement of the thread whose turn it is; `none` when that thread cannot
move. -/
def raceStep (task_number : Int) (s : Racing) : Turn → Option Racing
  | Turn.select =>
    (selectStep s.shared s.select).map (fun r => ⟨r.1, r.2, s.complete⟩)
  | Turn.complete =>
    (completeStep task_number s.shared s.complete).map (fun r => ⟨r.1, s.select, r.2⟩)

/-- The statements executed in the order of a list of turns. -/
def raceRun (task_number : Int) : Racing → List Turn → Option Racing
  | s, [] => some s
  | s, t :: rest =>
    match raceStep task_number s t with
    | some s' => raceRun task_number s' rest
    | none => none

/-- A coordinator queue in the middle of a batch: the task at index 0 was
dispatched and is Running, the task at index 1 is Waiting. -/
def midBatch : MacroTaskQ :=
  ⟨0, fun x => ⟨0, if x = 50 then Status.Running else Status.Waiting⟩, [50, 51]⟩

/-- The queue `midBatch` on a process that is not the coordinator. -/
def midBatchElsewhere : MacroTaskQ :=
  ⟨3, fun x => ⟨0, if x = 50 then Status.Running else Status.Waiting⟩, [50, 51]⟩

/-! ### One pass of one process through the loop of `run_all` -/

/-- The select-next requests a process sends in
`get_scheduled_task_number(subworld)`:
`if (subworld.rank()==0) number=this->send(ProcessID(0), …);`, the other
processes of the subcluster receive the number by the broadcast. -/
def loop_pass_requests (subworld_rank : Nat) : Nat :=
  if subworld_rank = 0 then 1 else 0

/-- The `set_complete_local` requests a process sends to rank 0 in one pass
through the body of the loop of `run_all`, when its subcluster received
`element`: none after `if (element<0) break;`, otherwise `task->run(…)` and then
`set_complete(element)`, which is
`this->task(ProcessID(0), &MacroTaskQ::set_complete_local, task_number)`.  The
rank of the process in its subcluster is not looked at. -/
def loop_pass_completions (_subworld_rank : Nat) (element : Int) : List Int :=
  if element < 0 then [] else [element]

/-- The `set_complete_local` requests the `m` processes of a subcluster send in
one pass through the body of the loop. -/
def subcluster_completions (m : Nat) (element : Int) : List Int :=
  (List.range m).flatMap (fun k => loop_pass_completions k element)

/-- The select-next requests the `m` processes of a subcluster send in one pass
through the body of the loop. -/
def subcluster_requests (m : Nat) : Nat :=
  ((List.range m).map loop_pass_requests).sum

/-- The statement `std::shared_ptr<MacroTaskBase> task=taskq[element];` of the
loop of `run_all`, on the list of the process that executes it; it is reached
with `element >= 0` and the access is unchecked. -/
def run_all_task (q : MacroTaskQ) (element : Int) : Except Fault TaskPtr :=
  if h : 0 ≤ element ∧ element.toNat < q.taskq.length then
    Except.ok (q.taskq.get ⟨element.toNat, h.2⟩)
  else
    Except.error Fault.outOfRange

/-- The queue of the universe is the one of rank 0, and every index a
subcluster is executing or a pending completion request carries is an index of
its list. -/
def indicesInRange (u : Universe) : Prop :=
  u.coordinator.rank = 0 ∧
  (∀ e ∈ u.inflight, 0 ≤ e ∧ e.toNat < u.coordinator.taskq.length) ∧
  (∀ (g m : Nat) (e : Int), u.subclusters[g]? = some (Subcluster.mk m (Loop.running e)) →
    0 ≤ e ∧ e.toNat < u.coordinator.taskq.length)

/-- Every index a subcluster is executing, and every index a pending completion
request carries, was dispatched: the task stored there is Running or Complete. -/
def dispatchedStarted (u : Universe) : Prop :=
  (∀ e ∈ u.inflight, ∀ p : TaskPtr, u.coordinator.taskq[e.toNat]? = some p →
    (u.coordinator.heap p).stat = Status.Running ∨
      (u.coordinator.heap p).stat = Status.Complete) ∧
  (∀ (g m : Nat) (e : Int), u.subclusters[g]? = some (Subcluster.mk m (Loop.running e)) →
    ∀ p : TaskPtr, u.coordinator.taskq[e.toNat]? = some p →
      (u.coordinator.heap p).stat = Status.Running ∨
        (u.coordinator.heap p).stat = Status.Complete)

/-! ### `runners.hpp`: the name of a frequency run and `tryMOLDFT`

A `std::string` is the list of its characters.  `std::to_string(double)` is
library code; its value (the number in fixed notation with six digits after the
point) is taken as the argument `frequency_string`. -/

/-- The constant `std::string::npos`. -/
def npos : Nat := 2 ^ 64 - 1

/-- The call `s.find(".")` of `std::string`: the position of the first point, or
`npos` when there is none. -/
def string_find (s : List Char) (c : Char) : Nat :=
  if s.indexOf c < s.length then s.indexOf c else npos

/-- The call `s.replace(pos, len, str)` of `std::string`: it throws
`std::out_of_range` (`none`) when `pos > s.size()`; otherwise the characters
from `pos` on, `len` of them or as many as there are, are replaced by `str`. -/
def string_replace (s : List Char) (pos len : Nat) (str : List Char) : Option (List Char) :=
  if pos > s.length then none
  else some (s.take pos ++ str ++ s.drop (pos + min len (s.length - pos)))

/-- The function `generate_response_frequency_run_path`:
`sp = s_frequency.find(".")`, `s_frequency.replace(sp, sp, "-")`,
`run_name = property + "_" + xc + "_" + s_frequency`, and the run path is
`moldft_path` followed by `"/"` and `run_name`. -/
def generate_response_frequency_run_path (moldft_path property frequency_string xc : List Char) :
    Option (List Char) :=
  let sp := string_find frequency_string '.'
  match string_replace frequency_string sp sp ['-'] with
  | none => none
  | some s_frequency =>
    let run_name := property ++ ['_'] ++ xc ++ ['_'] ++ s_frequency
    some (moldft_path ++ ['/'] ++ run_name)

/-- The name the documentation of `generate_response_frequency_run_path` gives
(`[property]_[xc]_[1-100]` for the frequency 1.100): the number with its point
replaced by `-` and every digit kept. -/
def documented_frequency_run_path (moldft_path property frequency_string xc : List Char) :
    List Char :=
  moldft_path ++ ['/'] ++ (property ++ ['_'] ++ xc ++ ['_']
    ++ frequency_string.map (fun ch => if ch = '.' then '-' else ch))

/-- The part of `CalculationParameters` that `tryMOLDFT` reads: the value of
`get<std::vector<double>>("protocol")`, the thresholds as rational numbers. -/
structure CalculationParameters where
  protocol : List Rat

/-- The function `tryMOLDFT(p1, p2)`: `proto1` and `proto2` are both read from
`p1`, and the result is `*(proto1.end() - 1) != *(proto2.end() - 1)`; reading
the last element of an empty vector is undefined (`none`). -/
def tryMOLDFT (p1 p2 : CalculationParameters) : Option Bool :=
  let proto1 := p1.protocol
  let proto2 := p1.protocol
  match proto1.getLast?, proto2.getLast? with
  | some last1, some last2 => some (decide (last1 ≠ last2))
  | _, _ => none

/-- The condition `tryMOLDFT(param1, param_calc) || try_run` under which
`runMOLDFT` runs the calculation. -/
def runMOLDFT_runs (param1 param_calc : CalculationParameters) (try_run : Bool) :
    Option Bool :=
  (tryMOLDFT param1 param_calc).map (fun differ => differ || try_run)

/-- The parameters `runMOLDFT` sets without `high_prec`:
`protocol = {1e-4, 1e-6}`. -/
def lowPrecisionParameters : CalculationParameters := ⟨[1 / 10000, 1 / 1000000]⟩

/-- The parameters of a `calc_info.json` written by a run with `high_prec`:
`protocol = {1e-4, 1e-6, 1e-8}`. -/
def highPrecisionParameters : CalculationParameters :=
  ⟨[1 / 10000, 1 / 1000000, 1 / 100000000]⟩

/-! ### `runners.hpp`: `RunResponse` and `runFrequencyTests`

A path is the list of the characters of its string, a frequency the text
`std::to_string` gives for it.  The file system and the response solver are not
among the source files; they are the parameter `ResponseSolver`. -/

/-- The function `addPath(root, branch)`: `p_branch = root; p_branch += branch;`. -/
def addPath (root branch : List Char) : List Char := root ++ branch

/-- The call `filename()` of `std::filesystem::path`: the part of the path after
its last `/`. -/
def path_filename (p : List Char) : List Char :=
  (p.reverse.takeWhile (fun ch => ch != '/')).reverse

/-- The function `generate_frequency_save_path`: the save path
`frequency_run_path + "/" + "restart_" + run_name + ".00000"` and the save
string `"restart_" + run_name`, with `run_name` the file name of the run path. -/
def generate_frequency_save_path (frequency_run_path : List Char) : List Char × List Char :=
  let run_name := path_filename frequency_run_path
  let save_string := "restart_".toList ++ run_name
  (frequency_run_path ++ "/".toList ++ save_string ++ ".00000".toList, save_string)

/-- What `RunResponse` and `runFrequencyTests` use and the source files do not
hold, over a state `σ` of the files and the current directory. -/
structure ResponseSolver (σ : Type) where
  /-- The call `std::filesystem::current_path(p)`. -/
  current_path : σ → List Char → σ
  /-- The directory is created when `std::filesystem::is_directory` does not
  find it. -/
  ensure_directory : σ → List Char → σ
  /-- The file `response_base.json` exists in the current directory and its
  entry `"converged"` is true. -/
  base_converged : σ → Bool
  /-- Writing the input, `FrequencyResponse calc(…)` and `calc.solve(world)` for
  a frequency, property, xc, restart path and precision: the entry
  `"converged"` of `calc.j_molresponse`, and the files afterwards. -/
  solve : σ → List Char → List Char → List Char → List Char → Bool → Bool × σ

/-- The function `set_frequency_path_and_restart`, as far as its result goes:
the run path is generated (`std::out_of_range` of `replace` is `none`), the run
directory is created if needed and entered, and the save path of
`generate_frequency_save_path` is returned.  The restart settings it writes to
the parameters are input of the solver. -/
def set_frequency_path_and_restart {σ : Type} (S : ResponseSolver σ) (w : σ)
    (property frequency xc moldft_path : List Char) : Option (List Char × σ) :=
  match generate_response_frequency_run_path moldft_path property frequency xc with
  | none => none
  | some frequency_run_path =>
    some ((generate_frequency_save_path frequency_run_path).1,
      S.current_path (S.ensure_directory w frequency_run_path) frequency_run_path)

/-- The function `RunResponse`: the save path comes from
`set_frequency_path_and_restart`; when `response_base.json` says converged the
result is `{save_path, true}` at once, otherwise the solver runs and the result
is `{save_path, calc.j_molresponse["converged"]}`.  `none` is an exception
leaving the function. -/
def RunResponse {σ : Type} (S : ResponseSolver σ) (w : σ)
    (frequency property xc moldft_path restart_path : List Char) (highPrecision : Bool) :
    Option ((List Char × Bool) × σ) :=
  match set_frequency_path_and_restart S w property frequency xc moldft_path with
  | none => none
  | some (save_path, w1) =>
    if S.base_converged w1 then
      some ((save_path, true), w1)
    else
      some ((save_path, (S.solve w1 frequency property xc restart_path highPrecision).1),
        (S.solve w1 frequency property xc restart_path highPrecision).2)

/-- The data members of `struct frequencySchema`. -/
structure frequencySchema where
  mol_name : List Char
  xc : List Char
  op : List Char
  moldft_path : List Char
  freq : List (List Char)

/-- The exceptions that leave `runFrequencyTests`. -/
inductive Thrown
  /-- The statement `throw Response_Convergence_Error{};` of `runFrequencyTests`. -/
  | Response_Convergence_Error
  /-- An exception that left `RunResponse`. -/
  | fromRunResponse
  deriving DecidableEq, Repr

/-- One call of `RunResponse` by `runFrequencyTests`: the frequency and the
restart path passed, and the pair returned (`none` when the call threw). -/
structure Invocation where
  frequency : List Char
  restart_path : List Char
  result : Option (List Char × Bool)
  deriving DecidableEq, Repr

/-- What a call of `runFrequencyTests` did: its calls of `RunResponse` in order,
the exception that left it if any, and the files afterwards. -/
structure FrequencyTests (σ : Type) where
  invocations : List Invocation
  thrown : Option Thrown
  world : σ

/-- The head of the body of the loop of `runFrequencyTests`:
`if (first) {first = false;} else if (success.second) {restart_path =
success.first;} else {throw Response_Convergence_Error{};}`, as the restart path
after it, `none` for the throw. -/
def restart_or_throw (restart_path : List Char) (success : List Char × Bool) (first : Bool) :
    Option (List Char) :=
  if first then some restart_path
  else if success.2 then some success.1
  else none

/-- The loop `for (const auto &freq: schema.freq)` of `runFrequencyTests`, from
the values of `restart_path`, `success` and `first` at the start of a pass. -/
def frequency_loop {σ : Type} (S : ResponseSolver σ) (schema : frequencySchema)
    (high_prec : Bool) :
    List (List Char) → σ → List Char → List Char × Bool → Bool → FrequencyTests σ
  | [], w, _, _, _ => ⟨[], none, w⟩
  | freq :: rest, w, restart_path, success, first =>
    match restart_or_throw restart_path success first with
    | none =>
      ⟨[], some Thrown.Response_Convergence_Error, S.current_path w schema.moldft_path⟩
    | some restart =>
      match RunResponse S (S.current_path w schema.moldft_path) freq schema.op schema.xc
          schema.moldft_path restart high_prec with
      | none =>
        ⟨[⟨freq, restart, none⟩], some Thrown.fromRunResponse,
          S.current_path w schema.moldft_path⟩
      | some (result, w') =>
        ⟨⟨freq, restart, some result⟩
            :: (frequency_loop S schema high_prec rest w' restart result false).invocations,
          (frequency_loop S schema high_prec rest w' restart result false).thrown,
          (frequency_loop S schema high_prec rest w' restart result false).world⟩

/-- The function `runFrequencyTests`: the first restart path is
`moldft_path + "/" + op + "_0-000000.00000/restart_" + op + "_0-000000.00000"`,
`success` starts as `{moldft_path, false}` and `first` as `true`. -/
def runFrequencyTests {σ : Type} (S : ResponseSolver σ) (w : σ) (schema : frequencySchema)
    (high_prec : Bool) : FrequencyTests σ :=
  frequency_loop S schema high_prec schema.freq (S.current_path w schema.moldft_path)
    (addPath schema.moldft_path ("/".toList ++ schema.op ++ "_0-000000.00000/restart_".toList
      ++ schema.op ++ "_0-000000.00000".toList))
    (schema.moldft_path, false) true

/-- A solver over a world that counts the runs: the second run does not
converge, every other run does; no `response_base.json` is found. -/
def secondRunFails : ResponseSolver Nat where
  current_path := fun w _ => w
  ensure_directory := fun w _ => w
  base_converged := fun _ => false
  solve := fun w _ _ _ _ _ => (decide (w ≠ 1), w + 1)

/-- A solver over a world that counts the runs: the third run does not
converge, every other run does. -/
def thirdRunFails : ResponseSolver Nat where
  current_path := fun w _ => w
  ensure_directory := fun w _ => w
  base_converged := fun _ => false
  solve := fun w _ _ _ _ _ => (decide (w ≠ 2), w + 1)

/-- The schema of a dipole run of `h2o` with `hf` at the frequencies 0, 0.05 and
0.1. -/
def threeFrequencies : frequencySchema :=
  ⟨"h2o".toList, "hf".toList, "dipole".toList, "/hf/h2o".toList,
    ["0.000000".toList, "0.050000".toList, "0.100000".toList]⟩

/-! ## Facts about `find_if` -/

theorem find_if_le (pred : TaskPtr → Bool) (l : List TaskPtr) : find_if pred l ≤ l.length := by
  induction l with
  | nil => simp [find_if]
  | cons p rest ih =>
    simp only [find_if, List.length_cons]
    split <;> omega

theorem find_if_lt_iff (pred : TaskPtr → Bool) (l : List TaskPtr) :
    find_if pred l < l.length ↔ ∃ p ∈ l, pred p = true := by
  induction l with
  | nil => simp [find_if]
  | cons p rest ih =>
    simp only [find_if, List.length_cons, List.mem_cons]
    by_cases hp : pred p = true
    · simp only [hp, if_true]
      constructor
      · intro _; exact ⟨p, Or.inl rfl, hp⟩
      · intro _; omega
    · simp only [hp, if_false, Bool.false_eq_true]
      rw [Nat.add_lt_add_iff_right, ih]
      constructor
      · rintro ⟨x, hx, hpx⟩; exact ⟨x, Or.inr hx, hpx⟩
      · rintro ⟨x, hx | hx, hpx⟩
        · subst hx; exact absurd hpx hp
        · exact ⟨x, hx, hpx⟩

theorem find_if_found (pred : TaskPtr → Bool) (l : List TaskPtr)
    (h : find_if pred l < l.length) : pred (l.get ⟨find_if pred l, h⟩) = true := by
  induction l with
  | nil => simp [find_if] at h
  | cons p rest ih =>
    by_cases hp : pred p = true
    · simp [find_if, hp]
    · have h2 : find_if pred rest < rest.length := by
        simp only [find_if, hp, if_false, Bool.false_eq_true, List.length_cons] at h
        omega
      have := ih h2
      simp only [find_if, hp, if_false, Bool.false_eq_true, List.get_eq_getElem,
        List.getElem_cons_succ] at this ⊢
      exact this

theorem find_if_before (pred : TaskPtr → Bool) (l : List TaskPtr) (j : Nat)
    (hj : j < find_if pred l) (x : TaskPtr) (hx : l[j]? = some x) : pred x = false := by
  induction l generalizing j with
  | nil => simp at hx
  | cons p rest ih =>
    by_cases hp : pred p = true
    · simp [find_if, hp] at hj
    · simp only [find_if, hp, if_false, Bool.false_eq_true] at hj
      cases j with
      | zero =>
        simp only [List.getElem?_cons_zero, Option.some.injEq] at hx
        subst hx
        simpa using hp
      | succ k =>
        simp only [List.getElem?_cons_succ] at hx
        exact ih k (by omega) hx

/-! ## Facts about a call through a pointer -/

theorem statusAt_eq_some (q : MacroTaskQ) (i : Nat) (s : Status) :
    q.statusAt i = some s ↔ ∃ p, q.taskq[i]? = some p ∧ (q.heap p).stat = s := by
  simp [statusAt]

theorem statusAt_call (q : MacroTaskQ) (p : TaskPtr) (f : MacroTaskBase → MacroTaskBase)
    (j : Nat) :
    (q.call p f).statusAt j
      = (q.taskq[j]?).map (fun x => if x = p then (f (q.heap p)).stat else (q.heap x).stat) := by
  simp only [statusAt, call]
  cases q.taskq[j]? with
  | none => rfl
  | some x =>
    simp only [Option.map_some']
    split <;> rfl

/-- Select-next on the coordinator, spelled out: with `it` the distance found by
`find_if`, either `it` is inside the vector and the task `p` there, which is
waiting, is set running, or `it` is the length and `-1` is returned with the
state as it was. -/
theorem get_scheduled_task_number_local_eq (q : MacroTaskQ) (h0 : q.rank = 0) :
    (∃ p, q.taskq[find_if (fun p => (q.heap p).is_waiting) q.taskq]? = some p ∧
        (q.heap p).stat = Status.Waiting ∧
        get_scheduled_task_number_local q
          = Except.ok (((find_if (fun p => (q.heap p).is_waiting) q.taskq : Nat) : Int),
              q.call p MacroTaskBase.set_running)) ∨
    (find_if (fun p => (q.heap p).is_waiting) q.taskq = q.taskq.length ∧
        get_scheduled_task_number_local q = Except.ok (-1, q)) := by
  by_cases h : find_if (fun p => (q.heap p).is_waiting) q.taskq < q.taskq.length
  · left
    refine ⟨q.taskq.get ⟨_, h⟩, ?_, ?_, ?_⟩
    · simp [List.getElem?_eq_getElem h]
    · simpa [MacroTaskBase.is_waiting] using find_if_found _ _ h
    · simp [get_scheduled_task_number_local, h0, h]
  · right
    have := find_if_le (fun p => (q.heap p).is_waiting) q.taskq
    refine ⟨by omega, ?_⟩
    simp [get_scheduled_task_number_local, h0, h]

/-- On the coordinator select-next returns normally. -/
theorem select_returns (q : MacroTaskQ) (h0 : q.rank = 0) :
    ∃ (r : Int) (q' : MacroTaskQ), get_scheduled_task_number_local q = Except.ok (r, q') := by
  rcases get_scheduled_task_number_local_eq q h0 with ⟨_, _, _, heq⟩ | ⟨_, heq⟩
  · exact ⟨_, _, heq⟩
  · exact ⟨_, _, heq⟩

theorem exists_waiting_iff (q : MacroTaskQ) :
    (∃ i, q.statusAt i = some Status.Waiting)
      ↔ find_if (fun p => (q.heap p).is_waiting) q.taskq < q.taskq.length := by
  rw [find_if_lt_iff]
  constructor
  · rintro ⟨i, hi⟩
    obtain ⟨p, hp, hs⟩ := (statusAt_eq_some q i _).1 hi
    exact ⟨p, List.getElem?_mem hp, by simp [MacroTaskBase.is_waiting, hs]⟩
  · rintro ⟨p, hp, hw⟩
    obtain ⟨i, hi⟩ := List.getElem?_of_mem hp
    refine ⟨i, (statusAt_eq_some q i _).2 ⟨p, hi, ?_⟩⟩
    simpa [MacroTaskBase.is_waiting] using hw

/-- Every normal return of select-next is one of two: an index `i` inside the
vector whose task `p` was waiting and is now running, with no waiting entry
before `i`; or `-1` with the state untouched and no waiting entry at all. -/
theorem select_ok_cases (q q' : MacroTaskQ) (r : Int)
    (h : get_scheduled_task_number_local q = Except.ok (r, q')) :
    (∃ (i : Nat) (p : TaskPtr), r = (i : Int) ∧ q.taskq[i]? = some p ∧
        (q.heap p).stat = Status.Waiting ∧ q' = q.call p MacroTaskBase.set_running ∧
        ∀ j, j < i → q.statusAt j ≠ some Status.Waiting) ∨
    (r = -1 ∧ q' = q ∧ ∀ i, q.statusAt i ≠ some Status.Waiting) := by
  have h0 : q.rank = 0 := by
    by_contra hne
    simp [get_scheduled_task_number_local, hne] at h
  rcases get_scheduled_task_number_local_eq q h0 with ⟨p, hget, hstat, heq⟩ | ⟨hlen, heq⟩
  · left
    rw [heq] at h
    injection h with h
    obtain ⟨h1, h2⟩ := Prod.mk.inj h
    refine ⟨_, p, h1.symm, hget, hstat, h2.symm, ?_⟩
    intro j hj hs
    obtain ⟨x, hx, hxs⟩ := (statusAt_eq_some q j _).1 hs
    have := find_if_before _ _ j hj x hx
    simp [MacroTaskBase.is_waiting, hxs] at this
  · right
    rw [heq] at h
    injection h with h
    obtain ⟨h1, h2⟩ := Prod.mk.inj h
    refine ⟨h1.symm, h2.symm, ?_⟩
    intro i hi
    have := (exists_waiting_iff q).1 ⟨i, hi⟩
    omega

/-- Every normal return of set-complete has set the task stored at the given
index, which is inside the vector, complete. -/
theorem complete_ok_cases (q q' : MacroTaskQ) (i : Int)
    (h : set_complete_local q i = Except.ok q') :
    ∃ p, 0 ≤ i ∧ q.taskq[i.toNat]? = some p ∧ q' = q.call p MacroTaskBase.set_complete := by
  unfold set_complete_local at h
  split at h
  · split at h
    · rename_i hr
      injection h with h
      exact ⟨_, hr.1, by simp [List.getElem?_eq_getElem hr.2], h.symm⟩
    · cases h
  · cases h

/-- A member call that does not write Waiting cannot make an entry waiting. -/
theorem waiting_before_call (q : MacroTaskQ) (p : TaskPtr) (f : MacroTaskBase → MacroTaskBase)
    (hf : ∀ t, (f t).stat ≠ Status.Waiting) (j : Nat)
    (h : (q.call p f).statusAt j = some Status.Waiting) : q.statusAt j = some Status.Waiting := by
  rw [statusAt_call] at h
  cases hx : q.taskq[j]? with
  | none => simp [hx] at h
  | some x =>
    simp only [hx, Option.map_some', Option.some.injEq] at h
    by_cases hxp : x = p
    · simp only [hxp, if_true] at h
      exact absurd h (hf _)
    · simp only [hxp, if_false] at h
      simp [statusAt, hx, h]

theorem waiting_before_select (q q' : MacroTaskQ) (r : Int)
    (h : get_scheduled_task_number_local q = Except.ok (r, q')) (j : Nat)
    (hj : q'.statusAt j = some Status.Waiting) : q.statusAt j = some Status.Waiting := by
  rcases select_ok_cases q q' r h with ⟨i, p, _, _, _, hq, _⟩ | ⟨_, hq, _⟩
  · subst hq
    exact waiting_before_call q p _ (by intro t; simp [MacroTaskBase.set_running]) j hj
  · subst hq; exact hj

theorem waiting_before_complete (q q' : MacroTaskQ) (i : Int)
    (h : set_complete_local q i = Except.ok q') (j : Nat)
    (hj : q'.statusAt j = some Status.Waiting) : q.statusAt j = some Status.Waiting := by
  obtain ⟨p, _, _, hq⟩ := complete_ok_cases q q' i h
  subst hq
  exact waiting_before_call q p _ (by intro t; simp [MacroTaskBase.set_complete]) j hj

/-- An index returned by some select-next call of a sequence was waiting in the
state the sequence started in. -/
theorem dispatched_was_waiting (ops : List Op) :
    ∀ (q : MacroTaskQ) (d : MacroTaskQ × Int), d ∈ dispatches q ops → 0 ≤ d.2 →
      q.statusAt d.2.toNat = some Status.Waiting := by
  induction ops with
  | nil => intro q d hd; simp [dispatches] at hd
  | cons op ops ih =>
    intro q d hd hnn
    cases op with
    | select =>
      simp only [dispatches] at hd
      split at hd
      · rename_i r q' heq
        rcases List.mem_cons.1 hd with rfl | hd
        · rcases select_ok_cases _ _ _ heq with ⟨i, p, hr, hget, hstat, _, _⟩ | ⟨hr, _, _⟩
          · subst hr
            exact (statusAt_eq_some _ _ _).2 ⟨p, by simpa using hget, hstat⟩
          · subst hr
            have hnn' : (0 : Int) ≤ -1 := hnn
            omega
        · exact waiting_before_select _ _ _ heq _ (ih q' d hd hnn)
      · simp at hd
    | complete i =>
      simp only [dispatches] at hd
      split at hd
      · rename_i q' heq
        exact waiting_before_complete _ _ _ heq _ (ih q' d hd hnn)
      · simp at hd

/-- A select-next call returns an index only while it is waiting in the state
the call is made in. -/
theorem dispatched_while_waiting (ops : List Op) :
    ∀ (q : MacroTaskQ) (d : MacroTaskQ × Int), d ∈ dispatches q ops → 0 ≤ d.2 →
      d.1.statusAt d.2.toNat = some Status.Waiting := by
  induction ops with
  | nil => intro q d hd; simp [dispatches] at hd
  | cons op ops ih =>
    intro q d hd hnn
    cases op with
    | select =>
      simp only [dispatches] at hd
      split at hd
      · rename_i r q' heq
        rcases List.mem_cons.1 hd with rfl | hd
        · exact dispatched_was_waiting [Op.select] _ _ (by simp [dispatches, heq]) hnn
        · exact ih q' d hd hnn
      · simp at hd
    | complete i =>
      simp only [dispatches] at hd
      split at hd
      · rename_i q' heq
        exact ih q' d hd hnn
      · simp at hd

/-! ## The waiting indices and how select-next consumes them -/

theorem filter_range_none (P : Nat → Bool) (n : Nat) (h : ∀ j, j < n → P j = false) :
    (List.range n).filter P = [] := by
  rw [List.filter_eq_nil_iff]
  intro j hj
  simp [h j (List.mem_range.1 hj)]

/-- Filtering `0, …, n-1` by `P`, when `i < n` is the least index with `P i`:
the result is `i` followed by the indices above `i` that satisfy `P`. -/
theorem filter_range_first (P : Nat → Bool) (i : Nat) (hP : P i = true)
    (hmin : ∀ j, j < i → P j = false) :
    ∀ n, i < n →
      (List.range n).filter P = i :: (List.range n).filter (fun j => P j && decide (i < j)) := by
  intro n
  induction n with
  | zero => intro h; omega
  | succ n ih =>
    intro hlt
    rw [List.range_succ, List.filter_append, List.filter_append]
    by_cases hin : i < n
    · rw [ih hin]
      simp [List.filter_cons, hin]
    · have hi : i = n := by omega
      subst hi
      rw [filter_range_none P i hmin, filter_range_none _ i (by intro j hj; simp [hmin j hj])]
      simp [List.filter_cons, hP]

theorem mem_filter_of_getElem? (P : TaskPtr → Bool) (l : List TaskPtr) (k : Nat) (p : TaskPtr)
    (hk : l[k]? = some p) (hp : P p = true) : p ∈ l.filter P :=
  List.mem_filter.2 ⟨List.getElem?_mem hk, hp⟩

/-- When the waiting tasks of the list are pairwise different objects, a waiting
task object sits at one index only. -/
theorem index_unique_of_waitingDistinct (P : TaskPtr → Bool) (l : List TaskPtr)
    (hnd : (l.filter P).Nodup) :
    ∀ (i j : Nat) (p : TaskPtr), l[i]? = some p → l[j]? = some p → P p = true → i = j := by
  induction l with
  | nil => intro i j p hi; simp at hi
  | cons x l ih =>
    intro i j p hi hj hp
    have hnd' : (l.filter P).Nodup := by
      by_cases hx : P x = true
      · rw [List.filter_cons_of_pos hx] at hnd
        exact (List.nodup_cons.1 hnd).2
      · rw [List.filter_cons_of_neg hx] at hnd
        exact hnd
    cases i with
    | zero =>
      cases j with
      | zero => rfl
      | succ j' =>
        simp only [List.getElem?_cons_zero, Option.some.injEq] at hi
        simp only [List.getElem?_cons_succ] at hj
        subst hi
        rw [List.filter_cons_of_pos hp] at hnd
        exact absurd (mem_filter_of_getElem? P l j' x hj hp) (List.nodup_cons.1 hnd).1
    | succ i' =>
      cases j with
      | zero =>
        simp only [List.getElem?_cons_zero, Option.some.injEq] at hj
        simp only [List.getElem?_cons_succ] at hi
        subst hj
        rw [List.filter_cons_of_pos hp] at hnd
        exact absurd (mem_filter_of_getElem? P l i' x hi hp) (List.nodup_cons.1 hnd).1
      | succ j' =>
        simp only [List.getElem?_cons_succ] at hi hj
        rw [ih hnd' i' j' p hi hj hp]

theorem waitingOnce_of_waitingDistinct (q : MacroTaskQ) (h : waitingDistinct q = true) :
    waitingOnce q := by
  intro i j p hi hj hp
  have hnd : (q.taskq.filter (fun p => (q.heap p).is_waiting)).Nodup := by
    simpa [waitingDistinct] using h
  exact index_unique_of_waitingDistinct _ _ hnd i j p hi hj
    (by simp [MacroTaskBase.is_waiting, hp])

/-- After a member call that does not write Waiting, an entry is waiting exactly
when it was waiting before and does not hold the object of the call. -/
theorem waiting_after_call_iff (q : MacroTaskQ) (p : TaskPtr) (f : MacroTaskBase → MacroTaskBase)
    (hf : ∀ t, (f t).stat ≠ Status.Waiting) (j : Nat) :
    (q.call p f).statusAt j = some Status.Waiting
      ↔ q.statusAt j = some Status.Waiting ∧ q.taskq[j]? ≠ some p := by
  rw [statusAt_call]
  cases hx : q.taskq[j]? with
  | none => simp [statusAt, hx]
  | some x =>
    by_cases hxp : x = p
    · subst hxp
      simp [statusAt, hx, hf]
    · simp [statusAt, hx, hxp]

theorem waitingOnce_call (q : MacroTaskQ) (p : TaskPtr) (f : MacroTaskBase → MacroTaskBase)
    (hf : ∀ t, (f t).stat ≠ Status.Waiting) (h : waitingOnce q) : waitingOnce (q.call p f) := by
  intro i j x hi hj hx
  refine h i j x hi hj ?_
  simp only [call] at hx
  by_cases hxp : x = p
  · simp only [hxp, if_true] at hx
    exact absurd hx (hf _)
  · simpa [hxp] using hx

theorem settled_call (q : MacroTaskQ) (p : TaskPtr) (f : MacroTaskBase → MacroTaskBase)
    (hf : ∀ t, (f t).stat ≠ Status.Waiting) (D : List Int) (h : settled q D) :
    settled (q.call p f) D := by
  intro d hd hnn
  obtain ⟨h1, h2⟩ := h d hd hnn
  exact ⟨h1, fun hw => h2 (waiting_before_call q p f hf _ hw)⟩

theorem set_running_not_waiting (t : MacroTaskBase) :
    (MacroTaskBase.set_running t).stat ≠ Status.Waiting := by
  simp [MacroTaskBase.set_running]

theorem set_complete_not_waiting (t : MacroTaskBase) :
    (MacroTaskBase.set_complete t).stat ≠ Status.Waiting := by
  simp [MacroTaskBase.set_complete]

/-- What one select-next call does to the waiting indices, when the waiting
tasks are pairwise different objects: it returns the first of them and removes
it, or returns `-1` when there is none. -/
theorem waitingIndices_select (q q' : MacroTaskQ) (r : Int) (hq : waitingOnce q)
    (h : get_scheduled_task_number_local q = Except.ok (r, q')) :
    (r = -1 ∧ q' = q ∧ waitingIndices q = []) ∨
    (∃ i : Nat, r = (i : Int) ∧ waitingIndices q = i :: waitingIndices q' ∧
        waitingOnce q' ∧ q'.taskq = q.taskq ∧ q'.rank = q.rank ∧ i < q.taskq.length ∧
        q'.statusAt i ≠ some Status.Waiting ∧
        ∀ j, q'.statusAt j = some Status.Waiting → q.statusAt j = some Status.Waiting) := by
  rcases select_ok_cases q q' r h with ⟨i, p, hr, hget, hstat, hq', hmin⟩ | ⟨hr, hq', hno⟩
  · right
    subst hq'
    have hi : i < q.taskq.length := by
      rcases Nat.lt_or_ge i q.taskq.length with hlt | hge
      · exact hlt
      · rw [List.getElem?_eq_none hge] at hget; cases hget
    have hwi : q.statusAt i = some Status.Waiting := (statusAt_eq_some q i _).2 ⟨p, hget, hstat⟩
    refine ⟨i, hr, ?_, waitingOnce_call q p _ set_running_not_waiting hq, rfl, rfl, hi, ?_, ?_⟩
    · unfold waitingIndices
      rw [filter_range_first _ i (by simpa using hwi) (by intro j hj; simpa using hmin j hj)
        _ hi]
      congr 1
      apply List.filter_congr
      intro j _
      have hiff := waiting_after_call_iff q p _ set_running_not_waiting j
      by_cases hw : q.statusAt j = some Status.Waiting
      · by_cases hij : i < j
        · have hne : q.taskq[j]? ≠ some p := by
            intro hjp
            have := hq i j p hget hjp hstat
            omega
          simp [hw, hij, hiff.2 ⟨hw, hne⟩]
        · have hji : j = i := by
            rcases Nat.lt_or_ge j i with hlt | hge
            · exact absurd hw (hmin j hlt)
            · omega
          subst hji
          have hnw : ¬ (q.call p MacroTaskBase.set_running).statusAt j = some Status.Waiting :=
            fun hc => (hiff.1 hc).2 hget
          simp [hw, hnw]
      · have hnw : ¬ (q.call p MacroTaskBase.set_running).statusAt j = some Status.Waiting :=
          fun hc => hw (hiff.1 hc).1
        simp [hw, hnw]
    · intro hc
      exact ((waiting_after_call_iff q p _ set_running_not_waiting i).1 hc).2 hget
    · intro j hj
      exact waiting_before_call q p _ set_running_not_waiting j hj
  · left
    refine ⟨hr, hq', ?_⟩
    unfold waitingIndices
    exact filter_range_none _ _ (by intro j _; simpa using hno j)

/-- A set-complete call on an entry that is inside the vector and not waiting
returns normally and leaves the waiting indices as they are. -/
theorem waitingIndices_complete (q : MacroTaskQ) (i : Int) (h0 : q.rank = 0) (hq : waitingOnce q)
    (hnn : 0 ≤ i) (hi : i.toNat < q.taskq.length)
    (hnw : q.statusAt i.toNat ≠ some Status.Waiting) :
    ∃ q', set_complete_local q i = Except.ok q' ∧ waitingIndices q' = waitingIndices q ∧
      waitingOnce q' ∧ q'.rank = q.rank ∧ q'.taskq = q.taskq ∧
      ∀ j, q'.statusAt j = some Status.Waiting → q.statusAt j = some Status.Waiting := by
  obtain ⟨p, hget, hok⟩ : ∃ p, q.taskq[i.toNat]? = some p ∧
      set_complete_local q i = Except.ok (q.call p MacroTaskBase.set_complete) :=
    ⟨q.taskq.get ⟨i.toNat, hi⟩, by simp [List.getElem?_eq_getElem hi],
      by simp [set_complete_local, h0, hnn, hi]⟩
  refine ⟨_, hok, ?_, waitingOnce_call q _ _ set_complete_not_waiting hq, rfl, rfl, ?_⟩
  · unfold waitingIndices
    apply List.filter_congr
    intro j _
    have hiff := waiting_after_call_iff q p _ set_complete_not_waiting j
    by_cases hw : q.statusAt j = some Status.Waiting
    · have hne : q.taskq[j]? ≠ some p := by
        intro hjp
        obtain ⟨x, hx, hxs⟩ := (statusAt_eq_some q j _).1 hw
        rw [hjp] at hx
        injection hx with hx
        subst hx
        exact hnw ((statusAt_eq_some q _ _).2 ⟨_, hget, hxs⟩)
      simp [hw, hiff.2 ⟨hw, hne⟩]
    · have hnw' : ¬ (q.call p MacroTaskBase.set_complete).statusAt j
          = some Status.Waiting := fun hc => hw (hiff.1 hc).1
      simp [hw, hnw']
  · intro j hj
    exact waiting_before_call q _ _ set_complete_not_waiting j hj

theorem returned_select_cons (q q' : MacroTaskQ) (r : Int) (ops : List Op)
    (h : get_scheduled_task_number_local q = Except.ok (r, q')) :
    returned q (Op.select :: ops) = r :: returned q' ops := by
  simp [returned, dispatches, h]

theorem returned_complete_cons (q q' : MacroTaskQ) (i : Int) (ops : List Op)
    (h : set_complete_local q i = Except.ok q') :
    returned q (Op.complete i :: ops) = returned q' ops := by
  simp [returned, dispatches, h]

theorem selects_select_cons (ops : List Op) : selects (Op.select :: ops) = selects ops + 1 := by
  simp [selects]

theorem selects_complete_cons (i : Int) (ops : List Op) :
    selects (Op.complete i :: ops) = selects ops := by
  simp [selects]

/-- Draining, in the form that goes through an induction on the sequence: `D`
holds the indices returned before the sequence starts. -/
theorem drain_from (ops : List Op) :
    ∀ (q : MacroTaskQ) (D : List Int) (m : Nat), q.rank = 0 → waitingOnce q → settled q D →
      (∀ k i, ops[k]? = some (Op.complete i) →
        0 ≤ i ∧ (i ∈ D ∨ i ∈ returned q (ops.take k))) →
      selects ops ≤ m →
      returned q ops
        = (((waitingIndices q).map Int.ofNat) ++ List.replicate m (-1)).take (selects ops) := by
  induction ops with
  | nil => intro q D m _ _ _ _ _; simp [returned, dispatches, selects]
  | cons op ops ih =>
    intro q D m h0 hq hD hops hm
    cases op with
    | select =>
      rw [selects_select_cons] at hm ⊢
      obtain ⟨r, q', heq⟩ := select_returns q h0
      rw [returned_select_cons q q' r ops heq]
      have hops' : ∀ k i, ops[k]? = some (Op.complete i) →
          0 ≤ i ∧ (i ∈ r :: D ∨ i ∈ returned q' (ops.take k)) := by
        intro k i hk
        obtain ⟨hnn, hmem⟩ := hops (k + 1) i (by simpa using hk)
        refine ⟨hnn, ?_⟩
        rcases hmem with hmem | hmem
        · exact Or.inl (List.mem_cons_of_mem _ hmem)
        · rw [List.take_succ_cons, returned_select_cons q q' r _ heq] at hmem
          rcases List.mem_cons.1 hmem with hmem | hmem
          · exact Or.inl (hmem ▸ List.mem_cons_self _ _)
          · exact Or.inr hmem
      rcases waitingIndices_select q q' r hq heq with
        ⟨hr, hq', hW⟩ | ⟨i, hr, hW, hq'once, htq, hrank, hi, hnw, hback⟩
      · subst hq'
        have hD' : settled q' (r :: D) := by
          intro d hd hnn
          rcases List.mem_cons.1 hd with hd | hd
          · omega
          · exact hD d hd hnn
        obtain ⟨m', rfl⟩ : ∃ m', m = m' + 1 := ⟨m - 1, by omega⟩
        rw [ih q' (r :: D) m' h0 hq hD' hops' (by omega), hW, hr]
        simp [List.replicate_succ]
      · have hD' : settled q' (r :: D) := by
          intro d hd hnn
          rcases List.mem_cons.1 hd with hd | hd
          · subst hd
            subst hr
            rw [htq]
            exact ⟨by simpa using hi, by simpa using hnw⟩
          · obtain ⟨h1, h2⟩ := hD d hd hnn
            rw [htq]
            exact ⟨h1, fun hw => h2 (hback _ hw)⟩
        rw [ih q' (r :: D) m (by rw [hrank, h0]) hq'once hD' hops' (by omega), hW, hr]
        simp
    | complete i =>
      rw [selects_complete_cons] at hm ⊢
      obtain ⟨hnn, hmem⟩ := hops 0 i (by simp)
      have hiD : i ∈ D := by
        rcases hmem with hmem | hmem
        · exact hmem
        · simp [returned, dispatches] at hmem
      obtain ⟨hi, hnw⟩ := hD i hiD hnn
      obtain ⟨q', heq, hW, hq'once, hrank, htq, hback⟩ :=
        waitingIndices_complete q i h0 hq hnn hi hnw
      rw [returned_complete_cons q q' i ops heq]
      have hD' : settled q' D := by
        intro d hd hdn
        obtain ⟨h1, h2⟩ := hD d hd hdn
        rw [htq]
        exact ⟨h1, fun hw => h2 (hback _ hw)⟩
      have hops' : ∀ k j, ops[k]? = some (Op.complete j) →
          0 ≤ j ∧ (j ∈ D ∨ j ∈ returned q' (ops.take k)) := by
        intro k j hk
        obtain ⟨hjn, hmem⟩ := hops (k + 1) j (by simpa using hk)
        refine ⟨hjn, ?_⟩
        rcases hmem with hmem | hmem
        · exact Or.inl hmem
        · rw [List.take_succ_cons, returned_complete_cons q q' i _ heq] at hmem
          exact Or.inr hmem
      rw [ih q' D m (by rw [hrank, h0]) hq'once hD' hops' hm, hW]

theorem completesReturned_iff (q : MacroTaskQ) (ops : List Op) :
    completesReturned q ops = true ↔
      ∀ k i, ops[k]? = some (Op.complete i) → 0 ≤ i ∧ i ∈ returned q (ops.take k) := by
  unfold completesReturned
  rw [List.all_eq_true]
  constructor
  · intro h k i hk
    have hlt : k < ops.length := by
      rcases Nat.lt_or_ge k ops.length with hlt | hge
      · exact hlt
      · rw [List.getElem?_eq_none hge] at hk; cases hk
    have := h k (List.mem_range.2 hlt)
    simpa [hk] using this
  · intro h k _
    split
    · rename_i i hk
      simpa using h k i hk
    · rfl

/-! ## Submission: `add_tasks` and the first statements of `run_all` -/

theorem add_tasks_cons (q : MacroTaskQ) (t : TaskPtr) (V : List TaskPtr) :
    add_tasks q (t :: V) = add_tasks (add_tasks_body q t) V := rfl

theorem add_tasks_body_rank (q : MacroTaskQ) (t : TaskPtr) : (add_tasks_body q t).rank = q.rank := by
  unfold add_tasks_body add_replicated_task
  split <;> rfl

theorem add_tasks_body_taskq (q : MacroTaskQ) (t : TaskPtr) :
    (add_tasks_body q t).taskq = q.taskq ++ [t] := by
  unfold add_tasks_body add_replicated_task
  split <;> rfl

theorem add_tasks_body_heap_coordinator (q : MacroTaskQ) (t : TaskPtr) (h0 : q.rank = 0)
    (x : TaskPtr) :
    (add_tasks_body q t).heap x
      = if x = t then MacroTaskBase.set_waiting (q.heap t) else q.heap x := by
  simp [add_tasks_body, add_replicated_task, h0, call]

theorem add_tasks_body_heap_other (q : MacroTaskQ) (t : TaskPtr) (h0 : q.rank ≠ 0) :
    (add_tasks_body q t).heap = q.heap := by
  simp [add_tasks_body, add_replicated_task, h0]

theorem add_tasks_rank (V : List TaskPtr) : ∀ q : MacroTaskQ, (add_tasks q V).rank = q.rank := by
  induction V with
  | nil => intro q; rfl
  | cons t V ih => intro q; rw [add_tasks_cons, ih, add_tasks_body_rank]

theorem add_tasks_taskq (V : List TaskPtr) :
    ∀ q : MacroTaskQ, (add_tasks q V).taskq = q.taskq ++ V := by
  induction V with
  | nil => intro q; simp [add_tasks]
  | cons t V ih => intro q; rw [add_tasks_cons, ih, add_tasks_body_taskq]; simp

/-- On rank 0 `add_tasks` sets exactly the submitted task objects waiting. -/
theorem add_tasks_heap_coordinator (V : List TaskPtr) :
    ∀ q : MacroTaskQ, q.rank = 0 → ∀ x,
      (add_tasks q V).heap x
        = if x ∈ V then MacroTaskBase.set_waiting (q.heap x) else q.heap x := by
  induction V with
  | nil => intro q _ x; simp [add_tasks]
  | cons t V ih =>
    intro q h0 x
    rw [add_tasks_cons, ih _ (by rw [add_tasks_body_rank]; exact h0),
      add_tasks_body_heap_coordinator q t h0]
    by_cases hxt : x = t
    · subst hxt
      by_cases hxV : x ∈ V <;> simp [hxV, MacroTaskBase.set_waiting]
    · by_cases hxV : x ∈ V <;> simp [hxV, hxt]

/-- On a rank other than 0 `add_tasks` writes to no task object. -/
theorem add_tasks_heap_other (V : List TaskPtr) :
    ∀ q : MacroTaskQ, q.rank ≠ 0 → (add_tasks q V).heap = q.heap := by
  induction V with
  | nil => intro q _; rfl
  | cons t V ih =>
    intro q h0
    rw [add_tasks_cons, ih _ (by rw [add_tasks_body_rank]; exact h0),
      add_tasks_body_heap_other q t h0]

/-- The status of an old entry after `add_tasks`, when its task object is not
among the submitted ones or the rank is not 0. -/
theorem add_tasks_statusAt_old (q : MacroTaskQ) (V : List TaskPtr) (i : Nat) (p : TaskPtr)
    (hi : q.taskq[i]? = some p) (h : q.rank ≠ 0 ∨ p ∉ V) :
    (add_tasks q V).statusAt i = q.statusAt i := by
  have hlt : i < q.taskq.length := by
    rcases Nat.lt_or_ge i q.taskq.length with hlt | hge
    · exact hlt
    · rw [List.getElem?_eq_none hge] at hi; cases hi
  have hget : (add_tasks q V).taskq[i]? = some p := by
    rw [add_tasks_taskq, List.getElem?_append_left hlt, hi]
  have hheap : (add_tasks q V).heap p = q.heap p := by
    by_cases h0 : q.rank = 0
    · rw [add_tasks_heap_coordinator V q h0 p]
      rcases h with h | h
      · exact absurd h0 h
      · simp [h]
    · rw [add_tasks_heap_other V q h0]
  simp [statusAt, hget, hi, hheap]

/-- The status of an appended entry after `add_tasks`: Waiting on rank 0, the
status the task object had before the call on every other rank. -/
theorem add_tasks_statusAt_new (q : MacroTaskQ) (V : List TaskPtr) (k : Nat) (t : TaskPtr)
    (hk : V[k]? = some t) :
    (add_tasks q V).statusAt (q.taskq.length + k)
      = some (if q.rank = 0 then Status.Waiting else (q.heap t).stat) := by
  have hget : (add_tasks q V).taskq[q.taskq.length + k]? = some t := by
    rw [add_tasks_taskq, List.getElem?_append_right (by omega)]
    simpa using hk
  by_cases h0 : q.rank = 0
  · simp [statusAt, hget, h0, add_tasks_heap_coordinator V q h0 t, List.getElem?_mem hk,
      MacroTaskBase.set_waiting]
  · simp [statusAt, hget, h0, add_tasks_heap_other V q h0]

/-- After `add_tasks` of fresh, pairwise different tasks on a coordinator queue
whose entries are all complete, the waiting indices are the appended ones. -/
theorem waitingIndices_add_tasks (q : MacroTaskQ) (V : List TaskPtr) (h0 : q.rank = 0)
    (hall : ∀ p ∈ q.taskq, (q.heap p).stat = Status.Complete)
    (hfresh : ∀ t ∈ V, t ∉ q.taskq) :
    waitingIndices (add_tasks q V) = List.range' q.taskq.length V.length := by
  unfold waitingIndices
  rw [add_tasks_taskq, List.length_append, List.range_eq_range',
    Nat.add_comm q.taskq.length V.length, ← List.range'_append_1 0 q.taskq.length V.length,
    List.filter_append, Nat.zero_add]
  have h1 : (List.range' 0 q.taskq.length).filter
      (fun i => decide ((add_tasks q V).statusAt i = some Status.Waiting)) = [] := by
    rw [List.filter_eq_nil_iff]
    intro j hj
    have hjlt : j < q.taskq.length := by
      have := List.mem_range'_1.1 hj
      omega
    obtain ⟨p, hget⟩ : ∃ p, q.taskq[j]? = some p :=
      ⟨q.taskq.get ⟨j, hjlt⟩, by simp [List.getElem?_eq_getElem hjlt]⟩
    have hmem : p ∈ q.taskq := List.getElem?_mem hget
    rw [add_tasks_statusAt_old q V j _ hget (Or.inr (fun hV => hfresh _ hV hmem))]
    simp [statusAt, hget, hall _ hmem]
  have h2 : (List.range' q.taskq.length V.length).filter
      (fun i => decide ((add_tasks q V).statusAt i = some Status.Waiting))
        = List.range' q.taskq.length V.length := by
    rw [List.filter_eq_self]
    intro j hj
    obtain ⟨hj1, hj2⟩ := List.mem_range'_1.1 hj
    obtain ⟨k, rfl⟩ : ∃ k, j = q.taskq.length + k := ⟨j - q.taskq.length, by omega⟩
    have hk : k < V.length := by omega
    rw [add_tasks_statusAt_new q V k (V.get ⟨k, hk⟩) (by simp [List.getElem?_eq_getElem hk])]
    simp [h0]
  rw [h1, h2, List.nil_append]

theorem waitingDistinct_add_tasks (q : MacroTaskQ) (V : List TaskPtr) (h0 : q.rank = 0)
    (hall : ∀ p ∈ q.taskq, (q.heap p).stat = Status.Complete)
    (hV : V.Nodup) (hfresh : ∀ t ∈ V, t ∉ q.taskq) :
    waitingDistinct (add_tasks q V) = true := by
  unfold waitingDistinct
  rw [decide_eq_true_eq, add_tasks_taskq, List.filter_append]
  have h1 : q.taskq.filter (fun p => ((add_tasks q V).heap p).is_waiting) = [] := by
    rw [List.filter_eq_nil_iff]
    intro p hp
    have hpV : p ∉ V := fun hV => hfresh p hV hp
    simp [add_tasks_heap_coordinator V q h0 p, hpV, MacroTaskBase.is_waiting, hall p hp]
  rw [h1, List.nil_append]
  exact hV.sublist (List.filter_sublist V)

theorem completesReturned_selects_only (q : MacroTaskQ) (s : Nat) :
    completesReturned q (List.replicate s Op.select) = true := by
  rw [completesReturned_iff]
  intro k i hk
  have := List.getElem?_mem hk
  rw [List.mem_replicate] at this
  exact absurd this.2 (by simp)

theorem selects_replicate (s : Nat) : selects (List.replicate s Op.select) = s := by
  induction s with
  | zero => rfl
  | succ n ih => rw [List.replicate_succ, selects_select_cons, ih]

theorem statuses_call (q : MacroTaskQ) (p : TaskPtr) (f : MacroTaskBase → MacroTaskBase) :
    (q.call p f).statuses
      = q.taskq.map (fun x => if x = p then (f (q.heap p)).stat else (q.heap x).stat) := by
  simp only [statuses, call]
  apply List.map_congr_left
  intro x _
  split <;> rfl

/-- The statements of the submission phase of `run_all`, component by
component. -/
theorem set_waiting_loop (V : List TaskPtr) :
    ∀ q : MacroTaskQ,
      (V.foldl (fun s t => if s.rank = 0 then s.call t MacroTaskBase.set_waiting else s) q).rank
          = q.rank ∧
      (V.foldl (fun s t => if s.rank = 0 then s.call t MacroTaskBase.set_waiting else s) q).taskq
          = q.taskq ∧
      ∀ x, (V.foldl (fun s t => if s.rank = 0 then s.call t MacroTaskBase.set_waiting else s)
          q).heap x
        = if q.rank = 0 ∧ x ∈ V then MacroTaskBase.set_waiting (q.heap x) else q.heap x := by
  induction V with
  | nil => intro q; simp
  | cons t V ih =>
    intro q
    simp only [List.foldl_cons]
    obtain ⟨h1, h2, h3⟩ := ih (if q.rank = 0 then q.call t MacroTaskBase.set_waiting else q)
    by_cases h0 : q.rank = 0
    · simp only [h0, if_true] at h1 h2 h3 ⊢
      refine ⟨h1.trans h0, h2, ?_⟩
      intro x
      rw [h3 x]
      have hr : (q.call t MacroTaskBase.set_waiting).rank = 0 := h0
      simp only [hr, true_and, List.mem_cons]
      by_cases hxt : x = t
      · subst hxt
        by_cases hxV : x ∈ V <;> simp [hxV, call, MacroTaskBase.set_waiting]
      · by_cases hxV : x ∈ V <;> simp [hxV, hxt, call]
    · simp only [h0, if_false] at h1 h2 h3 ⊢
      refine ⟨h1, h2, ?_⟩
      intro x
      rw [h3 x]
      simp

theorem push_back_loop (V : List TaskPtr) :
    ∀ q : MacroTaskQ, V.foldl add_replicated_task q = ⟨q.rank, q.heap, q.taskq ++ V⟩ := by
  induction V with
  | nil => intro q; simp
  | cons t V ih =>
    intro q
    simp only [List.foldl_cons]
    rw [ih]
    simp [add_replicated_task]

theorem run_all_submit_rank (q : MacroTaskQ) (V : List TaskPtr) :
    (run_all_submit q V).rank = q.rank := by
  unfold run_all_submit
  rw [push_back_loop]
  exact (set_waiting_loop V q).1

theorem run_all_submit_taskq (q : MacroTaskQ) (V : List TaskPtr) :
    (run_all_submit q V).taskq = q.taskq ++ V := by
  unfold run_all_submit
  rw [push_back_loop]
  simp only
  rw [(set_waiting_loop V q).2.1]

theorem run_all_submit_heap (q : MacroTaskQ) (V : List TaskPtr) (x : TaskPtr) :
    (run_all_submit q V).heap x
      = if q.rank = 0 ∧ x ∈ V then MacroTaskBase.set_waiting (q.heap x) else q.heap x := by
  unfold run_all_submit
  rw [push_back_loop]
  exact (set_waiting_loop V q).2.2 x

theorem add_tasks_heap (q : MacroTaskQ) (V : List TaskPtr) (x : TaskPtr) :
    (add_tasks q V).heap x
      = if q.rank = 0 ∧ x ∈ V then MacroTaskBase.set_waiting (q.heap x) else q.heap x := by
  by_cases h0 : q.rank = 0
  · rw [add_tasks_heap_coordinator V q h0 x]
    simp [h0]
  · rw [add_tasks_heap_other V q h0]
    simp [h0]

/-! ## The loops of `run_all` -/

theorem step_request_cases (u u' : Universe) (g : Nat)
    (h : step u (Event.request g) = Except.ok u') :
    u' = u ∨ ∃ (m : Nat) (r : Int) (c : MacroTaskQ),
      u.subclusters[g]? = some ⟨m, Loop.requesting⟩ ∧
      get_scheduled_task_number_local u.coordinator = Except.ok (r, c) ∧
      u' = ⟨c, u.subclusters.set g ⟨m, if r < 0 then Loop.left else Loop.running r⟩,
        u.inflight⟩ := by
  simp only [step] at h
  split at h
  · rename_i m hsub
    split at h
    · rename_i r c hget
      injection h with h
      exact Or.inr ⟨m, r, c, hsub, hget, h.symm⟩
    · cases h
  · injection h with h
    exact Or.inl h.symm

theorem step_finish_cases (u u' : Universe) (g : Nat)
    (h : step u (Event.finish g) = Except.ok u') :
    u' = u ∨ ∃ (m : Nat) (e : Int),
      u.subclusters[g]? = some ⟨m, Loop.running e⟩ ∧
      u' = ⟨u.coordinator, u.subclusters.set g ⟨m, Loop.requesting⟩,
        u.inflight ++ List.replicate m e⟩ := by
  simp only [step] at h
  split at h
  · rename_i m e hsub
    injection h with h
    exact Or.inr ⟨m, e, hsub, h.symm⟩
  · injection h with h
    exact Or.inl h.symm

theorem step_deliver_cases (u u' : Universe) (k : Nat)
    (h : step u (Event.deliver k) = Except.ok u') :
    u' = u ∨ ∃ (e : Int) (c : MacroTaskQ),
      u.inflight[k]? = some e ∧ set_complete_local u.coordinator e = Except.ok c ∧
      u' = ⟨c, u.subclusters, u.inflight.eraseIdx k⟩ := by
  simp only [step] at h
  split at h
  · rename_i e hk
    split at h
    · rename_i c hset
      injection h with h
      exact Or.inr ⟨e, c, hk, hset, h.symm⟩
    · cases h
  · injection h with h
    exact Or.inl h.symm

theorem lt_length_of_getElem? {α : Type} (l : List α) (i : Nat) (a : α) (h : l[i]? = some a) :
    i < l.length := by
  rcases Nat.lt_or_ge i l.length with hlt | hge
  · exact hlt
  · rw [List.getElem?_eq_none hge] at h; cases h

/-- The invariant holds when the loops start, if no entry is Running then. -/
theorem loopInv_start (c : MacroTaskQ) (sizes : List Nat)
    (hnr : ∀ i, c.statusAt i ≠ some Status.Running) (hpos : ∀ m ∈ sizes, 1 ≤ m) :
    LoopInv c sizes.length (loopStart c sizes) where
  taskq_eq := rfl
  count := by simp [loopStart]
  members_pos := by
    intro g s hg
    simp only [loopStart, List.getElem?_map] at hg
    cases hm : sizes[g]? with
    | none => simp [hm] at hg
    | some m =>
      simp only [hm, Option.map_some', Option.some.injEq] at hg
      subst hg
      exact hpos m (List.getElem?_mem hm)
  owner := by
    intro p hp hrun
    obtain ⟨i, hi⟩ := List.getElem?_of_mem hp
    exact absurd ((statusAt_eq_some c i _).2 ⟨p, hi, hrun⟩) (hnr i)
  progress := fun p hp => Or.inl hp
  drained := by
    rintro ⟨g, m, hg⟩
    simp only [loopStart, List.getElem?_map] at hg
    cases hm : sizes[g]? with
    | none => simp [hm] at hg
    | some m' => simp [hm] at hg

theorem ne_of_loop_ne (l : List Subcluster) (g g' : Nat) (s s' : Subcluster)
    (hg : l[g]? = some s) (hg' : l[g']? = some s') (hne : s.loop ≠ s'.loop) : g ≠ g' := by
  intro heq
  subst heq
  rw [hg] at hg'
  injection hg' with hg'
  exact hne (by rw [hg'])

/-- The invariant is kept when a request is answered. -/
theorem loopInv_request (c : MacroTaskQ) (G : Nat) (u : Universe) (g m : Nat) (r : Int)
    (c' : MacroTaskQ) (h : LoopInv c G u)
    (hsub : u.subclusters[g]? = some ⟨m, Loop.requesting⟩)
    (hget : get_scheduled_task_number_local u.coordinator = Except.ok (r, c')) :
    LoopInv c G
      ⟨c', u.subclusters.set g ⟨m, if r < 0 then Loop.left else Loop.running r⟩, u.inflight⟩ := by
  have hg : g < u.subclusters.length := lt_length_of_getElem? _ _ _ hsub
  have hkeep : ∀ (g' : Nat) (s : Subcluster), u.subclusters[g']? = some s →
      s.loop ≠ Loop.requesting →
      (u.subclusters.set g ⟨m, if r < 0 then Loop.left else Loop.running r⟩)[g']? = some s := by
    intro g' s hs hne
    rw [List.getElem?_set_ne (ne_of_loop_ne _ g g' _ _ hsub hs (fun e => hne e.symm))]
    exact hs
  have hmem : ∀ (g' : Nat) (s : Subcluster),
      (u.subclusters.set g ⟨m, if r < 0 then Loop.left else Loop.running r⟩)[g']? = some s →
      1 ≤ s.members := by
    intro g' s hs
    rw [List.getElem?_set] at hs
    split at hs
    · simp only [hg, if_true, Option.some.injEq] at hs
      subst hs
      exact h.members_pos g ⟨m, Loop.requesting⟩ hsub
    · exact h.members_pos g' s hs
  rcases select_ok_cases _ _ _ hget with ⟨i, p, hr, hgetp, hstat, hc', hmin⟩ | ⟨hr, hc', hno⟩
  · subst hr
    subst hc'
    have hnneg : ¬ ((i : Int) < 0) := by omega
    simp only [hnneg, if_false] at hkeep hmem ⊢
    refine ⟨h.taskq_eq, by simp [h.count], hmem, ?_, ?_, ?_⟩
    · intro x hx hrun
      by_cases hxp : x = p
      · subst hxp
        refine ⟨(i : Int), by omega, by simpa using hgetp, Or.inr ⟨g, m, ?_⟩⟩
        rw [List.getElem?_set]
        simp [hg]
      · have hold : (u.coordinator.heap x).stat = Status.Running := by
          simpa [call, hxp] using hrun
        obtain ⟨e, he0, hep, hown⟩ := h.owner x hx hold
        refine ⟨e, he0, hep, ?_⟩
        rcases hown with hin | ⟨g', m', hg'⟩
        · exact Or.inl hin
        · exact Or.inr ⟨g', m', hkeep g' _ hg' (by simp)⟩
    · intro x hx
      by_cases hxp : x = p
      · subst hxp
        right; left
        simp [call, MacroTaskBase.set_running]
      · have := h.progress x hx
        simpa [call, hxp] using this
    · rintro ⟨g', m', hg'⟩ j hj
      have hold := waiting_before_call _ p _ set_running_not_waiting j hj
      have hne : g ≠ g' := by
        intro heq
        subst heq
        rw [List.getElem?_set] at hg'
        simp [hg] at hg'
      rw [List.getElem?_set_ne hne] at hg'
      exact h.drained ⟨g', m', hg'⟩ j hold
  · subst hr
    subst hc'
    have hneg : ((-1 : Int) < 0) := by omega
    simp only [hneg, if_true] at hkeep hmem ⊢
    refine ⟨h.taskq_eq, by simp [h.count], hmem, ?_, h.progress, fun _ => hno⟩
    intro x hx hrun
    obtain ⟨e, he0, hep, hown⟩ := h.owner x hx hrun
    refine ⟨e, he0, hep, ?_⟩
    rcases hown with hin | ⟨g', m', hg'⟩
    · exact Or.inl hin
    · exact Or.inr ⟨g', m', hkeep g' _ hg' (by simp)⟩

/-- The invariant is kept when a subcluster returns from `run` and its members
send their completion requests. -/
theorem loopInv_finish (c : MacroTaskQ) (G : Nat) (u : Universe) (g m : Nat) (e : Int)
    (h : LoopInv c G u) (hsub : u.subclusters[g]? = some ⟨m, Loop.running e⟩) :
    LoopInv c G ⟨u.coordinator, u.subclusters.set g ⟨m, Loop.requesting⟩,
      u.inflight ++ List.replicate m e⟩ := by
  have hg : g < u.subclusters.length := lt_length_of_getElem? _ _ _ hsub
  have hm : 1 ≤ m := h.members_pos g _ hsub
  refine ⟨h.taskq_eq, by simp [h.count], ?_, ?_, h.progress, ?_⟩
  · intro g' s hs
    rw [List.getElem?_set] at hs
    split at hs
    · simp only [hg, if_true, Option.some.injEq] at hs
      subst hs
      exact hm
    · exact h.members_pos g' s hs
  · intro x hx hrun
    obtain ⟨e', he0, hep, hown⟩ := h.owner x hx hrun
    refine ⟨e', he0, hep, ?_⟩
    rcases hown with hin | ⟨g', m', hg'⟩
    · exact Or.inl (List.mem_append_left _ hin)
    · by_cases hgg : g = g'
      · subst hgg
        rw [hsub] at hg'
        injection hg' with hg'
        injection hg' with _ hloop
        injection hloop with hee
        subst hee
        left
        exact List.mem_append_right _ (List.mem_replicate.2 ⟨by omega, rfl⟩)
      · right
        exact ⟨g', m', by rw [List.getElem?_set_ne hgg]; exact hg'⟩
  · rintro ⟨g', m', hg'⟩
    have hne : g ≠ g' := by
      intro heq
      subst heq
      rw [List.getElem?_set] at hg'
      simp [hg] at hg'
    rw [List.getElem?_set_ne hne] at hg'
    exact h.drained ⟨g', m', hg'⟩

/-- The invariant is kept when a completion request is executed on rank 0. -/
theorem loopInv_deliver (c : MacroTaskQ) (G : Nat) (u : Universe) (k : Nat) (e : Int)
    (c' : MacroTaskQ) (h : LoopInv c G u) (hk : u.inflight[k]? = some e)
    (hset : set_complete_local u.coordinator e = Except.ok c') :
    LoopInv c G ⟨c', u.subclusters, u.inflight.eraseIdx k⟩ := by
  obtain ⟨p, he0, hp, hc'⟩ := complete_ok_cases _ _ _ hset
  subst hc'
  refine ⟨h.taskq_eq, h.count, h.members_pos, ?_, ?_, ?_⟩
  · intro x hx hrun
    have hxp : x ≠ p := by
      intro heq
      subst heq
      simp [call, MacroTaskBase.set_complete] at hrun
    have hold : (u.coordinator.heap x).stat = Status.Running := by
      simpa [call, hxp] using hrun
    obtain ⟨e', he0', hep, hown⟩ := h.owner x hx hold
    refine ⟨e', he0', hep, ?_⟩
    rcases hown with hin | hsub
    · left
      obtain ⟨j, hj⟩ := List.getElem?_of_mem hin
      refine List.mem_eraseIdx_iff_getElem?.2 ⟨j, ?_, hj⟩
      intro hjk
      subst hjk
      rw [hk] at hj
      injection hj with hj
      subst hj
      have hep' : u.coordinator.taskq[e.toNat]? = some x := hep
      rw [hp] at hep'
      injection hep' with hep'
      exact hxp hep'.symm
    · exact Or.inr hsub
  · intro x hx
    by_cases hxp : x = p
    · subst hxp
      right; right
      simp [call, MacroTaskBase.set_complete]
    · have := h.progress x hx
      simpa [call, hxp] using this
  · intro hleft j hj
    exact h.drained hleft j (waiting_before_call _ p _ set_complete_not_waiting j hj)

theorem loopInv_step (c : MacroTaskQ) (G : Nat) (u u' : Universe) (ev : Event)
    (h : LoopInv c G u) (hs : step u ev = Except.ok u') : LoopInv c G u' := by
  cases ev with
  | request g =>
    rcases step_request_cases u u' g hs with rfl | ⟨m, r, c', hsub, hget, rfl⟩
    · exact h
    · exact loopInv_request c G u g m r c' h hsub hget
  | finish g =>
    rcases step_finish_cases u u' g hs with rfl | ⟨m, e, hsub, rfl⟩
    · exact h
    · exact loopInv_finish c G u g m e h hsub
  | deliver k =>
    rcases step_deliver_cases u u' k hs with rfl | ⟨e, c', hk, hset, rfl⟩
    · exact h
    · exact loopInv_deliver c G u k e c' h hk hset

theorem loopInv_exec (c : MacroTaskQ) (G : Nat) (sched : List Event) :
    ∀ (u u' : Universe), LoopInv c G u → exec u sched = Except.ok u' → LoopInv c G u' := by
  induction sched with
  | nil =>
    intro u u' h he
    simp only [exec] at he
    injection he with he
    exact he ▸ h
  | cons ev rest ih =>
    intro u u' h he
    simp only [exec] at he
    split at he
    · rename_i u1 hstep
      exact ih u1 u' (loopInv_step c G u u1 ev h hstep) he
    · cases he

theorem step_taskq (u u' : Universe) (ev : Event) (hs : step u ev = Except.ok u') :
    u'.coordinator.taskq = u.coordinator.taskq := by
  cases ev with
  | request g =>
    rcases step_request_cases u u' g hs with rfl | ⟨m, r, c', _, hget, rfl⟩
    · rfl
    · rcases select_ok_cases _ _ _ hget with ⟨_, _, _, _, _, hc', _⟩ | ⟨_, hc', _⟩
      · subst hc'; rfl
      · subst hc'; rfl
  | finish g =>
    rcases step_finish_cases u u' g hs with rfl | ⟨m, e, _, rfl⟩ <;> rfl
  | deliver k =>
    rcases step_deliver_cases u u' k hs with rfl | ⟨e, c', _, hset, rfl⟩
    · rfl
    · obtain ⟨_, _, _, hc'⟩ := complete_ok_cases _ _ _ hset
      subst hc'; rfl

theorem exec_taskq (sched : List Event) :
    ∀ (u u' : Universe), exec u sched = Except.ok u' →
      u'.coordinator.taskq = u.coordinator.taskq := by
  induction sched with
  | nil =>
    intro u u' he
    simp only [exec] at he
    injection he with he
    rw [he]
  | cons ev rest ih =>
    intro u u' he
    simp only [exec] at he
    split at he
    · rename_i u1 hstep
      rw [ih u1 u' he, step_taskq u u1 ev hstep]
    · cases he

theorem keepsEntries_append (l V : List TaskPtr) : keepsEntries l (l ++ V) := by
  refine ⟨⟨V, rfl⟩, by simp, ?_⟩
  intro i p hi
  rw [List.getElem?_append_left (lt_length_of_getElem? l i p hi), hi]

theorem keepsEntries_self (l : List TaskPtr) : keepsEntries l l := by
  have := keepsEntries_append l []
  simpa using this

theorem find_if_of_statuses_eq (h1 h2 : TaskPtr → MacroTaskBase) :
    ∀ (l1 l2 : List TaskPtr),
      l1.map (fun p => (h1 p).stat) = l2.map (fun p => (h2 p).stat) →
      find_if (fun p => (h1 p).is_waiting) l1 = find_if (fun p => (h2 p).is_waiting) l2 := by
  intro l1
  induction l1 with
  | nil =>
    intro l2 h
    cases l2 with
    | nil => rfl
    | cons y l2 => simp at h
  | cons x l1 ih =>
    intro l2 h
    cases l2 with
    | nil => simp at h
    | cons y l2 =>
      simp only [List.map_cons, List.cons.injEq] at h
      have := ih l2 h.2
      simp only [MacroTaskBase.is_waiting] at this
      simp only [find_if, MacroTaskBase.is_waiting, h.1, this]

theorem sameSharing_iff (l1 l2 : List TaskPtr) (h : sameSharing l1 l2 = true) (i j : Nat)
    (hi : i < l1.length) (hj : j < l1.length) :
    l1[i]? = l1[j]? ↔ l2[i]? = l2[j]? := by
  simp only [sameSharing, List.all_eq_true, List.mem_range, decide_eq_true_eq] at h
  exact h i hi j hj

/-! ## A schedule that ends every loop -/

theorem exec_cons_ok (u u1 : Universe) (ev : Event) (rest : List Event)
    (h : step u ev = Except.ok u1) : exec u (ev :: rest) = exec u1 rest := by
  simp [exec, h]

theorem exec_append_ok (s1 : List Event) :
    ∀ (u u1 : Universe) (s2 : List Event), exec u s1 = Except.ok u1 →
      exec u (s1 ++ s2) = exec u1 s2 := by
  induction s1 with
  | nil =>
    intro u u1 s2 h
    simp only [exec] at h
    injection h with h
    rw [List.nil_append, h]
  | cons ev rest ih =>
    intro u u1 s2 h
    simp only [exec] at h
    split at h
    · rename_i u' hstep
      rw [List.cons_append, exec_cons_ok u u' ev _ hstep]
      exact ih u' u1 s2 h
    · cases h

/-- On the coordinator set-complete for an index inside the vector returns
normally. -/
theorem complete_returns (c : MacroTaskQ) (e : Int) (h0 : c.rank = 0) (hnn : 0 ≤ e)
    (hlt : e.toNat < c.taskq.length) :
    ∃ p, c.taskq[e.toNat]? = some p ∧
      set_complete_local c e = Except.ok (c.call p MacroTaskBase.set_complete) :=
  ⟨c.taskq.get ⟨e.toNat, hlt⟩, by simp [List.getElem?_eq_getElem hlt],
    by simp [set_complete_local, h0, hnn, hlt]⟩

/-- Executing the pending completion requests for one index, one after the
other, empties the list of pending requests and makes no entry waiting. -/
theorem deliver_all (subs : List Subcluster) (e : Int) (hnn : 0 ≤ e) (k : Nat) :
    ∀ c : MacroTaskQ, c.rank = 0 → e.toNat < c.taskq.length →
      ∃ c' : MacroTaskQ,
        exec ⟨c, subs, List.replicate k e⟩ (List.replicate k (Event.deliver 0))
          = Except.ok ⟨c', subs, []⟩ ∧
        c'.rank = 0 ∧ c'.taskq = c.taskq ∧
        ∀ j, c'.statusAt j = some Status.Waiting → c.statusAt j = some Status.Waiting := by
  induction k with
  | zero =>
    intro c h0 _
    exact ⟨c, rfl, h0, rfl, fun _ h => h⟩
  | succ k ih =>
    intro c h0 hlt
    obtain ⟨p, _, hset⟩ := complete_returns c e h0 hnn hlt
    obtain ⟨c', hex, hr, ht, hw⟩ := ih (c.call p MacroTaskBase.set_complete) h0 hlt
    refine ⟨c', ?_, hr, ht, ?_⟩
    · rw [List.replicate_succ, List.replicate_succ,
        exec_cons_ok _ ⟨c.call p MacroTaskBase.set_complete, subs, List.replicate k e⟩ _ _
          (by simp [step, hset])]
      exact hex
    · intro j hj
      exact waiting_before_call c p _ set_complete_not_waiting j (hw j hj)

/-- From a state in which the first subcluster is asking and nothing is pending,
some schedule lets the first subcluster execute every waiting task and leave its
loop, with nothing pending and no entry waiting. -/
theorem first_subcluster_drains (m0 : Nat) (rest : List Subcluster) (d : Nat) :
    ∀ (c : MacroTaskQ) (k : Nat), c.rank = 0 → c.taskq.length - k ≤ d →
      (∀ j, j < k → c.statusAt j ≠ some Status.Waiting) →
      ∃ (sched : List Event) (c' : MacroTaskQ),
        exec ⟨c, ⟨m0, Loop.requesting⟩ :: rest, []⟩ sched
          = Except.ok ⟨c', ⟨m0, Loop.left⟩ :: rest, []⟩ ∧
        c'.rank = 0 ∧ ∀ j, c'.statusAt j ≠ some Status.Waiting := by
  induction d with
  | zero =>
    intro c k h0 hd hnw
    obtain ⟨r, c', hget⟩ := select_returns c h0
    rcases select_ok_cases c c' r hget with ⟨i, p, hr, hgetp, hstat, hc', hmin⟩ | ⟨hr, hc', hno⟩
    · have hi := lt_length_of_getElem? _ _ _ hgetp
      have hik : ¬ i < k := fun h => hnw i h ((statusAt_eq_some c i _).2 ⟨p, hgetp, hstat⟩)
      omega
    · subst hr
      subst hc'
      refine ⟨[Event.request 0], c', ?_, h0, hno⟩
      rw [exec_cons_ok _ ⟨c', ⟨m0, Loop.left⟩ :: rest, []⟩ _ _ (by simp [step, hget])]
      rfl
  | succ d ih =>
    intro c k h0 hd hnw
    obtain ⟨r, c', hget⟩ := select_returns c h0
    rcases select_ok_cases c c' r hget with ⟨i, p, hr, hgetp, hstat, hc', hmin⟩ | ⟨hr, hc', hno⟩
    · have hi := lt_length_of_getElem? _ _ _ hgetp
      have hik : ¬ i < k := fun h => hnw i h ((statusAt_eq_some c i _).2 ⟨p, hgetp, hstat⟩)
      subst hr
      have hnneg : ¬ ((i : Int) < 0) := by omega
      have hc'r : c'.rank = 0 := by rw [hc']; exact h0
      have hc't : c'.taskq = c.taskq := by rw [hc']; rfl
      obtain ⟨c2, hdel, hr2, ht2, hw2⟩ := deliver_all (⟨m0, Loop.requesting⟩ :: rest) (i : Int)
        (by omega) m0 c' hc'r (by rw [hc't]; simpa using hi)
      have hnw2 : ∀ j, j < i + 1 → c2.statusAt j ≠ some Status.Waiting := by
        intro j hj hw
        have h1 := hw2 j hw
        rw [hc'] at h1
        have h2 := (waiting_after_call_iff c p _ set_running_not_waiting j).1 h1
        by_cases hji : j < i
        · exact hmin j hji h2.1
        · have : j = i := by omega
          subst this
          exact h2.2 hgetp
      obtain ⟨sched, c3, hex, hr3, hno3⟩ := ih c2 (i + 1) hr2 (by rw [ht2, hc't]; omega) hnw2
      refine ⟨[Event.request 0, Event.finish 0] ++ List.replicate m0 (Event.deliver 0) ++ sched,
        c3, ?_, hr3, hno3⟩
      have hstart : exec ⟨c, ⟨m0, Loop.requesting⟩ :: rest, []⟩
          ([Event.request 0, Event.finish 0] ++ List.replicate m0 (Event.deliver 0))
            = Except.ok ⟨c2, ⟨m0, Loop.requesting⟩ :: rest, []⟩ := by
        rw [List.cons_append, List.cons_append, List.nil_append,
          exec_cons_ok _ ⟨c', ⟨m0, Loop.running (i : Int)⟩ :: rest, []⟩ _ _
            (by simp [step, hget, hnneg]),
          exec_cons_ok _ ⟨c', ⟨m0, Loop.requesting⟩ :: rest, List.replicate m0 (i : Int)⟩ _ _
            (by simp [step])]
        exact hdel
      rw [exec_append_ok _ _ _ _ hstart]
      exact hex
    · subst hr
      subst hc'
      refine ⟨[Event.request 0], c', ?_, h0, hno⟩
      rw [exec_cons_ok _ ⟨c', ⟨m0, Loop.left⟩ :: rest, []⟩ _ _ (by simp [step, hget])]
      rfl

theorem getElem?_length_append (pre post : List Subcluster) (x : Subcluster) :
    (pre ++ x :: post)[pre.length]? = some x := by
  induction pre with
  | nil => simp
  | cons a pre ih => simpa using ih

theorem set_length_append (pre post : List Subcluster) (x y : Subcluster) :
    (pre ++ x :: post).set pre.length y = pre ++ y :: post := by
  induction pre with
  | nil => rfl
  | cons a pre ih => simp [List.set, ih]

/-- With no entry waiting, select-next on the coordinator returns `-1` and
leaves the state as it is. -/
theorem select_sentinel (c : MacroTaskQ) (h0 : c.rank = 0)
    (hno : ∀ j, c.statusAt j ≠ some Status.Waiting) :
    get_scheduled_task_number_local c = Except.ok (-1, c) := by
  rcases get_scheduled_task_number_local_eq c h0 with ⟨p, hget, hstat, _⟩ | ⟨_, heq⟩
  · exact absurd ((statusAt_eq_some c _ _).2 ⟨p, hget, hstat⟩) (hno _)
  · exact heq

theorem step_request_at (c c' : MacroTaskQ) (pre post : List Subcluster) (m : Nat) (r : Int)
    (fl : List Int) (hget : get_scheduled_task_number_local c = Except.ok (r, c')) :
    step ⟨c, pre ++ ⟨m, Loop.requesting⟩ :: post, fl⟩ (Event.request pre.length)
      = Except.ok ⟨c', pre ++ ⟨m, if r < 0 then Loop.left else Loop.running r⟩ :: post, fl⟩ := by
  simp only [step]
  rw [getElem?_length_append]
  simp only [hget, set_length_append]

theorem step_request_left (c : MacroTaskQ) (pre post : List Subcluster) (m : Nat)
    (fl : List Int) :
    step ⟨c, pre ++ ⟨m, Loop.left⟩ :: post, fl⟩ (Event.request pre.length)
      = Except.ok ⟨c, pre ++ ⟨m, Loop.left⟩ :: post, fl⟩ := by
  simp only [step]
  rw [getElem?_length_append]

/-- With no entry waiting and nothing pending, one request by each subcluster
that is still asking ends every loop. -/
theorem all_leave (c : MacroTaskQ) (h0 : c.rank = 0)
    (hno : ∀ j, c.statusAt j ≠ some Status.Waiting) (post : List Subcluster) :
    ∀ pre : List Subcluster,
      (∀ s ∈ post, s.loop = Loop.requesting ∨ s.loop = Loop.left) →
      exec ⟨c, pre ++ post, []⟩ ((List.range' pre.length post.length).map Event.request)
        = Except.ok ⟨c, pre ++ post.map (fun s => ⟨s.members, Loop.left⟩), []⟩ := by
  induction post with
  | nil => intro pre _; simp [exec]
  | cons s post ih =>
    intro pre hs
    have hnext := ih (pre ++ [⟨s.members, Loop.left⟩])
      (fun t ht => hs t (List.mem_cons_of_mem _ ht))
    simp only [List.append_assoc, List.singleton_append, List.length_append,
      List.length_singleton] at hnext
    simp only [List.length_cons, List.range'_succ, List.map_cons]
    obtain ⟨m, l⟩ := s
    rcases hs ⟨m, l⟩ (List.mem_cons_self _ _) with hl | hl
    · simp only at hl
      subst hl
      rw [exec_cons_ok _ ⟨c, pre ++ ⟨m, Loop.left⟩ :: post, []⟩ _ _ (by
        rw [step_request_at c c pre post m (-1) [] (select_sentinel c h0 hno)]
        rfl)]
      exact hnext
    · simp only at hl
      subst hl
      rw [exec_cons_ok _ ⟨c, pre ++ ⟨m, Loop.left⟩ :: post, []⟩ _ _
        (step_request_left c pre post m [])]
      exact hnext

/-- From the start of the loops on the coordinator, some schedule ends every
loop with nothing pending. -/
theorem quiescence_reachable (c : MacroTaskQ) (sizes : List Nat) (h0 : c.rank = 0)
    (hG : 1 ≤ sizes.length) :
    ∃ (sched : List Event) (u : Universe),
      exec (loopStart c sizes) sched = Except.ok u ∧ quiescent u = true := by
  cases sizes with
  | nil => simp at hG
  | cons m0 ms =>
    obtain ⟨sched, c', hex, hr, hno⟩ := first_subcluster_drains m0
      (ms.map (fun m => ⟨m, Loop.requesting⟩)) c.taskq.length c 0 h0 (by omega)
      (by intro j hj; omega)
    have hall := all_leave c' hr hno (ms.map (fun m => ⟨m, Loop.requesting⟩))
      [⟨m0, Loop.left⟩] (by
        intro s hs
        obtain ⟨m, _, rfl⟩ := List.mem_map.1 hs
        exact Or.inl rfl)
    refine ⟨sched ++ (List.range' 1 ms.length).map Event.request,
      ⟨c', [⟨m0, Loop.left⟩] ++ (ms.map (fun m => (⟨m, Loop.requesting⟩ : Subcluster))).map
        (fun s => ⟨s.members, Loop.left⟩), []⟩, ?_, ?_⟩
    · rw [exec_append_ok sched _ _ _ (by simpa [loopStart] using hex)]
      simpa using hall
    · simp [quiescent]

/-! ## Select-next on the coordinator -/

/-- C1, as amended: on the coordinator, when some entry is waiting, select-next
returns the smallest index `i` whose status is Waiting; the vector of pointers is
unchanged (same length, same task at every index), the task object `p` stored at
`i` is set running and no other object is touched, so every entry holding another
object keeps its status, while every entry holding `p` reads Running. -/
theorem select_next_first_waiting (q : MacroTaskQ) (h0 : q.rank = 0)
    (hw : ∃ i, q.statusAt i = some Status.Waiting) :
    ∃ (i : Nat) (p : TaskPtr) (q' : MacroTaskQ),
      get_scheduled_task_number_local q = Except.ok ((i : Int), q') ∧
      q.taskq[i]? = some p ∧
      q.statusAt i = some Status.Waiting ∧
      (∀ j, j < i → q.statusAt j ≠ some Status.Waiting) ∧
      q'.taskq = q.taskq ∧ q'.rank = q.rank ∧
      q'.statusAt i = some Status.Running ∧
      (∀ j, q.taskq[j]? ≠ some p → q'.statusAt j = q.statusAt j) ∧
      (∀ j, q.taskq[j]? = some p → q'.statusAt j = some Status.Running) ∧
      (∀ x, x ≠ p → q'.heap x = q.heap x) ∧
      (q'.heap p).priority = (q.heap p).priority := by
  have hlt := (exists_waiting_iff q).1 hw
  rcases get_scheduled_task_number_local_eq q h0 with ⟨p, hget, hstat, heq⟩ | ⟨hlen, _⟩
  · refine ⟨_, p, _, heq, hget, ?_, ?_, rfl, rfl, ?_, ?_, ?_, ?_, ?_⟩
    · exact (statusAt_eq_some q _ _).2 ⟨_, hget, hstat⟩
    · intro j hj hs
      obtain ⟨x, hx, hxs⟩ := (statusAt_eq_some q j _).1 hs
      have := find_if_before _ _ j hj x hx
      simp [MacroTaskBase.is_waiting, hxs] at this
    · rw [statusAt_call, hget]
      simp [MacroTaskBase.set_running]
    · intro j hj
      rw [statusAt_call]
      cases hx : q.taskq[j]? with
      | none => simp [statusAt, hx]
      | some x =>
        have hne : x ≠ p := by
          intro he; apply hj; rw [hx, he]
        simp [statusAt, hx, hne]
    · intro j hj
      rw [statusAt_call, hj]
      simp [MacroTaskBase.set_running]
    · intro x hx
      simp [call, hx]
    · simp [call, MacroTaskBase.set_running]
  · omega

/-- C1, witness: the theorem at `threeTasks`, a coordinator queue of three
different tasks of which the second and the third are waiting. -/
theorem select_next_first_waiting_witness :
    threeTasks.rank = 0 ∧ (∃ i, threeTasks.statusAt i = some Status.Waiting) ∧
    ∃ (i : Nat) (p : TaskPtr) (q' : MacroTaskQ),
      get_scheduled_task_number_local threeTasks = Except.ok ((i : Int), q') ∧
      threeTasks.taskq[i]? = some p ∧
      threeTasks.statusAt i = some Status.Waiting ∧
      (∀ j, j < i → threeTasks.statusAt j ≠ some Status.Waiting) ∧
      q'.taskq = threeTasks.taskq ∧ q'.rank = threeTasks.rank ∧
      q'.statusAt i = some Status.Running ∧
      (∀ j, threeTasks.taskq[j]? ≠ some p → q'.statusAt j = threeTasks.statusAt j) ∧
      (∀ j, threeTasks.taskq[j]? = some p → q'.statusAt j = some Status.Running) ∧
      (∀ x, x ≠ p → q'.heap x = threeTasks.heap x) ∧
      (q'.heap p).priority = (threeTasks.heap p).priority :=
  ⟨rfl, ⟨1, by decide⟩, select_next_first_waiting threeTasks rfl ⟨1, by decide⟩⟩

/-- C1, as stated, fails: on `aliasedPair` select-next returns index 0 and sets
the shared task object running, so entry 1 changes from Waiting to Running
although it is not the returned entry. -/
theorem select_next_frame_fails_on_aliasedPair :
    ¬ ∀ q : MacroTaskQ, q.rank = 0 → (∃ i, q.statusAt i = some Status.Waiting) →
      ∃ (i : Nat) (q' : MacroTaskQ),
        get_scheduled_task_number_local q = Except.ok ((i : Int), q') ∧
        q.statusAt i = some Status.Waiting ∧
        (∀ j, j < i → q.statusAt j ≠ some Status.Waiting) ∧
        q'.taskq.length = q.taskq.length ∧
        q'.statusAt i = some Status.Running ∧
        (∀ j, j ≠ i → q'.statusAt j = q.statusAt j) := by
  intro hall
  obtain ⟨i, q', heq, _, hmin, _, _, hframe⟩ := hall aliasedPair rfl ⟨0, by decide⟩
  have hi : i = 0 := by
    rcases Nat.eq_zero_or_pos i with h | h
    · exact h
    · exact absurd (by decide) (hmin 0 h)
  subst hi
  have hval : get_scheduled_task_number_local aliasedPair
      = Except.ok (0, aliasedPair.call 7 MacroTaskBase.set_running) := rfl
  rw [hval] at heq
  have hq : aliasedPair.call 7 MacroTaskBase.set_running = q' := by
    injection heq with h
    exact (Prod.mk.inj h).2
  subst hq
  exact absurd (hframe 1 (by decide)) (by decide)

/-- C2: on the coordinator select-next always returns normally; the returned
value is `-1` exactly when no entry has status Waiting (the empty queue
included), and then the state after the call is the state before it. -/
theorem select_next_sentinel_iff (q : MacroTaskQ) (h0 : q.rank = 0) :
    ∃ (r : Int) (q' : MacroTaskQ),
      get_scheduled_task_number_local q = Except.ok (r, q') ∧
      (r = -1 ↔ ∀ i, q.statusAt i ≠ some Status.Waiting) ∧
      (r = -1 → q' = q) := by
  rcases get_scheduled_task_number_local_eq q h0 with ⟨p, hget, hstat, heq⟩ | ⟨hlen, heq⟩
  · refine ⟨_, _, heq, ?_, ?_⟩
    · constructor
      · intro hneg; omega
      · intro hno
        exact absurd ((statusAt_eq_some q _ _).2 ⟨p, hget, hstat⟩) (hno _)
    · intro hneg; omega
  · refine ⟨_, _, heq, ?_, fun _ => rfl⟩
    constructor
    · intro _ i hi
      have := (exists_waiting_iff q).1 ⟨i, hi⟩
      omega
    · intro _; rfl

/-- C2, witness: the theorem at the empty queue of the coordinator. -/
theorem select_next_sentinel_iff_witness :
    emptyQueue.rank = 0 ∧
    ∃ (r : Int) (q' : MacroTaskQ),
      get_scheduled_task_number_local emptyQueue = Except.ok (r, q') ∧
      (r = -1 ↔ ∀ i, emptyQueue.statusAt i ≠ some Status.Waiting) ∧
      (r = -1 → q' = emptyQueue) :=
  ⟨rfl, select_next_sentinel_iff emptyQueue rfl⟩

/-! ## Sequences of coordinator calls -/

/-- C3: at-most-once dispatch.  For every initial state and every finite sequence
of select-next and set-complete(i) calls at the coordinator, the non-sentinel
values returned by the select-next calls are pairwise different, and each of
them is an index that was Waiting in the state its call was made in, so an
index is marked Running at most once. -/
theorem at_most_once_dispatch (q : MacroTaskQ) (ops : List Op) :
    ((returned q ops).filter (fun r => decide (0 ≤ r))).Nodup ∧
    ∀ d ∈ dispatches q ops, 0 ≤ d.2 → d.1.statusAt d.2.toNat = some Status.Waiting := by
  refine ⟨?_, fun d hd hnn => dispatched_while_waiting ops q d hd hnn⟩
  induction ops generalizing q with
  | nil => simp [returned, dispatches]
  | cons op ops ih =>
    cases op with
    | select =>
      simp only [returned, dispatches]
      split
      · rename_i r q' heq
        simp only [List.map_cons, List.filter_cons]
        split
        · rename_i hr
          refine List.nodup_cons.2 ⟨?_, ih q'⟩
          intro hmem
          obtain ⟨d, hd, hdr⟩ := List.mem_map.1 (List.mem_of_mem_filter hmem)
          have hr0 : 0 ≤ r := by simpa using hr
          have hw := dispatched_was_waiting ops q' d hd (by rw [hdr]; exact hr0)
          rw [hdr] at hw
          rcases select_ok_cases _ _ _ heq with ⟨i, p, hri, hget, _, hq, _⟩ | ⟨hri, _, _⟩
          · subst hq
            rw [hri, Int.toNat_ofNat, statusAt_call, hget] at hw
            simp [MacroTaskBase.set_running] at hw
          · omega
        · exact ih q'
      · simp
    | complete i =>
      simp only [returned, dispatches]
      split
      · rename_i q' heq
        exact ih q'
      · simp

/-- C5, as amended: draining a batch.  On the coordinator, when the waiting
tasks of the list are pairwise different objects and every set-complete call is
for an index already returned by an earlier select-next call of the sequence,
the select-next calls return the initially Waiting indices in strictly ascending
order, each once, and every select-next call after these returns `-1`. -/
theorem drain_batch (q : MacroTaskQ) (ops : List Op) (h0 : q.rank = 0)
    (hd : waitingDistinct q = true) (hc : completesReturned q ops = true) :
    returned q ops
        = (((waitingIndices q).map Int.ofNat) ++ List.replicate (selects ops) (-1)).take
            (selects ops) ∧
      (waitingIndices q).Pairwise (fun a b => a < b) ∧
      ∀ i, i ∈ waitingIndices q ↔ q.statusAt i = some Status.Waiting := by
  refine ⟨?_, ?_, ?_⟩
  · refine drain_from ops q [] (selects ops) h0 (waitingOnce_of_waitingDistinct q hd)
      (by intro d hd; simp at hd) ?_ (Nat.le_refl _)
    intro k i hk
    obtain ⟨h1, h2⟩ := (completesReturned_iff q ops).1 hc k i hk
    exact ⟨h1, Or.inr h2⟩
  · exact List.Pairwise.filter _ (List.pairwise_lt_range _)
  · intro i
    simp only [waitingIndices, List.mem_filter, List.mem_range, decide_eq_true_eq]
    constructor
    · exact fun h => h.2
    · intro h
      refine ⟨?_, h⟩
      obtain ⟨p, hp, _⟩ := (statusAt_eq_some q i _).1 h
      rcases Nat.lt_or_ge i q.taskq.length with hlt | hge
      · exact hlt
      · rw [List.getElem?_eq_none hge] at hp; cases hp

/-- C5, witness: the five-task scenario.  The run `fiveTasksRun` meets the
hypotheses, and its select-next calls return 0, 1, 2, 3, 4 and then only `-1`. -/
theorem drain_batch_witness :
    fiveTasks.rank = 0 ∧ waitingDistinct fiveTasks = true ∧
    completesReturned fiveTasks fiveTasksRun = true ∧
    waitingIndices fiveTasks = [0, 1, 2, 3, 4] ∧ selects fiveTasksRun = 7 ∧
    returned fiveTasks fiveTasksRun = [0, 1, 2, 3, 4, -1, -1] ∧
    returned fiveTasks fiveTasksRun
        = (((waitingIndices fiveTasks).map Int.ofNat)
            ++ List.replicate (selects fiveTasksRun) (-1)).take (selects fiveTasksRun) :=
  ⟨rfl, by decide, by decide, by decide, by decide, by decide,
    (drain_batch fiveTasks fiveTasksRun rfl (by decide) (by decide)).1⟩

/-- C5, as stated, fails: `aliasedPair` has two Waiting entries (indices 0 and
1), but they hold one task object, so two select-next calls return 0 and then
`-1`, not 0 and 1. -/
theorem drain_fails_on_aliasedPair :
    ¬ ∀ (q : MacroTaskQ) (ops : List Op), q.rank = 0 → completesReturned q ops = true →
      returned q ops
        = (((waitingIndices q).map Int.ofNat) ++ List.replicate (selects ops) (-1)).take
            (selects ops) := by
  intro hall
  have h := hall aliasedPair [Op.select, Op.select] rfl (by decide)
  have h1 : returned aliasedPair [Op.select, Op.select] = [0, -1] := by decide
  have h2 : (((waitingIndices aliasedPair).map Int.ofNat)
      ++ List.replicate (selects [Op.select, Op.select]) (-1)).take
        (selects [Op.select, Op.select]) = [0, 1] := by decide
  rw [h1, h2] at h
  exact absurd h (by decide)

/-- C10, as amended: the priority is not consulted.  For two queues of equal
length whose entries have pairwise equal statuses, with arbitrary priorities,
select-next returns the same value on both (or fails the rank assertion on
both); when moreover the two lists share task objects between indices in the
same way, it leaves the same statuses in both. -/
theorem priority_not_consulted (q1 q2 : MacroTaskQ) (hr : q1.rank = q2.rank)
    (hs : q1.statuses = q2.statuses) :
    (get_scheduled_task_number_local q1).map (fun r => r.1)
      = (get_scheduled_task_number_local q2).map (fun r => r.1) ∧
    (sameSharing q1.taskq q2.taskq = true →
      (get_scheduled_task_number_local q1).map (fun r => (r.1, r.2.statuses))
        = (get_scheduled_task_number_local q2).map (fun r => (r.1, r.2.statuses))) := by
  have hfi : find_if (fun p => (q1.heap p).is_waiting) q1.taskq
      = find_if (fun p => (q2.heap p).is_waiting) q2.taskq :=
    find_if_of_statuses_eq q1.heap q2.heap q1.taskq q2.taskq hs
  have hlen : q1.taskq.length = q2.taskq.length := by
    have := congrArg List.length hs
    simpa [statuses] using this
  by_cases h0 : q1.rank = 0
  · have h0' : q2.rank = 0 := hr ▸ h0
    rcases get_scheduled_task_number_local_eq q1 h0 with ⟨p1, hg1, _, he1⟩ | ⟨hl1, he1⟩ <;>
      rcases get_scheduled_task_number_local_eq q2 h0' with ⟨p2, hg2, _, he2⟩ | ⟨hl2, he2⟩
    · rw [he1, he2]
      refine ⟨by simp [Except.map, hfi], ?_⟩
      intro hsh
      simp only [Except.map, hfi, statuses_call, MacroTaskBase.set_running]
      congr 2
      apply List.ext_getElem?
      intro j
      simp only [List.getElem?_map]
      have hsj : (q1.taskq[j]?).map (fun p => (q1.heap p).stat)
          = (q2.taskq[j]?).map (fun p => (q2.heap p).stat) := by
        have := congrArg (fun l => l[j]?) hs
        simpa [statuses] using this
      cases hx1 : q1.taskq[j]? with
      | none =>
        have : q2.taskq[j]? = none := by
          rw [List.getElem?_eq_none_iff] at hx1 ⊢
          omega
        simp [this]
      | some x1 =>
        have hj : j < q1.taskq.length := lt_length_of_getElem? _ _ _ hx1
        obtain ⟨x2, hx2⟩ : ∃ x2, q2.taskq[j]? = some x2 :=
          ⟨q2.taskq.get ⟨j, by omega⟩, by
            simp [List.getElem?_eq_getElem (show j < q2.taskq.length by omega)]⟩
        rw [hx1, hx2] at hsj
        simp only [Option.map_some', Option.some.injEq] at hsj
        have hit : find_if (fun p => (q1.heap p).is_waiting) q1.taskq < q1.taskq.length :=
          lt_length_of_getElem? _ _ _ hg1
        have hiff := sameSharing_iff q1.taskq q2.taskq hsh j _ hj hit
        rw [hx1, hg1, hfi, hx2, hg2] at hiff
        simp only [Option.some.injEq] at hiff
        rw [hx2]
        simp only [Option.map_some', Option.some.injEq]
        by_cases hxp : x1 = p1
        · simp [hxp, hiff.1 hxp]
        · have hxp2 : x2 ≠ p2 := fun h => hxp (hiff.2 h)
          simp [hxp, hxp2, hsj]
    · have := lt_length_of_getElem? _ _ _ hg1
      omega
    · have := lt_length_of_getElem? _ _ _ hg2
      omega
    · rw [he1, he2]
      exact ⟨rfl, fun _ => by simp [Except.map, hs]⟩
  · have h0' : q2.rank ≠ 0 := hr ▸ h0
    simp [get_scheduled_task_number_local, h0, h0', Except.map]

/-- C10, witness: `lowPriorities` and `mixedPriorities` hold the same tasks with
the same statuses and different priorities; on both select-next returns 1 and
leaves the statuses Complete, Running, Waiting. -/
theorem priority_not_consulted_witness :
    lowPriorities.rank = mixedPriorities.rank ∧
    lowPriorities.statuses = mixedPriorities.statuses ∧
    sameSharing lowPriorities.taskq mixedPriorities.taskq = true ∧
    (lowPriorities.heap 31).priority ≠ (mixedPriorities.heap 31).priority ∧
    (get_scheduled_task_number_local lowPriorities).map (fun r => (r.1, r.2.statuses))
      = Except.ok (1, [Status.Complete, Status.Running, Status.Waiting]) ∧
    (get_scheduled_task_number_local lowPriorities).map (fun r => (r.1, r.2.statuses))
      = (get_scheduled_task_number_local mixedPriorities).map (fun r => (r.1, r.2.statuses)) :=
  ⟨rfl, by decide, by decide, by norm_num [lowPriorities, mixedPriorities], rfl,
    (priority_not_consulted lowPriorities mixedPriorities rfl (by decide)).2 (by decide)⟩

/-- C10, as stated, fails: `aliasedPair` and `distinctPair` have equal length and
pairwise equal statuses (Waiting, Waiting); select-next returns 0 on both, and
leaves Running, Running in the first (one shared object) and Running, Waiting in
the second. -/
theorem same_statuses_fails_on_aliasedPair :
    ¬ ∀ (q1 q2 : MacroTaskQ), q1.rank = q2.rank → q1.statuses = q2.statuses →
      (get_scheduled_task_number_local q1).map (fun r => (r.1, r.2.statuses))
        = (get_scheduled_task_number_local q2).map (fun r => (r.1, r.2.statuses)) := by
  intro hall
  have h := hall aliasedPair distinctPair rfl (by decide)
  have h1 : (get_scheduled_task_number_local aliasedPair).map (fun r => (r.1, r.2.statuses))
      = Except.ok (0, [Status.Running, Status.Running]) := rfl
  have h2 : (get_scheduled_task_number_local distinctPair).map (fun r => (r.1, r.2.statuses))
      = Except.ok (0, [Status.Running, Status.Waiting]) := rfl
  rw [h1, h2] at h
  injection h with h
  exact absurd (Prod.mk.inj h).2 (by decide)

/-! ## The life cycle of a task -/

/-- Set-complete for the index select-next has just returned changes a status
only from Running to Complete. -/
theorem complete_after_select (q q' q'' : MacroTaskQ) (r : Int) (p : TaskPtr)
    (h : get_scheduled_task_number_local q = Except.ok (r, q'))
    (hc : set_complete_local q' r = Except.ok q'')
    (hne : (q''.heap p).stat ≠ (q'.heap p).stat) :
    (q'.heap p).stat = Status.Running ∧ (q''.heap p).stat = Status.Complete := by
  obtain ⟨x, hr0, hx, hq''⟩ := complete_ok_cases q' q'' r hc
  subst hq''
  by_cases hpx : p = x
  · subst hpx
    refine ⟨?_, by simp [call, MacroTaskBase.set_complete]⟩
    rcases select_ok_cases q q' r h with ⟨i, y, hri, hy, _, hq', _⟩ | ⟨hr, _, _⟩
    · subst hq'
      subst hri
      have hyp : y = p := by
        have hx' : q.taskq[i]? = some p := by simpa [call] using hx
        rw [hy] at hx'
        exact Option.some.inj hx'
      subst hyp
      simp [call, MacroTaskBase.set_running]
    · omega
  · exact absurd (by simp [call, hpx]) hne

theorem dispatchedStarted_start (c : MacroTaskQ) (sizes : List Nat) :
    dispatchedStarted (loopStart c sizes) := by
  refine ⟨by simp [loopStart], ?_⟩
  intro g m e hg
  simp only [loopStart, List.getElem?_map] at hg
  cases hs : sizes[g]? with
  | none => simp [hs] at hg
  | some m' => simp [hs] at hg

theorem started_after_call (q : MacroTaskQ) (x p : TaskPtr) (f : MacroTaskBase → MacroTaskBase)
    (hf : (f (q.heap x)).stat = Status.Running ∨ (f (q.heap x)).stat = Status.Complete)
    (h : (q.heap p).stat = Status.Running ∨ (q.heap p).stat = Status.Complete) :
    ((q.call x f).heap p).stat = Status.Running ∨
      ((q.call x f).heap p).stat = Status.Complete := by
  by_cases hpx : p = x
  · subst hpx
    simpa [call] using hf
  · simpa [call, hpx] using h

/-- A step of the loops keeps every dispatched index at a task that is Running
or Complete. -/
theorem dispatchedStarted_step (u u' : Universe) (ev : Event) (h : dispatchedStarted u)
    (hstep : step u ev = Except.ok u') : dispatchedStarted u' := by
  obtain ⟨hfl, hrun⟩ := h
  cases ev with
  | request g =>
    rcases step_request_cases u u' g hstep with rfl | ⟨m, r, c', hsub, hget, rfl⟩
    · exact ⟨hfl, hrun⟩
    · rcases select_ok_cases _ _ _ hget with ⟨i, x, hri, hx, _, hc', _⟩ | ⟨hr, hc', _⟩
      · subst hc'
        subst hri
        have hf : (MacroTaskBase.set_running (u.coordinator.heap x)).stat = Status.Running ∨
            (MacroTaskBase.set_running (u.coordinator.heap x)).stat = Status.Complete :=
          Or.inl rfl
        refine ⟨?_, ?_⟩
        · intro e he p hp
          exact started_after_call _ _ _ _ hf (hfl e he p (by simpa [call] using hp))
        · intro g' m' e hg' p hp
          have hp' : u.coordinator.taskq[e.toNat]? = some p := by simpa [call] using hp
          by_cases hgg : g = g'
          · subst hgg
            rw [List.getElem?_set] at hg'
            simp only [lt_length_of_getElem? _ _ _ hsub, if_true, Option.some.injEq,
              Subcluster.mk.injEq] at hg'
            have hneg : ¬ ((i : Int) < 0) := by omega
            simp only [hneg, if_false, Loop.running.injEq] at hg'
            obtain ⟨_, rfl⟩ := hg'
            simp only [Int.toNat_ofNat] at hp'
            rw [hx] at hp'
            have hxp : x = p := Option.some.inj hp'
            subst hxp
            left
            simp [call, MacroTaskBase.set_running]
          · rw [List.getElem?_set_ne hgg] at hg'
            exact started_after_call _ _ _ _ hf (hrun g' m' e hg' p hp')
      · subst hc'
        subst hr
        refine ⟨hfl, ?_⟩
        intro g' m' e hg' p hp
        by_cases hgg : g = g'
        · subst hgg
          rw [List.getElem?_set] at hg'
          simp [lt_length_of_getElem? _ _ _ hsub] at hg'
        · rw [List.getElem?_set_ne hgg] at hg'
          exact hrun g' m' e hg' p hp
  | finish g =>
    rcases step_finish_cases u u' g hstep with rfl | ⟨m, e, hsub, rfl⟩
    · exact ⟨hfl, hrun⟩
    · refine ⟨?_, ?_⟩
      · intro e' he' p hp
        rcases List.mem_append.1 he' with h1 | h1
        · exact hfl e' h1 p hp
        · rw [(List.mem_replicate.1 h1).2] at hp
          exact hrun g m e hsub p hp
      · intro g' m' e' hg' p hp
        by_cases hgg : g = g'
        · subst hgg
          rw [List.getElem?_set] at hg'
          simp [lt_length_of_getElem? _ _ _ hsub] at hg'
        · rw [List.getElem?_set_ne hgg] at hg'
          exact hrun g' m' e' hg' p hp
  | deliver k =>
    rcases step_deliver_cases u u' k hstep with rfl | ⟨e, c', hk, hset, rfl⟩
    · exact ⟨hfl, hrun⟩
    · obtain ⟨x, _, _, hc'⟩ := complete_ok_cases _ _ _ hset
      subst hc'
      have hf : (MacroTaskBase.set_complete (u.coordinator.heap x)).stat = Status.Running ∨
          (MacroTaskBase.set_complete (u.coordinator.heap x)).stat = Status.Complete :=
        Or.inr rfl
      refine ⟨?_, ?_⟩
      · intro e' he' p hp
        obtain ⟨j, _, hj⟩ := List.mem_eraseIdx_iff_getElem?.1 he'
        exact started_after_call _ _ _ _ hf
          (hfl e' (List.getElem?_mem hj) p (by simpa [call] using hp))
      · intro g' m' e' hg' p hp
        exact started_after_call _ _ _ _ hf (hrun g' m' e' hg' p (by simpa [call] using hp))

theorem dispatchedStarted_exec (sched : List Event) :
    ∀ u u' : Universe, dispatchedStarted u → exec u sched = Except.ok u' →
      dispatchedStarted u' := by
  induction sched with
  | nil =>
    intro u u' h hex
    simp only [exec] at hex
    injection hex with hex
    exact hex ▸ h
  | cons ev rest ih =>
    intro u u' h hex
    simp only [exec] at hex
    split at hex
    · rename_i u1 hstep
      exact ih u1 u' (dispatchedStarted_step u u1 ev h hstep) hex
    · cases hex

/-- A step of the loops in a state in which every dispatched index holds a task
that is Running or Complete changes a status only in two ways: a request
executed on rank 0 moves a Waiting task to Running, an executed set-complete
moves a Running task to Complete. -/
theorem step_status_change (u u' : Universe) (ev : Event) (p : TaskPtr)
    (h : dispatchedStarted u) (hstep : step u ev = Except.ok u')
    (hne : (u'.coordinator.heap p).stat ≠ (u.coordinator.heap p).stat) :
    ((∃ g, ev = Event.request g) ∧ (u.coordinator.heap p).stat = Status.Waiting ∧
      (u'.coordinator.heap p).stat = Status.Running) ∨
    ((∃ k, ev = Event.deliver k) ∧ (u.coordinator.heap p).stat = Status.Running ∧
      (u'.coordinator.heap p).stat = Status.Complete) := by
  obtain ⟨hfl, _⟩ := h
  cases ev with
  | request g =>
    rcases step_request_cases u u' g hstep with rfl | ⟨m, r, c', hsub, hget, rfl⟩
    · exact absurd rfl hne
    · rcases select_ok_cases _ _ _ hget with ⟨i, x, _, _, hstat, hc', _⟩ | ⟨_, hc', _⟩
      · subst hc'
        by_cases hpx : p = x
        · subst hpx
          exact Or.inl ⟨⟨g, rfl⟩, hstat, by simp [call, MacroTaskBase.set_running]⟩
        · exact absurd (by simp [call, hpx]) hne
      · subst hc'
        exact absurd rfl hne
  | finish g =>
    rcases step_finish_cases u u' g hstep with rfl | ⟨m, e, hsub, rfl⟩
    · exact absurd rfl hne
    · exact absurd rfl hne
  | deliver k =>
    rcases step_deliver_cases u u' k hstep with rfl | ⟨e, c', hk, hset, rfl⟩
    · exact absurd rfl hne
    · obtain ⟨x, _, hx, hc'⟩ := complete_ok_cases _ _ _ hset
      subst hc'
      by_cases hpx : p = x
      · subst hpx
        have hafter : ((u.coordinator.call p MacroTaskBase.set_complete).heap p).stat
            = Status.Complete := by simp [call, MacroTaskBase.set_complete]
        refine Or.inr ⟨⟨k, rfl⟩, ?_, hafter⟩
        rcases hfl e (List.getElem?_mem hk) p hx with hs | hs
        · exact hs
        · exact absurd (by rw [hafter, hs]) hne
      · exact absurd (by simp [call, hpx]) hne

/-- C7, as amended: which way each queue operation moves a status.  Select-next
changes a status only from Waiting to Running.  Set-complete sets the status
Complete and never moves a status to an earlier stage; called as `run_all` calls
it, for an index that select-next returned (directly after the select, or at any
point of any schedule of the loops of `run_all` from any queue), it changes a
status only from Running to Complete, and every step of those loops changes a
status only from Waiting to Running (a request) or from Running to Complete (a
set-complete).  `add_tasks` and the submission phase of `run_all` change no
status on a rank other than 0 and none of a task that is not submitted; on rank
0 they set every submitted task Waiting, which is not an earlier stage when the
task was Unknown or Waiting. -/
theorem status_transitions (q : MacroTaskQ) (p : TaskPtr) :
    (∀ r q', get_scheduled_task_number_local q = Except.ok (r, q') →
      (q.heap p).stat.stage ≤ (q'.heap p).stat.stage ∧
      ((q'.heap p).stat ≠ (q.heap p).stat →
        (q.heap p).stat = Status.Waiting ∧ (q'.heap p).stat = Status.Running)) ∧
    (∀ i q', set_complete_local q i = Except.ok q' →
      (q.heap p).stat.stage ≤ (q'.heap p).stat.stage ∧
      ((q'.heap p).stat ≠ (q.heap p).stat → (q'.heap p).stat = Status.Complete)) ∧
    (∀ V, ((add_tasks q V).heap p).stat
        = (if q.rank = 0 ∧ p ∈ V then Status.Waiting else (q.heap p).stat) ∧
      ((q.rank ≠ 0 ∨ p ∉ V ∨ (q.heap p).stat = Status.Unknown ∨ (q.heap p).stat = Status.Waiting) →
        (q.heap p).stat.stage ≤ ((add_tasks q V).heap p).stat.stage)) ∧
    (∀ V, ((run_all_submit q V).heap p).stat
        = (if q.rank = 0 ∧ p ∈ V then Status.Waiting else (q.heap p).stat) ∧
      ((q.rank ≠ 0 ∨ p ∉ V ∨ (q.heap p).stat = Status.Unknown ∨ (q.heap p).stat = Status.Waiting) →
        (q.heap p).stat.stage ≤ ((run_all_submit q V).heap p).stat.stage)) ∧
    (∀ (r : Int) (q' q'' : MacroTaskQ), get_scheduled_task_number_local q = Except.ok (r, q') →
      set_complete_local q' r = Except.ok q'' → (q''.heap p).stat ≠ (q'.heap p).stat →
      (q'.heap p).stat = Status.Running ∧ (q''.heap p).stat = Status.Complete) ∧
    (∀ (sizes : List Nat) (sched : List Event) (u u' : Universe) (ev : Event),
      exec (loopStart q sizes) sched = Except.ok u → step u ev = Except.ok u' →
      (u'.coordinator.heap p).stat ≠ (u.coordinator.heap p).stat →
      ((∃ g, ev = Event.request g) ∧ (u.coordinator.heap p).stat = Status.Waiting ∧
        (u'.coordinator.heap p).stat = Status.Running) ∨
      ((∃ k, ev = Event.deliver k) ∧ (u.coordinator.heap p).stat = Status.Running ∧
        (u'.coordinator.heap p).stat = Status.Complete)) := by
  refine ⟨?_, ?_, ?_, ?_, ?_, ?_⟩
  · intro r q' h
    rcases select_ok_cases q q' r h with ⟨i, x, _, _, hstat, hq', _⟩ | ⟨_, hq', _⟩
    · subst hq'
      by_cases hpx : p = x
      · subst hpx
        simp [call, MacroTaskBase.set_running, hstat, Status.stage]
      · simp [call, hpx]
    · subst hq'; simp
  · intro i q' h
    obtain ⟨x, _, _, hq'⟩ := complete_ok_cases q q' i h
    subst hq'
    by_cases hpx : p = x
    · subst hpx
      have hafter : ((q.call p MacroTaskBase.set_complete).heap p).stat = Status.Complete := by
        simp [call, MacroTaskBase.set_complete]
      rw [hafter]
      refine ⟨?_, fun _ => rfl⟩
      cases (q.heap p).stat <;> simp [Status.stage]
    · simp [call, hpx]
  · intro V
    rw [add_tasks_heap]
    by_cases hc : q.rank = 0 ∧ p ∈ V
    · rw [if_pos hc, if_pos hc]
      refine ⟨rfl, ?_⟩
      rintro (h | h | h | h)
      · exact absurd hc.1 h
      · exact absurd hc.2 h
      · rw [h]; simp [MacroTaskBase.set_waiting, Status.stage]
      · rw [h]; simp [MacroTaskBase.set_waiting, Status.stage]
    · rw [if_neg hc, if_neg hc]
      exact ⟨rfl, fun _ => Nat.le_refl _⟩
  · intro V
    rw [run_all_submit_heap]
    by_cases hc : q.rank = 0 ∧ p ∈ V
    · rw [if_pos hc, if_pos hc]
      refine ⟨rfl, ?_⟩
      rintro (h | h | h | h)
      · exact absurd hc.1 h
      · exact absurd hc.2 h
      · rw [h]; simp [MacroTaskBase.set_waiting, Status.stage]
      · rw [h]; simp [MacroTaskBase.set_waiting, Status.stage]
    · rw [if_neg hc, if_neg hc]
      exact ⟨rfl, fun _ => Nat.le_refl _⟩
  · intro r q' q'' h hc hne
    exact complete_after_select q q' q'' r p h hc hne
  · intro sizes sched u u' ev hex hstep hne
    exact step_status_change u u' ev p
      (dispatchedStarted_exec sched _ u (dispatchedStarted_start q sizes) hex) hstep hne

/-- C7, witness: on `fiveTasks` select-next returns 0 and set-complete for 0
moves the task stored there from Running to Complete; in the loops of `run_all`
with one subcluster of one process, after the first request and the end of the
task, the executed set-complete moves that task from Running to Complete. -/
theorem status_transitions_witness :
    get_scheduled_task_number_local fiveTasks
      = Except.ok (0, fiveTasks.call 10 MacroTaskBase.set_running) ∧
    set_complete_local (fiveTasks.call 10 MacroTaskBase.set_running) 0
      = Except.ok ((fiveTasks.call 10 MacroTaskBase.set_running).call 10
          MacroTaskBase.set_complete) ∧
    ((fiveTasks.call 10 MacroTaskBase.set_running).heap 10).stat = Status.Running ∧
    (((fiveTasks.call 10 MacroTaskBase.set_running).call 10
      MacroTaskBase.set_complete).heap 10).stat = Status.Complete ∧
    exec (loopStart fiveTasks [1]) [Event.request 0, Event.finish 0]
      = Except.ok ⟨fiveTasks.call 10 MacroTaskBase.set_running, [⟨1, Loop.requesting⟩], [0]⟩ ∧
    step ⟨fiveTasks.call 10 MacroTaskBase.set_running, [⟨1, Loop.requesting⟩], [0]⟩
        (Event.deliver 0)
      = Except.ok ⟨(fiveTasks.call 10 MacroTaskBase.set_running).call 10
          MacroTaskBase.set_complete, [⟨1, Loop.requesting⟩], []⟩ ∧
    (((∃ g, Event.deliver 0 = Event.request g) ∧
        ((fiveTasks.call 10 MacroTaskBase.set_running).heap 10).stat = Status.Waiting ∧
        (((fiveTasks.call 10 MacroTaskBase.set_running).call 10
          MacroTaskBase.set_complete).heap 10).stat = Status.Running) ∨
      ((∃ k, Event.deliver 0 = Event.deliver k) ∧
        ((fiveTasks.call 10 MacroTaskBase.set_running).heap 10).stat = Status.Running ∧
        (((fiveTasks.call 10 MacroTaskBase.set_running).call 10
          MacroTaskBase.set_complete).heap 10).stat = Status.Complete)) :=
  ⟨rfl, rfl,
    ((status_transitions fiveTasks 10).2.2.2.2.1 0 _ _ rfl rfl (by decide)).1,
    ((status_transitions fiveTasks 10).2.2.2.2.1 0 _ _ rfl rfl (by decide)).2,
    rfl, rfl,
    (status_transitions fiveTasks 10).2.2.2.2.2 [1] [Event.request 0, Event.finish 0]
      ⟨fiveTasks.call 10 MacroTaskBase.set_running, [⟨1, Loop.requesting⟩], [0]⟩
      ⟨(fiveTasks.call 10 MacroTaskBase.set_running).call 10 MacroTaskBase.set_complete,
        [⟨1, Loop.requesting⟩], []⟩
      (Event.deliver 0) rfl rfl (by decide)⟩

/-- C7, as stated, fails: on rank 0 `add_tasks` sets the Complete task of
`oneComplete` back to Waiting when it is submitted again, so the status after
the operation is earlier than the status before. -/
theorem add_tasks_moves_complete_back :
    (oneComplete.heap 7).stat = Status.Complete ∧
    ((add_tasks oneComplete [7]).heap 7).stat = Status.Waiting ∧
    ¬ ∀ (q : MacroTaskQ) (V : List TaskPtr) (p : TaskPtr),
        (q.heap p).stat.stage ≤ ((add_tasks q V).heap p).stat.stage := by
  refine ⟨rfl, by decide, ?_⟩
  intro hall
  exact absurd (hall oneComplete [7] 7) (by decide)

/-! ## A whole batch -/

/-- C4: completion totality.  Start the loops of `run_all` from a coordinator
queue in which no task of the list is Running, with at least one subcluster and
no empty subcluster.  Some schedule ends every loop with no completion request
pending; and whatever the schedule, once every subcluster has left its loop (it
received the sentinel) and every completion request sent has been executed on
rank 0, the list is the one of the start, every entry that was Waiting at the
start is Complete, and no entry is Waiting or Running. -/
theorem completion_totality (c : MacroTaskQ) (sizes : List Nat) (h0 : c.rank = 0)
    (hnr : ∀ p ∈ c.taskq, (c.heap p).stat ≠ Status.Running)
    (hG : 1 ≤ sizes.length) (hpos : ∀ m ∈ sizes, 1 ≤ m) :
    (∃ (sched : List Event) (u : Universe),
      exec (loopStart c sizes) sched = Except.ok u ∧ quiescent u = true) ∧
    ∀ (sched : List Event) (u : Universe),
      exec (loopStart c sizes) sched = Except.ok u → quiescent u = true →
      u.coordinator.taskq = c.taskq ∧
      (∀ i, c.statusAt i = some Status.Waiting →
        u.coordinator.statusAt i = some Status.Complete) ∧
      (∀ i, u.coordinator.statusAt i ≠ some Status.Waiting ∧
        u.coordinator.statusAt i ≠ some Status.Running) := by
  refine ⟨quiescence_reachable c sizes h0 hG, ?_⟩
  intro sched u hrun hq
  have hstart : LoopInv c sizes.length (loopStart c sizes) := by
    refine loopInv_start c sizes ?_ hpos
    intro i hi
    obtain ⟨p, hp, hs⟩ := (statusAt_eq_some c i _).1 hi
    exact hnr p (List.getElem?_mem hp) hs
  have inv := loopInv_exec c sizes.length sched _ u hstart hrun
  simp only [quiescent, Bool.and_eq_true, List.all_eq_true, decide_eq_true_eq,
    List.isEmpty_iff] at hq
  obtain ⟨hleft, hempty⟩ := hq
  have hnw : ∀ i, u.coordinator.statusAt i ≠ some Status.Waiting := by
    have hlen : 0 < u.subclusters.length := by rw [inv.count]; omega
    obtain ⟨s, hs⟩ : ∃ s, u.subclusters[0]? = some s :=
      ⟨u.subclusters.get ⟨0, hlen⟩, by simp [List.getElem?_eq_getElem hlen]⟩
    have hl := hleft s (List.getElem?_mem hs)
    refine inv.drained ⟨0, s.members, ?_⟩
    rw [hs, ← hl]
  have hnrun : ∀ i, u.coordinator.statusAt i ≠ some Status.Running := by
    intro i hi
    obtain ⟨p, hp, hs⟩ := (statusAt_eq_some _ i _).1 hi
    obtain ⟨e, _, _, hown⟩ := inv.owner p (List.getElem?_mem hp) hs
    rcases hown with hin | ⟨g, m, hg⟩
    · rw [hempty] at hin
      simp at hin
    · have := hleft _ (List.getElem?_mem hg)
      simp at this
  refine ⟨inv.taskq_eq, ?_, fun i => ⟨hnw i, hnrun i⟩⟩
  intro i hi
  obtain ⟨p, hp, hs⟩ := (statusAt_eq_some c i _).1 hi
  have hp' : u.coordinator.taskq[i]? = some p := by rw [inv.taskq_eq]; exact hp
  rcases inv.progress p hs with h | h | h
  · exact absurd ((statusAt_eq_some _ i _).2 ⟨p, hp', h⟩) (hnw i)
  · exact absurd ((statusAt_eq_some _ i _).2 ⟨p, hp', h⟩) (hnrun i)
  · exact (statusAt_eq_some _ i _).2 ⟨p, hp', h⟩

/-- C4, witness: `threeTasks` run by a subcluster of two processes and one of
one process under `twoSubclustersSchedule`; the run ends in `threeTasksDone`,
where all three entries are Complete. -/
theorem completion_totality_witness :
    threeTasks.rank = 0 ∧
    (∀ p ∈ threeTasks.taskq, (threeTasks.heap p).stat ≠ Status.Running) ∧
    1 ≤ [2, 1].length ∧ (∀ m ∈ [2, 1], 1 ≤ m) ∧
    exec (loopStart threeTasks [2, 1]) twoSubclustersSchedule = Except.ok threeTasksDone ∧
    quiescent threeTasksDone = true ∧
    threeTasksDone.coordinator.statuses
      = [Status.Complete, Status.Complete, Status.Complete] ∧
    (∀ i, threeTasks.statusAt i = some Status.Waiting →
      threeTasksDone.coordinator.statusAt i = some Status.Complete) :=
  ⟨rfl, by decide, by decide, by decide, rfl, by decide, by decide,
    ((completion_totality threeTasks [2, 1] rfl (by decide) (by decide) (by decide)).2
      twoSubclustersSchedule threeTasksDone rfl (by decide)).2.1⟩

/-- C9: index stability.  After `add_tasks`, after the submission phase of
`run_all`, after select-next, after set-complete and after a whole `run_all`
(submission and the loops of the subclusters under any schedule) the list of the
queue keeps the entries it had: the old list is an initial segment of the new
one, the length has not decreased, and every old index holds the task it held.
Select-next and set-complete leave the list as it is; `add_tasks` and `run_all`
append the submitted tasks. -/
theorem index_stability (q : MacroTaskQ) :
    (∀ V, keepsEntries q.taskq (add_tasks q V).taskq ∧ (add_tasks q V).taskq = q.taskq ++ V) ∧
    (∀ V, keepsEntries q.taskq (run_all_submit q V).taskq) ∧
    (∀ r q', get_scheduled_task_number_local q = Except.ok (r, q') →
      keepsEntries q.taskq q'.taskq ∧ q'.taskq = q.taskq) ∧
    (∀ i q', set_complete_local q i = Except.ok q' →
      keepsEntries q.taskq q'.taskq ∧ q'.taskq = q.taskq) ∧
    (∀ V sizes sched u, run_all q V sizes sched = Except.ok u →
      keepsEntries q.taskq u.coordinator.taskq ∧ u.coordinator.taskq = q.taskq ++ V) := by
  refine ⟨?_, ?_, ?_, ?_, ?_⟩
  · intro V
    rw [add_tasks_taskq]
    exact ⟨keepsEntries_append _ _, rfl⟩
  · intro V
    rw [run_all_submit_taskq]
    exact keepsEntries_append _ _
  · intro r q' h
    have : q'.taskq = q.taskq := by
      rcases select_ok_cases _ _ _ h with ⟨_, _, _, _, _, hc', _⟩ | ⟨_, hc', _⟩
      · subst hc'; rfl
      · subst hc'; rfl
    rw [this]
    exact ⟨keepsEntries_self _, rfl⟩
  · intro i q' h
    obtain ⟨_, _, _, hc'⟩ := complete_ok_cases _ _ _ h
    subst hc'
    exact ⟨keepsEntries_self _, rfl⟩
  · intro V sizes sched u h
    have : u.coordinator.taskq = q.taskq ++ V := by
      rw [exec_taskq sched _ u h]
      simp only [loopStart]
      exact run_all_submit_taskq q V
    rw [this]
    exact ⟨keepsEntries_append _ _, rfl⟩

/-! ## Submission -/

/-- C6: a second batch dispatches only the new tasks.  On the coordinator, for a
list of length `n` whose entries are all Complete, after `add_tasks` with `m`
further tasks (pairwise different objects, none of them already in the list),
`s` select-next calls in a row return `n, n+1, …, n+m-1` and then only `-1`; the
same holds when set-complete calls for returned indices come in between; and no
returned value is an index below `n`. -/
theorem second_batch_dispatch (q : MacroTaskQ) (V : List TaskPtr) (h0 : q.rank = 0)
    (hall : ∀ p ∈ q.taskq, (q.heap p).stat = Status.Complete)
    (hV : V.Nodup) (hfresh : ∀ t ∈ V, t ∉ q.taskq) :
    (∀ s, returned (add_tasks q V) (List.replicate s Op.select)
        = (((List.range' q.taskq.length V.length).map Int.ofNat)
            ++ List.replicate s (-1)).take s) ∧
    (∀ ops, completesReturned (add_tasks q V) ops = true →
      returned (add_tasks q V) ops
        = (((List.range' q.taskq.length V.length).map Int.ofNat)
            ++ List.replicate (selects ops) (-1)).take (selects ops) ∧
      ∀ r ∈ returned (add_tasks q V) ops, r = -1 ∨ (q.taskq.length : Int) ≤ r) := by
  have hW := waitingIndices_add_tasks q V h0 hall hfresh
  have hgen : ∀ ops, completesReturned (add_tasks q V) ops = true →
      returned (add_tasks q V) ops
        = (((List.range' q.taskq.length V.length).map Int.ofNat)
            ++ List.replicate (selects ops) (-1)).take (selects ops) := by
    intro ops hc
    have := drain_from ops (add_tasks q V) [] (selects ops)
      (by rw [add_tasks_rank]; exact h0)
      (waitingOnce_of_waitingDistinct _ (waitingDistinct_add_tasks q V h0 hall hV hfresh))
      (by intro d hd; simp at hd)
      (by
        intro k i hk
        obtain ⟨h1, h2⟩ := (completesReturned_iff _ ops).1 hc k i hk
        exact ⟨h1, Or.inr h2⟩)
      (Nat.le_refl _)
    rw [this, hW]
  refine ⟨?_, ?_⟩
  · intro s
    have := hgen _ (completesReturned_selects_only (add_tasks q V) s)
    rw [selects_replicate] at this
    exact this
  · intro ops hc
    refine ⟨hgen ops hc, ?_⟩
    intro r hr
    rw [hgen ops hc] at hr
    rcases List.mem_append.1 (List.mem_of_mem_take hr) with hr | hr
    · obtain ⟨j, hj, rfl⟩ := List.mem_map.1 hr
      right
      have := (List.mem_range'_1.1 hj).1
      exact Int.ofNat_le.2 this
    · left
      exact (List.mem_replicate.1 hr).2

/-- C6, witness: after a first batch of two completed tasks, the tasks `22` and
`23` are added; four select-next calls return 2, 3, -1, -1. -/
theorem second_batch_dispatch_witness :
    firstBatchDone.rank = 0 ∧
    (∀ p ∈ firstBatchDone.taskq, (firstBatchDone.heap p).stat = Status.Complete) ∧
    [22, 23].Nodup ∧ (∀ t ∈ [22, 23], t ∉ firstBatchDone.taskq) ∧
    returned (add_tasks firstBatchDone [22, 23]) (List.replicate 4 Op.select) = [2, 3, -1, -1] ∧
    (∀ s, returned (add_tasks firstBatchDone [22, 23]) (List.replicate s Op.select)
        = (((List.range' firstBatchDone.taskq.length [22, 23].length).map Int.ofNat)
            ++ List.replicate s (-1)).take s) :=
  ⟨rfl, by decide, by decide, by decide, by decide,
    (second_batch_dispatch firstBatchDone [22, 23] rfl (by decide) (by decide) (by decide)).1⟩

/-- C8, as amended: the postcondition of `add_tasks`.  On every rank the list
after the call is the old list followed by the submitted tasks in their order,
so the length grows by their number and the old entries hold the same tasks.  On
rank 0 every appended entry has status Waiting; on every other rank every task
object, and so every old and every appended entry, keeps the status it had.  On
rank 0 an old entry keeps its status when its task object is not among the
submitted ones, and reads Waiting when it is.  No priority is changed. -/
theorem add_tasks_postcondition (q : MacroTaskQ) (V : List TaskPtr) :
    (add_tasks q V).taskq = q.taskq ++ V ∧
    (add_tasks q V).taskq.length = q.taskq.length + V.length ∧
    (add_tasks q V).rank = q.rank ∧
    (∀ k t, V[k]? = some t →
      (add_tasks q V).statusAt (q.taskq.length + k)
        = some (if q.rank = 0 then Status.Waiting else (q.heap t).stat)) ∧
    (q.rank ≠ 0 → ∀ t, (add_tasks q V).heap t = q.heap t) ∧
    (q.rank ≠ 0 → ∀ i, i < q.taskq.length → (add_tasks q V).statusAt i = q.statusAt i) ∧
    (∀ i p, q.taskq[i]? = some p → p ∉ V → (add_tasks q V).statusAt i = q.statusAt i) ∧
    (q.rank = 0 → ∀ i p, q.taskq[i]? = some p → p ∈ V →
      (add_tasks q V).statusAt i = some Status.Waiting) ∧
    (∀ t, ((add_tasks q V).heap t).priority = (q.heap t).priority) := by
  refine ⟨add_tasks_taskq V q, by simp [add_tasks_taskq], add_tasks_rank V q,
    add_tasks_statusAt_new q V, ?_, ?_, ?_, ?_, ?_⟩
  · intro h0 t
    rw [add_tasks_heap_other V q h0]
  · intro h0 i hi
    obtain ⟨p, hp⟩ : ∃ p, q.taskq[i]? = some p :=
      ⟨q.taskq.get ⟨i, hi⟩, by simp [List.getElem?_eq_getElem hi]⟩
    exact add_tasks_statusAt_old q V i p hp (Or.inl h0)
  · intro i p hp hpV
    exact add_tasks_statusAt_old q V i p hp (Or.inr hpV)
  · intro h0 i p hp hpV
    have hlt : i < q.taskq.length := by
      rcases Nat.lt_or_ge i q.taskq.length with hlt | hge
      · exact hlt
      · rw [List.getElem?_eq_none hge] at hp; cases hp
    have hget : (add_tasks q V).taskq[i]? = some p := by
      rw [add_tasks_taskq, List.getElem?_append_left hlt, hp]
    simp [statusAt, hget, add_tasks_heap_coordinator V q h0 p, hpV, MacroTaskBase.set_waiting]
  · intro t
    by_cases h0 : q.rank = 0
    · rw [add_tasks_heap_coordinator V q h0 t]
      split <;> simp [MacroTaskBase.set_waiting]
    · rw [add_tasks_heap_other V q h0]

/-- C8, as stated, fails: on rank 0, submitting the task of `oneComplete` again
appends it and sets the one object waiting, so the old entry 0 changes from
Complete to Waiting. -/
theorem add_tasks_changes_resubmitted_entry :
    ¬ ∀ (q : MacroTaskQ) (V : List TaskPtr),
      (add_tasks q V).taskq = q.taskq ++ V ∧
      (add_tasks q V).taskq.length = q.taskq.length + V.length ∧
      (∀ k t, V[k]? = some t →
        (add_tasks q V).statusAt (q.taskq.length + k)
          = some (if q.rank = 0 then Status.Waiting else (q.heap t).stat)) ∧
      (∀ i, i < q.taskq.length → (add_tasks q V).statusAt i = q.statusAt i) := by
  intro hall
  have h := (hall oneComplete [7]).2.2.2 0 (by decide)
  exact absurd h (by decide)

/-! ## The subclusters of `create_worlds` -/

theorem succ_div_mod (P G : Nat) (hG : 0 < G) :
    (P % G + 1 < G ∧ (P + 1) / G = P / G ∧ (P + 1) % G = P % G + 1) ∨
    (P % G + 1 = G ∧ (P + 1) / G = P / G + 1 ∧ (P + 1) % G = 0) := by
  have h := Nat.div_add_mod P G
  have hm := Nat.mod_lt P hG
  by_cases hlt : P % G + 1 < G
  · left
    refine ⟨hlt, ?_⟩
    rw [Nat.div_mod_unique hG]
    exact ⟨by linarith, hlt⟩
  · right
    have heq : P % G + 1 = G := by omega
    refine ⟨heq, ?_⟩
    rw [Nat.div_mod_unique hG]
    refine ⟨?_, hG⟩
    rw [Nat.mul_add, Nat.mul_one]
    linarith

theorem subworld_members_succ (P G c : Nat) :
    subworld_members (P + 1) G c
      = subworld_members P G c ++ (if P % G = c then [P] else []) := by
  simp only [subworld_members, color, List.range_succ, List.filter_append]
  congr 1
  by_cases h : P % G = c <;> simp [h]

/-- The size of the group of colour `c`. -/
theorem subworld_size_eq (G c : Nat) (hG : 0 < G) (hc : c < G) :
    ∀ P, subworld_size P G c = P / G + (if c < P % G then 1 else 0) := by
  intro P
  induction P with
  | zero => simp [subworld_size, subworld_members]
  | succ P ih =>
    have hstep : subworld_size (P + 1) G c
        = subworld_size P G c + (if P % G = c then 1 else 0) := by
      simp only [subworld_size, subworld_members_succ, List.length_append]
      by_cases h : P % G = c <;> simp [h]
    rw [hstep, ih]
    rcases succ_div_mod P G hG with ⟨h1, h2, h3⟩ | ⟨h1, h2, h3⟩
    · rw [h2, h3]
      by_cases ha : c < P % G
      · have hb : ¬ P % G = c := by omega
        have hd : c < P % G + 1 := by omega
        simp [ha, hb, hd]
      · by_cases hb : P % G = c
        · have hd : c < P % G + 1 := by omega
          simp [ha, hb, hd]
        · have hd : ¬ c < P % G + 1 := by omega
          simp [ha, hb, hd]
    · rw [h2, h3]
      by_cases ha : c < P % G
      · have hb : ¬ P % G = c := by omega
        simp [ha, hb]
      · have hb : P % G = c := by omega
        simp [ha, hb]

theorem filter_lt_range (k : Nat) :
    ∀ G, (List.range G).filter (fun c => decide (c < k)) = List.range (min G k) := by
  intro G
  induction G with
  | zero => simp
  | succ G ih =>
    rw [List.range_succ, List.filter_append, ih]
    by_cases h : G < k
    · have h1 : min G k = G := by omega
      have h2 : min (G + 1) k = G + 1 := by omega
      rw [h1, h2, List.range_succ]
      simp [h]
    · have h1 : min G k = k := by omega
      have h2 : min (G + 1) k = k := by omega
      rw [h1, h2]
      simp [h]

theorem ceil_div_eq (P G : Nat) (hG : 0 < G) :
    (P + G - 1) / G = P / G + (if P % G = 0 then 0 else 1) := by
  have h := Nat.div_add_mod P G
  have hm := Nat.mod_lt P hG
  by_cases h0 : P % G = 0
  · rw [if_pos h0]
    have := (Nat.div_mod_unique hG (a := P + G - 1) (d := P / G) (c := G - 1)).2
      ⟨by omega, by omega⟩
    exact this.1
  · rw [if_neg h0]
    have := (Nat.div_mod_unique hG (a := P + G - 1) (d := P / G + 1) (c := P % G - 1)).2
      ⟨by rw [Nat.mul_add, Nat.mul_one]; omega, by omega⟩
    exact this.1

theorem mem_subworld_members (P G c r : Nat) :
    r ∈ subworld_members P G c ↔ r < P ∧ r % G = c := by
  simp [subworld_members, color]

theorem subworld_members_ne_nil_iff (P G c : Nat) (hc : c < G) :
    subworld_members P G c ≠ [] ↔ c < P := by
  constructor
  · intro h
    obtain ⟨r, hr⟩ := List.exists_mem_of_ne_nil _ h
    obtain ⟨h1, h2⟩ := (mem_subworld_members P G c r).1 hr
    have := Nat.mod_le r G
    omega
  · intro h hnil
    have : c ∈ subworld_members P G c :=
      (mem_subworld_members P G c c).2 ⟨h, Nat.mod_eq_of_lt hc⟩
    rw [hnil] at this
    simp at this

theorem nonempty_colors_eq (P G : Nat) : nonempty_colors P G = List.range (min G P) := by
  rw [← filter_lt_range P G]
  apply List.filter_congr
  intro c hc
  have := subworld_members_ne_nil_iff P G c (List.mem_range.1 hc)
  by_cases h : c < P
  · simp [h, this.2 h]
  · have hnil : subworld_members P G c = [] := by
      by_contra hne
      exact h (this.1 hne)
    simp [h, hnil]

/-- The keys passed by the members of a group, in the order of the universe
ranks, are `0, 1, …` up to the size of the group. -/
theorem subworld_keys (G c : Nat) (hG : 0 < G) (hc : c < G) :
    ∀ P, (subworld_members P G c).map (fun x => split_key x G)
      = List.range (subworld_size P G c) := by
  intro P
  induction P with
  | zero => simp [subworld_members, subworld_size]
  | succ P ih =>
    have hlen : subworld_size (P + 1) G c
        = subworld_size P G c + (if P % G = c then 1 else 0) := by
      simp only [subworld_size, subworld_members_succ, List.length_append]
      by_cases h : P % G = c <;> simp [h]
    rw [hlen, subworld_members_succ, List.map_append, ih]
    by_cases h : P % G = c
    · have hs := subworld_size_eq G c hG hc P
      have hnot : ¬ c < P % G := by omega
      rw [if_neg hnot] at hs
      simp only [h, if_true, List.map_cons, List.map_nil, split_key]
      rw [List.range_succ, hs, Nat.add_zero]
    · simp [h]

/-- The rank of a process in its group is the key it passed. -/
theorem subworld_rank_eq_key (P G r : Nat) (hG : 0 < G) (hr : r < P) :
    subworld_rank P G r = split_key r G := by
  have hc : color r G < G := Nat.mod_lt r hG
  have hmem : r ∈ subworld_members P G (color r G) :=
    (mem_subworld_members P G _ r).2 ⟨hr, rfl⟩
  have hkeys := subworld_keys G (color r G) hG hc P
  have hkey_lt : split_key r G < subworld_size P G (color r G) := by
    have : split_key r G ∈ (subworld_members P G (color r G)).map (fun x => split_key x G) :=
      List.mem_map.2 ⟨r, hmem, rfl⟩
    rw [hkeys] at this
    exact List.mem_range.1 this
  have hcongr : (subworld_members P G (color r G)).filter
      (fun r' => decide (split_key r' G < split_key r G ∨
        (split_key r' G = split_key r G ∧ r' < r)))
      = (subworld_members P G (color r G)).filter
        ((fun k => decide (k < split_key r G)) ∘ (fun x => split_key x G)) := by
    apply List.filter_congr
    intro r' hr'
    have hmod : r' % G = r % G := ((mem_subworld_members P G _ r').1 hr').2
    have hne : ¬ (split_key r' G = split_key r G ∧ r' < r) := by
      rintro ⟨hk, hlt⟩
      have h1 := Nat.div_add_mod r' G
      have h2 := Nat.div_add_mod r G
      simp only [split_key] at hk
      rw [hk, hmod] at h1
      omega
    simp [hne]
  unfold subworld_rank
  rw [hcongr]
  have hlen : ((subworld_members P G (color r G)).filter
      ((fun k => decide (k < split_key r G)) ∘ (fun x => split_key x G))).length
      = (((subworld_members P G (color r G)).map (fun x => split_key x G)).filter
        (fun k => decide (k < split_key r G))).length := by
    rw [List.filter_map, List.length_map]
  rw [hlen, hkeys, filter_lt_range, List.length_range]
  omega

/-- C12: near-equal group sizes.  For a universe of `P` processes and
`G >= 1` groups, the group of every colour `c < G` has `P / G` processes and one
more when `c < P mod G`; so its size is the floor or the ceiling of `P / G`,
exactly `P mod G` colours have the size `P / G + 1`, and the sizes of two groups
differ by at most one. -/
theorem near_equal_sizes (P G : Nat) (hG : 1 ≤ G) :
    (∀ c, c < G →
      subworld_size P G c = P / G + (if c < P % G then 1 else 0) ∧
      (subworld_size P G c = P / G ∨ subworld_size P G c = (P + G - 1) / G)) ∧
    ((List.range G).filter (fun c => decide (subworld_size P G c = P / G + 1))).length
      = P % G ∧
    (∀ c c', c < G → c' < G → subworld_size P G c ≤ subworld_size P G c' + 1) := by
  have hsize := fun c hc => subworld_size_eq G c hG hc P
  refine ⟨?_, ?_, ?_⟩
  · intro c hc
    refine ⟨hsize c hc, ?_⟩
    rw [hsize c hc, ceil_div_eq P G hG]
    by_cases h : c < P % G
    · right
      have h0 : ¬ P % G = 0 := by omega
      simp [h, h0]
    · left
      simp [h]
  · have hm := Nat.mod_lt P hG
    have hcongr : (List.range G).filter (fun c => decide (subworld_size P G c = P / G + 1))
        = (List.range G).filter (fun c => decide (c < P % G)) := by
      apply List.filter_congr
      intro c hc
      rw [hsize c (List.mem_range.1 hc)]
      by_cases h : c < P % G <;> simp [h]
    rw [hcongr, filter_lt_range, List.length_range]
    omega
  · intro c c' hc hc'
    rw [hsize c hc, hsize c' hc']
    split <;> split <;> omega

/-- C12, witness: seven processes in three groups have the sizes 3, 2, 2. -/
theorem near_equal_sizes_witness :
    1 ≤ 3 ∧
    (List.range 3).map (subworld_size 7 3) = [3, 2, 2] ∧
    ((List.range 3).filter (fun c => decide (subworld_size 7 3 c = 7 / 3 + 1))).length
      = 7 % 3 :=
  ⟨by decide, by decide, (near_equal_sizes 7 3 (by decide)).2.1⟩

/-- C11, as amended: the partition into groups.  For a universe of `P`
processes and `G >= 1` requested groups, `color = rank mod G` puts every rank
below `P` in exactly one group, of a colour below `G`; groups of different
colours have no process in common; the groups of the colours below `G` together
hold exactly the ranks below `P`; and the colours with a non-empty group are
`0, …, min(G, P) - 1`, so `min(G, P)` groups are non-empty: `G` of them when
`G <= P`. -/
theorem partition_into_groups (P G : Nat) (hG : 1 ≤ G) :
    (∀ r, r < P → color r G < G ∧ r ∈ subworld_members P G (color r G) ∧
      ∀ c, r ∈ subworld_members P G c → c = color r G) ∧
    (∀ c c' r, c ≠ c' → r ∈ subworld_members P G c → r ∉ subworld_members P G c') ∧
    (∀ r, (∃ c, c < G ∧ r ∈ subworld_members P G c) ↔ r < P) ∧
    nonempty_colors P G = List.range (min G P) ∧
    (nonempty_colors P G).length = min G P ∧
    (G ≤ P → (nonempty_colors P G).length = G) := by
  refine ⟨?_, ?_, ?_, nonempty_colors_eq P G, ?_, ?_⟩
  · intro r hr
    refine ⟨Nat.mod_lt r hG, (mem_subworld_members P G _ r).2 ⟨hr, rfl⟩, ?_⟩
    intro c hc
    exact ((mem_subworld_members P G c r).1 hc).2.symm
  · intro c c' r hne hc hc'
    have h1 := ((mem_subworld_members P G c r).1 hc).2
    have h2 := ((mem_subworld_members P G c' r).1 hc').2
    exact hne (h1.symm.trans h2)
  · intro r
    constructor
    · rintro ⟨c, _, hc⟩
      exact ((mem_subworld_members P G c r).1 hc).1
    · intro hr
      exact ⟨r % G, Nat.mod_lt r hG, (mem_subworld_members P G _ r).2 ⟨hr, rfl⟩⟩
  · rw [nonempty_colors_eq, List.length_range]
  · intro hle
    rw [nonempty_colors_eq, List.length_range]
    omega

/-- C11, witness: five processes in two groups; the groups are the even and the
odd ranks and both are non-empty. -/
theorem partition_into_groups_witness :
    1 ≤ 2 ∧
    subworld_members 5 2 0 = [0, 2, 4] ∧ subworld_members 5 2 1 = [1, 3] ∧
    nonempty_colors 5 2 = List.range (min 2 5) :=
  ⟨by decide, by decide, by decide, (partition_into_groups 5 2 (by decide)).2.2.2.1⟩

/-- C11, as stated, fails: two processes asked to form three groups give two
non-empty groups (colours 0 and 1); no process has colour 2. -/
theorem three_groups_of_two_processes :
    ¬ ∀ P G : Nat, 1 ≤ P → 1 ≤ G → (nonempty_colors P G).length = G := by
  intro hall
  exact absurd (hall 2 3 (by decide) (by decide)) (by decide)

/-- C20: the numbering inside a subcluster.  For `G >= 1` and a universe rank
`r < P`, with `color = r mod G` and key `r div G` as `create_worlds` passes them
to `Split`: `r = key * G + color`; the keys of the members of the group of any
colour `c < G`, listed by universe rank, are `0, 1, …, size - 1`; the rank of
`r` in its group is its key; the member with key 0 of a non-empty group `c` is
universe rank `c`; and universe rank 0 has colour 0 and rank 0 in its group, so
it is the process of subcluster 0 that asks the coordinator. -/
theorem subworld_numbering (P G r : Nat) (hG : 1 ≤ G) (hr : r < P) :
    r = split_key r G * G + color r G ∧
    (∀ c, c < G → (subworld_members P G c).map (fun x => split_key x G)
      = List.range (subworld_size P G c)) ∧
    subworld_rank P G r = split_key r G ∧
    (∀ c, c < G → c < P → c ∈ subworld_members P G c ∧ split_key c G = 0 ∧
      ∀ x ∈ subworld_members P G c, split_key x G = 0 → x = c) ∧
    (color 0 G = 0 ∧ subworld_rank P G 0 = 0) := by
  refine ⟨?_, fun c hc => subworld_keys G c hG hc P, subworld_rank_eq_key P G r hG hr, ?_, ?_⟩
  · have := Nat.div_add_mod r G
    simp only [split_key, color]
    rw [Nat.mul_comm]
    exact this.symm
  · intro c hc hcP
    refine ⟨(mem_subworld_members P G c c).2 ⟨hcP, Nat.mod_eq_of_lt hc⟩,
      Nat.div_eq_of_lt hc, ?_⟩
    intro x hx hk
    have hmod := ((mem_subworld_members P G c x).1 hx).2
    have := Nat.div_add_mod x G
    simp only [split_key] at hk
    rw [hk, hmod] at this
    omega
  · refine ⟨Nat.zero_mod G, ?_⟩
    rw [subworld_rank_eq_key P G 0 hG (by omega)]
    exact Nat.zero_div G

/-- C20, witness: rank 5 of seven processes in three groups has colour 2 and
key 1; the group of colour 1 is the ranks 1 and 4, with the keys 0 and 1. -/
theorem subworld_numbering_witness :
    1 ≤ 3 ∧ 5 < 7 ∧ color 5 3 = 2 ∧ split_key 5 3 = 1 ∧ subworld_rank 7 3 5 = 1 ∧
    subworld_members 7 3 1 = [1, 4] ∧
    5 = split_key 5 3 * 3 + color 5 3 :=
  ⟨by decide, by decide, by decide, by decide, by decide, by decide,
    (subworld_numbering 7 3 5 (by decide) (by decide)).1⟩

/-! ## `run_all` and `add_tasks` -/

theorem MacroTaskQ.eq_of_fields (q1 q2 : MacroTaskQ) (hr : q1.rank = q2.rank)
    (hh : ∀ x, q1.heap x = q2.heap x) (ht : q1.taskq = q2.taskq) : q1 = q2 := by
  obtain ⟨r1, h1, t1⟩ := q1
  obtain ⟨r2, h2, t2⟩ := q2
  simp only at hr hh ht
  have hfun : h1 = h2 := funext hh
  subst hr
  subst ht
  subst hfun
  rfl

/-- C14: `run_all` submits like `add_tasks`.  On every rank, for every queue
and every argument list, the state after the two submission loops of `run_all`
(the state in which the loop of `run_all` starts) is the state `add_tasks`
produces from the same queue and list: same list, same task objects with the
same statuses and priorities.  With the default empty argument the queue is
unchanged. -/
theorem run_all_submits_like_add_tasks (q : MacroTaskQ) (V : List TaskPtr) :
    run_all_submit q V = add_tasks q V ∧
    (run_all_submit q V).statuses = (add_tasks q V).statuses ∧
    run_all_submit q [] = q ∧
    (∀ sizes, run_all q V sizes [] = Except.ok (loopStart (add_tasks q V) sizes)) := by
  have heq : run_all_submit q V = add_tasks q V := by
    apply MacroTaskQ.eq_of_fields
    · rw [run_all_submit_rank, add_tasks_rank]
    · intro x
      rw [run_all_submit_heap, add_tasks_heap]
    · rw [run_all_submit_taskq, add_tasks_taskq]
  refine ⟨heq, by rw [heq], rfl, ?_⟩
  intro sizes
  simp only [run_all, exec, heq]

/-! ## The two calls on rank 0, statement by statement -/

/-- Run alone with the mutex free, the statements of
`get_scheduled_task_number_local` end where the call as a whole ends: returned
with the value and the queue of the call, or aborted with the queue untouched. -/
theorem selectRun_refines (q : MacroTaskQ) :
    selectRun 5 ⟨q, false⟩ SelectPoint.assertRank
      = (match get_scheduled_task_number_local q with
        | Except.ok (r, q') => (⟨q', false⟩, SelectPoint.done r)
        | Except.error _ => (⟨q, false⟩, SelectPoint.aborted)) := by
  by_cases h0 : q.rank = 0
  · by_cases h : find_if (fun p => (q.heap p).is_waiting) q.taskq < q.taskq.length
    · simp [selectRun, selectStep, MADNESS_ASSERT, get_scheduled_task_number_local, h0, h, call]
    · simp [selectRun, selectStep, MADNESS_ASSERT, get_scheduled_task_number_local, h0, h]
  · simp [selectRun, selectStep, MADNESS_ASSERT, get_scheduled_task_number_local, h0]

/-- Run alone, the statements of `set_complete_local` end where the call as a
whole ends; the mutex is as it was. -/
theorem completeRun_refines (q : MacroTaskQ) (i : Int) (mutex : Bool) :
    completeRun i 2 ⟨q, mutex⟩ CompletePoint.assertRank
      = (match set_complete_local q i with
        | Except.ok q' => (⟨q', mutex⟩, CompletePoint.done)
        | Except.error e => (⟨q, mutex⟩, CompletePoint.aborted e)) := by
  by_cases h0 : q.rank = 0
  · by_cases h : 0 ≤ i ∧ i.toNat < q.taskq.length
    · simp [completeRun, completeStep, MADNESS_ASSERT, set_complete_local, h0, h, call]
    · simp [completeRun, completeStep, MADNESS_ASSERT, set_complete_local, h0, h]
  · simp [completeRun, completeStep, MADNESS_ASSERT, set_complete_local, h0]

theorem selectRun_not_aborted (n : Nat) :
    ∀ (m : Coordinator) (pt : SelectPoint), pt ≠ SelectPoint.aborted →
      pt ≠ SelectPoint.assertRank → (selectRun n m pt).2 ≠ SelectPoint.aborted := by
  induction n with
  | zero => intro m pt h _; simpa [selectRun] using h
  | succ n ih =>
    intro m pt h1 h2
    cases pt with
    | assertRank => exact absurd rfl h2
    | aborted => exact absurd rfl h1
    | lockGuard =>
      simp only [selectRun, selectStep]
      split
      · rename_i m' pt' heq
        split at heq
        · cases heq
        · injection heq with heq
          injection heq with _ hpt
          subst hpt
          exact ih _ _ (by simp) (by simp)
      · simp
    | findIf =>
      simp only [selectRun, selectStep]
      exact ih _ _ (by simp) (by simp)
    | branch it =>
      simp only [selectRun, selectStep]
      split
      · rename_i m' pt' heq
        split at heq
        · injection heq with heq
          injection heq with _ hpt
          subst hpt
          exact ih _ _ (by simp) (by simp)
        · injection heq with heq
          injection heq with _ hpt
          subst hpt
          exact ih _ _ (by simp) (by simp)
      · simp
    | unlock r =>
      simp only [selectRun, selectStep]
      exact ih _ _ (by simp) (by simp)
    | done r => simp [selectRun, selectStep]

theorem completeRun_from_setComplete (i : Int) (n : Nat) (m : Coordinator) :
    (completeRun i n m CompletePoint.setComplete).2 ≠ CompletePoint.aborted Fault.assertion := by
  cases n with
  | zero => simp [completeRun]
  | succ n =>
    simp only [completeRun, completeStep]
    split
    · rename_i m' pt' heq
      split at heq
      · injection heq with heq
        injection heq with _ hpt
        subst hpt
        cases n <;> simp [completeRun, completeStep]
      · injection heq with heq
        injection heq with _ hpt
        subst hpt
        cases n <;> simp [completeRun, completeStep]
    · simp

/-- C13: the calls of the coordinator fail fast elsewhere.
`get_scheduled_task_number_local` and `set_complete_local` end with an assertion
failure exactly when the rank of the process is not 0.  Then the assertion is
the only statement executed: the thread ends aborted with the queue (list and
statuses) and the mutex as they were.  On rank 0 no run of their statements ends
by the assertion. -/
theorem coordinator_only_fail_fast (q : MacroTaskQ) :
    (get_scheduled_task_number_local q = Except.error Fault.assertion ↔ q.rank ≠ 0) ∧
    (∀ i, set_complete_local q i = Except.error Fault.assertion ↔ q.rank ≠ 0) ∧
    (q.rank ≠ 0 → ∀ (mutex : Bool) (n : Nat) (i : Int),
      selectRun (n + 1) ⟨q, mutex⟩ SelectPoint.assertRank
        = (⟨q, mutex⟩, SelectPoint.aborted) ∧
      completeRun i (n + 1) ⟨q, mutex⟩ CompletePoint.assertRank
        = (⟨q, mutex⟩, CompletePoint.aborted Fault.assertion)) ∧
    (q.rank = 0 → ∀ (mutex : Bool) (n : Nat) (i : Int),
      (selectRun n ⟨q, mutex⟩ SelectPoint.assertRank).2 ≠ SelectPoint.aborted ∧
      (completeRun i n ⟨q, mutex⟩ CompletePoint.assertRank).2
        ≠ CompletePoint.aborted Fault.assertion) := by
  refine ⟨?_, ?_, ?_, ?_⟩
  · constructor
    · intro h h0
      obtain ⟨r, q', hok⟩ := select_returns q h0
      rw [hok] at h
      cases h
    · intro h0
      simp [get_scheduled_task_number_local, h0]
  · intro i
    constructor
    · intro h h0
      unfold set_complete_local at h
      rw [if_pos h0] at h
      split at h
      · cases h
      · cases h
    · intro h0
      simp [set_complete_local, h0]
  · intro h0 mutex n i
    constructor
    · cases n <;> simp [selectRun, selectStep, MADNESS_ASSERT, h0]
    · cases n <;> simp [completeRun, completeStep, MADNESS_ASSERT, h0]
  · intro h0 mutex n i
    constructor
    · cases n with
      | zero => simp [selectRun]
      | succ n =>
        simp only [selectRun, selectStep, MADNESS_ASSERT, h0, decide_True, if_true]
        exact selectRun_not_aborted n _ _ (by simp) (by simp)
    · cases n with
      | zero => simp [completeRun]
      | succ n =>
        simp only [completeRun, completeStep, MADNESS_ASSERT, h0, decide_True, if_true]
        exact completeRun_from_setComplete i n _

/-- C18 fails on the code: `set_complete_local` takes no lock.  From `midBatch`
with the mutex free, the thread of `get_scheduled_task_number_local` executes
the assertion, takes the mutex and finishes `find_if` (it found index 1); then
the thread of `set_complete_local(0)` executes both its statements and sets
entry 0 Complete, while the mutex is held and before the first thread has marked
its entry.  No statement of `set_complete_local` waits for the mutex or changes
it, whereas a second `get_scheduled_task_number_local` cannot pass its
`lock_guard` while the mutex is held. -/
theorem set_complete_inside_critical_section :
    (raceRun 0 ⟨⟨midBatch, false⟩, SelectPoint.assertRank, CompletePoint.assertRank⟩
        [Turn.select, Turn.select, Turn.select, Turn.complete, Turn.complete]).map
      (fun s => (s.shared.taskq_mutex, s.select, s.complete, s.shared.queue.statuses))
      = some (true, SelectPoint.branch 1, CompletePoint.done,
          [Status.Complete, Status.Waiting]) ∧
    (∀ (i : Int) (m : Coordinator),
      (completeStep i m CompletePoint.assertRank).isSome = true ∧
      (completeStep i m CompletePoint.setComplete).isSome = true ∧
      ∀ pt r, completeStep i m pt = some r → r.1.taskq_mutex = m.taskq_mutex) ∧
    (∀ m : Coordinator, m.taskq_mutex = true → selectStep m SelectPoint.lockGuard = none) := by
  refine ⟨by decide, ?_, ?_⟩
  · intro i m
    refine ⟨?_, ?_, ?_⟩
    · simp only [completeStep]
      split <;> rfl
    · simp only [completeStep]
      split <;> rfl
    · intro pt r h
      cases pt with
      | assertRank =>
        simp only [completeStep] at h
        split at h <;> (injection h with h; rw [← h])
      | setComplete =>
        simp only [completeStep] at h
        split at h <;> (injection h with h; rw [← h])
      | done => simp [completeStep] at h
      | aborted f => simp [completeStep] at h
  · intro m hm
    simp [selectStep, hm]

/-! ## One pass through the loop of `run_all` -/

theorem subcluster_completions_eq (m : Nat) (element : Int) (h : 0 ≤ element) :
    subcluster_completions m element = List.replicate m element := by
  have hnot : ¬ element < 0 := by omega
  simp only [subcluster_completions, loop_pass_completions, hnot, if_false]
  induction m with
  | zero => rfl
  | succ m ih =>
    rw [List.range_succ, List.flatMap_append, ih, List.flatMap_singleton,
      List.replicate_succ']

/-- C17, as amended: the completion requests for an executed task.  When a
subcluster of `m` processes received a task index (not the sentinel), after
`run` every one of its processes sends a `set_complete_local` request for that
index, `m` requests in all, whatever the rank of the process in the subcluster;
for the sentinel no process sends one.  (The select-next request is sent by the
process of rank 0 of the subcluster only.) -/
theorem completion_requests_per_task (m : Nat) (element : Int) :
    (0 ≤ element → subcluster_completions m element = List.replicate m element) ∧
    (element < 0 → subcluster_completions m element = []) ∧
    (∀ k, loop_pass_completions k element = loop_pass_completions 0 element) ∧
    (1 ≤ m → subcluster_requests m = 1) ∧
    (∀ (u : Universe) (g : Nat), u.subclusters[g]? = some ⟨m, Loop.running element⟩ →
      0 ≤ element →
      step u (Event.finish g)
        = Except.ok ⟨u.coordinator, u.subclusters.set g ⟨m, Loop.requesting⟩,
            u.inflight ++ subcluster_completions m element⟩) := by
  refine ⟨subcluster_completions_eq m element, ?_, fun _ => rfl, ?_, ?_⟩
  · intro h
    simp [subcluster_completions, loop_pass_completions, h]
  · intro hm
    obtain ⟨n, rfl⟩ : ∃ n, m = n + 1 := ⟨m - 1, by omega⟩
    simp only [subcluster_requests, List.range_succ_eq_map, List.map_cons, List.map_map,
      List.sum_cons]
    have : (List.map (loop_pass_requests ∘ Nat.succ) (List.range n)).sum = 0 := by
      apply List.sum_eq_zero
      intro x hx
      obtain ⟨k, _, rfl⟩ := List.mem_map.1 hx
      simp [loop_pass_requests]
    rw [this]
    rfl
  · intro u g hsub h0
    rw [subcluster_completions_eq m element h0]
    simp only [step, hsub]

/-- C17, as stated, fails: a subcluster of two processes that ran task 0 sends
two completion requests for it, not one. -/
theorem two_members_send_two_requests :
    ¬ ∀ (m : Nat) (element : Int), 1 ≤ m → 0 ≤ element →
      (subcluster_completions m element).length = 1 := by
  intro hall
  exact absurd (hall 2 0 (by decide) (by decide)) (by decide)

/-! ## Indices stay inside the list -/

theorem step_error_cases (u : Universe) (ev : Event) (f : Fault)
    (h : step u ev = Except.error f) :
    (∃ (g m : Nat), u.subclusters[g]? = some ⟨m, Loop.requesting⟩ ∧
      get_scheduled_task_number_local u.coordinator = Except.error f) ∨
    (∃ (k : Nat) (e : Int), u.inflight[k]? = some e ∧
      set_complete_local u.coordinator e = Except.error f) := by
  cases ev with
  | request g =>
    simp only [step] at h
    split at h
    · rename_i m hsub
      split at h
      · cases h
      · rename_i e hget
        injection h with h
        subst h
        exact Or.inl ⟨g, m, hsub, hget⟩
    · cases h
  | finish g =>
    simp only [step] at h
    split at h <;> cases h
  | deliver k =>
    simp only [step] at h
    split at h
    · rename_i e hk
      split at h
      · cases h
      · rename_i e' hset
        injection h with h
        subst h
        exact Or.inr ⟨k, e, hk, hset⟩
    · cases h

/-- A value returned by select-next is `-1` or an index of the list. -/
theorem select_in_range (q q' : MacroTaskQ) (r : Int)
    (h : get_scheduled_task_number_local q = Except.ok (r, q')) :
    (r = -1 ∨ (0 ≤ r ∧ r.toNat < q.taskq.length)) ∧ q'.rank = 0 ∧ q'.taskq = q.taskq := by
  have h0 : q.rank = 0 := by
    by_contra hne
    simp [get_scheduled_task_number_local, hne] at h
  rcases select_ok_cases q q' r h with ⟨i, p, hr, hget, _, hq', _⟩ | ⟨hr, hq', _⟩
  · subst hr
    subst hq'
    exact ⟨Or.inr ⟨by omega, by simpa using lt_length_of_getElem? _ _ _ hget⟩, h0, rfl⟩
  · subst hq'
    exact ⟨Or.inl hr, h0, rfl⟩

theorem indicesInRange_step (u : Universe) (ev : Event) (h : indicesInRange u) :
    ∃ u', step u ev = Except.ok u' ∧ indicesInRange u' := by
  obtain ⟨h0, hfl, hrun⟩ := h
  cases hstep : step u ev with
  | error f =>
    rcases step_error_cases u ev f hstep with ⟨g, m, _, hget⟩ | ⟨k, e, hk, hset⟩
    · obtain ⟨r, q', hok⟩ := select_returns u.coordinator h0
      rw [hok] at hget
      cases hget
    · obtain ⟨he0, helt⟩ := hfl e (List.getElem?_mem hk)
      obtain ⟨p, _, hok⟩ := complete_returns u.coordinator e h0 he0 helt
      rw [hok] at hset
      cases hset
  | ok u' =>
    refine ⟨u', rfl, ?_⟩
    cases ev with
    | request g =>
      rcases step_request_cases u u' g hstep with rfl | ⟨m, r, c', hsub, hget, rfl⟩
      · exact ⟨h0, hfl, hrun⟩
      · obtain ⟨hr, hc0, hct⟩ := select_in_range _ _ _ hget
        refine ⟨hc0, ?_, ?_⟩
        · intro e he
          simp only [hct]
          exact hfl e he
        · intro g' m' e hg'
          simp only [hct]
          by_cases hgg : g = g'
          · subst hgg
            rw [List.getElem?_set] at hg'
            simp only [lt_length_of_getElem? _ _ _ hsub, if_true, Option.some.injEq,
              Subcluster.mk.injEq] at hg'
            by_cases hneg : r < 0
            · simp [hneg] at hg'
            · simp only [hneg, if_false, Loop.running.injEq] at hg'
              obtain ⟨_, rfl⟩ := hg'
              rcases hr with hr | hr
              · omega
              · exact hr
          · rw [List.getElem?_set_ne hgg] at hg'
            exact hrun g' m' e hg'
    | finish g =>
      rcases step_finish_cases u u' g hstep with rfl | ⟨m, e, hsub, rfl⟩
      · exact ⟨h0, hfl, hrun⟩
      · refine ⟨h0, ?_, ?_⟩
        · intro e' he'
          rcases List.mem_append.1 he' with h1 | h1
          · exact hfl e' h1
          · rw [(List.mem_replicate.1 h1).2]
            exact hrun g m e hsub
        · intro g' m' e' hg'
          by_cases hgg : g = g'
          · subst hgg
            rw [List.getElem?_set] at hg'
            simp [lt_length_of_getElem? _ _ _ hsub] at hg'
          · rw [List.getElem?_set_ne hgg] at hg'
            exact hrun g' m' e' hg'
    | deliver k =>
      rcases step_deliver_cases u u' k hstep with rfl | ⟨e, c', hk, hset, rfl⟩
      · exact ⟨h0, hfl, hrun⟩
      · obtain ⟨p, _, _, hc'⟩ := complete_ok_cases _ _ _ hset
        subst hc'
        refine ⟨h0, ?_, hrun⟩
        intro e' he'
        obtain ⟨j, _, hj⟩ := List.mem_eraseIdx_iff_getElem?.1 he'
        exact hfl e' (List.getElem?_mem hj)

theorem indicesInRange_exec (sched : List Event) :
    ∀ u : Universe, indicesInRange u →
      ∃ u', exec u sched = Except.ok u' ∧ indicesInRange u' := by
  induction sched with
  | nil => intro u h; exact ⟨u, rfl, h⟩
  | cons ev rest ih =>
    intro u h
    obtain ⟨u1, hstep, h1⟩ := indicesInRange_step u ev h
    obtain ⟨u2, hex, h2⟩ := ih u1 h1
    exact ⟨u2, by rw [exec_cons_ok u u1 ev rest hstep]; exact hex, h2⟩

/-- C19: dispatched indices are in range.  A value returned by select-next is
`-1` or an index of the list (`0 <= value < length`).  On every list that is at
least as long (no operation shortens a list, and the lists of the processes are
replicas) the access `taskq[element]` of `run_all` with a returned index is
inside the vector, and so is the access of `set_complete_local` on rank 0.  In
the loops of `run_all`, under every schedule, no call on rank 0 faults. -/
theorem dispatched_index_in_range (q q' : MacroTaskQ) (r : Int)
    (h : get_scheduled_task_number_local q = Except.ok (r, q')) :
    (r = -1 ∨ (0 ≤ r ∧ r < (q.taskq.length : Int))) ∧
    (r ≠ -1 → ∀ q2 : MacroTaskQ, q.taskq.length ≤ q2.taskq.length →
      (∃ p, run_all_task q2 r = Except.ok p) ∧
      (q2.rank = 0 → ∃ q3, set_complete_local q2 r = Except.ok q3)) ∧
    (∀ (sizes : List Nat) (sched : List Event),
      ∃ u, exec (loopStart q sizes) sched = Except.ok u) := by
  obtain ⟨hr, _, _⟩ := select_in_range q q' r h
  have h0 : q.rank = 0 := by
    by_contra hne
    simp [get_scheduled_task_number_local, hne] at h
  refine ⟨?_, ?_, ?_⟩
  · rcases hr with hr | ⟨h1, h2⟩
    · exact Or.inl hr
    · exact Or.inr ⟨h1, by omega⟩
  · intro hne q2 hlen
    rcases hr with hr | ⟨h1, h2⟩
    · exact absurd hr hne
    · have hlt : r.toNat < q2.taskq.length := by omega
      refine ⟨⟨_, by simp [run_all_task, h1, hlt]; rfl⟩, ?_⟩
      intro h20
      obtain ⟨p, _, hok⟩ := complete_returns q2 r h20 h1 hlt
      exact ⟨_, hok⟩
  · intro sizes sched
    have hstart : indicesInRange (loopStart q sizes) := by
      refine ⟨h0, by intro e he; simp [loopStart] at he, ?_⟩
      intro g m e hg
      simp only [loopStart, List.getElem?_map] at hg
      cases hs : sizes[g]? with
      | none => simp [hs] at hg
      | some m' => simp [hs] at hg
    obtain ⟨u, hex, _⟩ := indicesInRange_exec sched _ hstart
    exact ⟨u, hex⟩

/-- C19, witness: on `fiveTasks` select-next returns 0, an index of the list of
five entries. -/
theorem dispatched_index_in_range_witness :
    get_scheduled_task_number_local fiveTasks
      = Except.ok (0, fiveTasks.call 10 MacroTaskBase.set_running) ∧
    ((0 : Int) = -1 ∨ (0 ≤ (0 : Int) ∧ (0 : Int) < (fiveTasks.taskq.length : Int))) :=
  ⟨rfl, (dispatched_index_in_range fiveTasks _ 0 rfl).1⟩

/-! ## `runners.hpp` -/

/-- For a frequency string with one digit before the point (a frequency from 0
up to, not including, 10) the run path is the documented one. -/
theorem frequency_run_path_below_ten (moldft_path property xc rest : List Char) (d : Char)
    (hd : d ≠ '.') (hrest : '.' ∉ rest) :
    generate_response_frequency_run_path moldft_path property (d :: '.' :: rest) xc
      = some (documented_frequency_run_path moldft_path property (d :: '.' :: rest) xc) := by
  have hfind : string_find (d :: '.' :: rest) '.' = 1 := by
    simp [string_find, List.indexOf_cons, hd]
  have hmap : rest.map (fun ch => if ch = '.' then '-' else ch) = rest := by
    conv_rhs => rw [← List.map_id rest]
    apply List.map_congr_left
    intro ch hch
    have : ch ≠ '.' := fun h => hrest (h ▸ hch)
    simp [this]
  simp only [generate_response_frequency_run_path, hfind, string_replace,
    documented_frequency_run_path, List.map_cons, hmap, hd]
  simp

/-- C15 fails on the code for frequencies of 10 and more.  For the frequency
1.1 (`1.100000`) the run path is the documented one, ending in `1-100000`.  For
the frequency 10.5 (`10.500000`) the point is at position 2 and
`replace(2, 2, "-")` removes two characters, the point and the digit after it:
the path ends in `10-00000`, not in the documented `10-500000`. -/
theorem frequency_run_path_drops_digits :
    generate_response_frequency_run_path "/h2o".toList "dipole".toList "1.100000".toList
        "hf".toList
      = some "/h2o/dipole_hf_1-100000".toList ∧
    documented_frequency_run_path "/h2o".toList "dipole".toList "1.100000".toList "hf".toList
      = "/h2o/dipole_hf_1-100000".toList ∧
    generate_response_frequency_run_path "/h2o".toList "dipole".toList "10.500000".toList
        "hf".toList
      = some "/h2o/dipole_hf_10-00000".toList ∧
    documented_frequency_run_path "/h2o".toList "dipole".toList "10.500000".toList "hf".toList
      = "/h2o/dipole_hf_10-500000".toList ∧
    generate_response_frequency_run_path "/h2o".toList "dipole".toList "10.500000".toList
        "hf".toList
      ≠ some (documented_frequency_run_path "/h2o".toList "dipole".toList
          "10.500000".toList "hf".toList) := by
  decide

/-- C16 fails on the code: `tryMOLDFT` never looks at its second argument.  For
every pair of parameter sets the result is `false` (when the protocol of `p1`
is not empty), so with the current low-precision parameters and a
`calc_info.json` of a high-precision run, whose last thresholds `1e-6` and
`1e-8` differ, it returns `false`, and `runMOLDFT` runs only when `try_run`
is set. -/
theorem tryMOLDFT_ignores_second_argument :
    (∀ p1 p2 : CalculationParameters,
      tryMOLDFT p1 p2 = (p1.protocol.getLast?).map (fun _ => false)) ∧
    lowPrecisionParameters.protocol.getLast? ≠ highPrecisionParameters.protocol.getLast? ∧
    tryMOLDFT lowPrecisionParameters highPrecisionParameters = some false ∧
    (∀ try_run, runMOLDFT_runs lowPrecisionParameters highPrecisionParameters try_run
      = some try_run) := by
  have hall : ∀ p1 p2 : CalculationParameters,
      tryMOLDFT p1 p2 = (p1.protocol.getLast?).map (fun _ => false) := by
    intro p1 p2
    simp only [tryMOLDFT]
    cases p1.protocol.getLast? with
    | none => rfl
    | some a => simp
  refine ⟨hall, ?_, ?_, ?_⟩
  · simp [lowPrecisionParameters, highPrecisionParameters]
  · rw [hall]
    simp [lowPrecisionParameters]
  · intro try_run
    simp only [runMOLDFT_runs]
    rw [hall]
    simp [lowPrecisionParameters]

/-! ## `runFrequencyTests` -/

/-- What a call of `RunResponse` that returns has returned: the run path of the
frequency exists, the path returned is the save path of that run path, and the
flag is true when `response_base.json` says converged and otherwise what the
solver reports, in the run directory. -/
theorem RunResponse_returns {σ : Type} (S : ResponseSolver σ) (w w' : σ)
    (frequency property xc moldft_path restart_path : List Char) (highPrecision : Bool)
    (r : List Char × Bool)
    (h : RunResponse S w frequency property xc moldft_path restart_path highPrecision
      = some (r, w')) :
    ∃ run_path : List Char,
      generate_response_frequency_run_path moldft_path property frequency xc = some run_path ∧
      r.1 = (generate_frequency_save_path run_path).1 ∧
      r.2 = (S.base_converged (S.current_path (S.ensure_directory w run_path) run_path) ||
        (S.solve (S.current_path (S.ensure_directory w run_path) run_path) frequency property xc
          restart_path highPrecision).1) := by
  unfold RunResponse set_frequency_path_and_restart at h
  cases hp : generate_response_frequency_run_path moldft_path property frequency xc with
  | none => simp [hp] at h
  | some run_path =>
    refine ⟨run_path, rfl, ?_⟩
    simp only [hp] at h
    cases hb : S.base_converged (S.current_path (S.ensure_directory w run_path) run_path) with
    | true =>
      simp only [hb, if_true, Option.some.injEq, Prod.mk.injEq] at h
      rw [← h.1]
      simp
    | false =>
      simp only [hb, Bool.false_eq_true, if_false, Option.some.injEq, Prod.mk.injEq] at h
      rw [← h.1]
      simp

/-- A call of `RunResponse` throws exactly when the run path of the frequency
cannot be generated. -/
theorem RunResponse_throws_iff {σ : Type} (S : ResponseSolver σ) (w : σ)
    (frequency property xc moldft_path restart_path : List Char) (highPrecision : Bool) :
    RunResponse S w frequency property xc moldft_path restart_path highPrecision = none ↔
      generate_response_frequency_run_path moldft_path property frequency xc = none := by
  unfold RunResponse set_frequency_path_and_restart
  cases hp : generate_response_frequency_run_path moldft_path property frequency xc with
  | none => simp
  | some run_path =>
    simp only
    split <;> simp

section FrequencyLoop

variable {σ : Type} (S : ResponseSolver σ) (schema : frequencySchema) (high_prec : Bool)

theorem frequency_loop_throw (freq : List Char) (rest : List (List Char)) (w : σ)
    (restart_path : List Char) (success : List Char × Bool) (first : Bool)
    (h : restart_or_throw restart_path success first = none) :
    frequency_loop S schema high_prec (freq :: rest) w restart_path success first
      = ⟨[], some Thrown.Response_Convergence_Error, S.current_path w schema.moldft_path⟩ := by
  simp [frequency_loop, h]

theorem frequency_loop_run_throws (freq : List Char) (rest : List (List Char)) (w : σ)
    (restart_path restart : List Char) (success : List Char × Bool) (first : Bool)
    (h : restart_or_throw restart_path success first = some restart)
    (hrun : RunResponse S (S.current_path w schema.moldft_path) freq schema.op schema.xc
      schema.moldft_path restart high_prec = none) :
    frequency_loop S schema high_prec (freq :: rest) w restart_path success first
      = ⟨[⟨freq, restart, none⟩], some Thrown.fromRunResponse,
          S.current_path w schema.moldft_path⟩ := by
  simp [frequency_loop, h, hrun]

theorem frequency_loop_next (freq : List Char) (rest : List (List Char)) (w w' : σ)
    (restart_path restart : List Char) (success result : List Char × Bool) (first : Bool)
    (h : restart_or_throw restart_path success first = some restart)
    (hrun : RunResponse S (S.current_path w schema.moldft_path) freq schema.op schema.xc
      schema.moldft_path restart high_prec = some (result, w')) :
    (frequency_loop S schema high_prec (freq :: rest) w restart_path success first).invocations
      = ⟨freq, restart, some result⟩
        :: (frequency_loop S schema high_prec rest w' restart result false).invocations ∧
    (frequency_loop S schema high_prec (freq :: rest) w restart_path success first).thrown
      = (frequency_loop S schema high_prec rest w' restart result false).thrown := by
  simp [frequency_loop, h, hrun]

/-- The three ways a pass of the loop goes. -/
theorem frequency_loop_cases (freq : List Char) (rest : List (List Char)) (w : σ)
    (restart_path : List Char) (success : List Char × Bool) (first : Bool) :
    (restart_or_throw restart_path success first = none ∧
      frequency_loop S schema high_prec (freq :: rest) w restart_path success first
        = ⟨[], some Thrown.Response_Convergence_Error,
            S.current_path w schema.moldft_path⟩) ∨
    (∃ restart, restart_or_throw restart_path success first = some restart ∧
      frequency_loop S schema high_prec (freq :: rest) w restart_path success first
        = ⟨[⟨freq, restart, none⟩], some Thrown.fromRunResponse,
            S.current_path w schema.moldft_path⟩) ∨
    (∃ (restart : List Char) (result : List Char × Bool) (w' : σ),
      restart_or_throw restart_path success first = some restart ∧
      (frequency_loop S schema high_prec (freq :: rest) w restart_path success first).invocations
        = ⟨freq, restart, some result⟩
          :: (frequency_loop S schema high_prec rest w' restart result false).invocations ∧
      (frequency_loop S schema high_prec (freq :: rest) w restart_path success first).thrown
        = (frequency_loop S schema high_prec rest w' restart result false).thrown) := by
  cases h : restart_or_throw restart_path success first with
  | none => exact Or.inl ⟨rfl, frequency_loop_throw S schema high_prec freq rest w _ _ _ h⟩
  | some restart =>
    cases hrun : RunResponse S (S.current_path w schema.moldft_path) freq schema.op schema.xc
        schema.moldft_path restart high_prec with
    | none =>
      exact Or.inr (Or.inl ⟨restart, rfl,
        frequency_loop_run_throws S schema high_prec freq rest w _ _ _ _ h hrun⟩)
    | some r =>
      obtain ⟨result, w'⟩ := r
      exact Or.inr (Or.inr ⟨restart, result, w', rfl,
        frequency_loop_next S schema high_prec freq rest w w' _ _ _ _ _ h hrun⟩)

theorem restart_or_throw_after (restart save : List Char) (result : List Char × Bool)
    (h : restart_or_throw restart result false = some save) :
    result = (save, true) := by
  obtain ⟨r1, r2⟩ := result
  cases r2 <;> simp [restart_or_throw] at h
  rw [h]

theorem restart_or_throw_none (restart : List Char) (result : List Char × Bool)
    (h : restart_or_throw restart result false = none) :
    result = (result.1, false) := by
  obtain ⟨r1, r2⟩ := result
  cases r2 <;> simp [restart_or_throw] at h
  rfl

/-- The frequencies of the calls are the frequencies of the list, in order, up
to the call after which the loop ended. -/
theorem frequency_loop_order (freqs : List (List Char)) :
    ∀ (w : σ) (restart_path : List Char) (success : List Char × Bool) (first : Bool),
      ((frequency_loop S schema high_prec freqs w restart_path success first).invocations.map
        Invocation.frequency) <+: freqs ∧
      ((frequency_loop S schema high_prec freqs w restart_path success first).thrown = none →
        (frequency_loop S schema high_prec freqs w restart_path success first).invocations.map
          Invocation.frequency = freqs) := by
  induction freqs with
  | nil => intro w rp success first; simp [frequency_loop]
  | cons freq rest ih =>
    intro w rp success first
    rcases frequency_loop_cases S schema high_prec freq rest w rp success first with
      ⟨_, h⟩ | ⟨restart, _, h⟩ | ⟨restart, result, w', _, hinv, hthr⟩
    · rw [h]
      simp
    · rw [h]
      refine ⟨?_, by simp⟩
      exact ⟨rest, rfl⟩
    · rw [hinv, hthr]
      obtain ⟨h1, h2⟩ := ih w' restart result false
      refine ⟨?_, ?_⟩
      · obtain ⟨t, ht⟩ := h1
        exact ⟨t, by simp only [List.map_cons, List.cons_append, ht]⟩
      · intro hn
        simp only [List.map_cons, h2 hn]

/-- Every call after another one gets the save path the call before it
returned, and that call reported converged; the first call gets the restart
path the head of the loop leaves. -/
theorem frequency_loop_chain (freqs : List (List Char)) :
    ∀ (w : σ) (restart_path : List Char) (success : List Char × Bool) (first : Bool),
      (∀ (k : Nat) (a b : Invocation),
        (frequency_loop S schema high_prec freqs w restart_path success first).invocations[k]?
          = some a →
        (frequency_loop S schema high_prec freqs w restart_path success first).invocations[k + 1]?
          = some b →
        ∃ save, a.result = some (save, true) ∧ b.restart_path = save) ∧
      (∀ b : Invocation,
        (frequency_loop S schema high_prec freqs w restart_path success first).invocations[0]?
          = some b →
        restart_or_throw restart_path success first = some b.restart_path) := by
  induction freqs with
  | nil => intro w rp success first; simp [frequency_loop]
  | cons freq rest ih =>
    intro w rp success first
    rcases frequency_loop_cases S schema high_prec freq rest w rp success first with
      ⟨_, h⟩ | ⟨restart, hr, h⟩ | ⟨restart, result, w', hr, hinv, _⟩
    · rw [h]
      simp
    · rw [h]
      refine ⟨by simp, ?_⟩
      intro b hb
      simp only [List.getElem?_cons_zero, Option.some.injEq] at hb
      rw [← hb, hr]
    · rw [hinv]
      obtain ⟨h1, h2⟩ := ih w' restart result false
      refine ⟨?_, ?_⟩
      · intro k a b ha hb
        cases k with
        | zero =>
          simp only [List.getElem?_cons_zero, Option.some.injEq] at ha
          simp only [List.getElem?_cons_succ] at hb
          have := restart_or_throw_after restart b.restart_path result (h2 b hb)
          refine ⟨b.restart_path, ?_, rfl⟩
          rw [← ha, this]
        | succ k =>
          simp only [List.getElem?_cons_succ] at ha hb
          exact h1 k a b ha hb
      · intro b hb
        simp only [List.getElem?_cons_zero, Option.some.injEq] at hb
        rw [← hb, hr]

/-- The loop ends by `Response_Convergence_Error` exactly when its head throws at
once, or some call that is not for the last frequency reported not converged. -/
theorem frequency_loop_thrown_iff (freqs : List (List Char)) :
    ∀ (w : σ) (restart_path : List Char) (success : List Char × Bool) (first : Bool),
      (frequency_loop S schema high_prec freqs w restart_path success first).thrown
          = some Thrown.Response_Convergence_Error ↔
        (freqs ≠ [] ∧ restart_or_throw restart_path success first = none) ∨
        ∃ (k : Nat) (a : Invocation) (save : List Char),
          (frequency_loop S schema high_prec freqs w restart_path success first).invocations[k]?
            = some a ∧
          a.result = some (save, false) ∧ k + 1 < freqs.length := by
  induction freqs with
  | nil => intro w rp success first; simp [frequency_loop]
  | cons freq rest ih =>
    intro w rp success first
    rcases frequency_loop_cases S schema high_prec freq rest w rp success first with
      ⟨hr, h⟩ | ⟨restart, hr, h⟩ | ⟨restart, result, w', hr, hinv, hthr⟩
    · rw [h]
      simp [hr]
    · rw [h]
      simp only [hr, List.length_cons]
      constructor
      · intro hc; cases hc
      · rintro (⟨_, hc⟩ | ⟨k, a, save, ha, hres, _⟩)
        · cases hc
        · cases k with
          | zero =>
            simp only [List.getElem?_cons_zero, Option.some.injEq] at ha
            rw [← ha] at hres
            cases hres
          | succ k => simp at ha
    · rw [hinv, hthr, ih w' restart result false]
      simp only [hr, List.length_cons]
      constructor
      · rintro (⟨hne, hnone⟩ | ⟨k, a, save, ha, hres, hk⟩)
        · right
          refine ⟨0, ⟨freq, restart, some result⟩, result.1, by simp, ?_, ?_⟩
          · simp only
            rw [← restart_or_throw_none restart result hnone]
          · have := List.length_pos.2 hne
            omega
        · right
          exact ⟨k + 1, a, save, by simpa using ha, hres, by omega⟩
      · rintro (⟨_, hc⟩ | ⟨k, a, save, ha, hres, hk⟩)
        · cases hc
        · cases k with
          | zero =>
            simp only [List.getElem?_cons_zero, Option.some.injEq] at ha
            rw [← ha] at hres
            simp only [Option.some.injEq] at hres
            left
            refine ⟨?_, ?_⟩
            · intro hnil
              rw [hnil] at hk
              simp at hk
            · rw [hres]
              simp [restart_or_throw]
          | succ k =>
            right
            exact ⟨k, a, save, by simpa using ha, hres, by omega⟩

/-- When the loop ends by `Response_Convergence_Error`, fewer calls were made
than there are frequencies, and the last call made reported not converged. -/
theorem frequency_loop_stops (freqs : List (List Char)) :
    ∀ (w : σ) (restart_path : List Char) (success : List Char × Bool) (first : Bool),
      (frequency_loop S schema high_prec freqs w restart_path success first).thrown
          = some Thrown.Response_Convergence_Error →
        (frequency_loop S schema high_prec freqs w restart_path success first).invocations.length
          < freqs.length ∧
        ((frequency_loop S schema high_prec freqs w restart_path success first).invocations = [] →
          restart_or_throw restart_path success first = none) ∧
        (∀ a : Invocation,
          (frequency_loop S schema high_prec freqs w restart_path success first).invocations.getLast?
            = some a →
          ∃ save, a.result = some (save, false)) := by
  induction freqs with
  | nil => intro w rp success first; simp [frequency_loop]
  | cons freq rest ih =>
    intro w rp success first
    rcases frequency_loop_cases S schema high_prec freq rest w rp success first with
      ⟨hr, h⟩ | ⟨restart, hr, h⟩ | ⟨restart, result, w', hr, hinv, hthr⟩
    · rw [h]
      intro _
      simp [hr]
    · rw [h]
      intro hc
      cases hc
    · rw [hinv, hthr]
      intro hc
      obtain ⟨h1, h2, h3⟩ := ih w' restart result false hc
      refine ⟨by simp only [List.length_cons]; omega, by simp, ?_⟩
      intro a ha
      cases hl : (frequency_loop S schema high_prec rest w' restart result false).invocations with
      | nil =>
        rw [hl] at ha
        simp only [List.getLast?_singleton, Option.some.injEq] at ha
        refine ⟨result.1, ?_⟩
        rw [← ha]
        simp only
        rw [← restart_or_throw_none restart result (h2 hl)]
      | cons x xs =>
        rw [hl] at ha
        rw [List.getLast?_cons_cons] at ha
        exact h3 a (by rw [hl]; exact ha)

/-- When the head of a pass does not throw, the call of `RunResponse` for the
frequency of the pass is made: it is the first call of the loop, with the
restart path the head leaves, and its result is what `RunResponse` gives. -/
theorem frequency_loop_first_call (freq : List Char) (rest : List (List Char)) (w : σ)
    (restart_path restart : List Char) (success : List Char × Bool) (first : Bool)
    (h : restart_or_throw restart_path success first = some restart) :
    ∃ b : Invocation,
      (frequency_loop S schema high_prec (freq :: rest) w restart_path success first).invocations[0]?
        = some b ∧
      b.frequency = freq ∧ b.restart_path = restart ∧
      b.result = (RunResponse S (S.current_path w schema.moldft_path) freq schema.op schema.xc
        schema.moldft_path restart high_prec).map Prod.fst := by
  cases hrun : RunResponse S (S.current_path w schema.moldft_path) freq schema.op schema.xc
      schema.moldft_path restart high_prec with
  | none =>
    rw [frequency_loop_run_throws S schema high_prec freq rest w _ _ _ _ h hrun]
    exact ⟨⟨freq, restart, none⟩, rfl, rfl, rfl, rfl⟩
  | some r =>
    obtain ⟨result, w'⟩ := r
    rw [(frequency_loop_next S schema high_prec freq rest w w' _ _ _ _ _ h hrun).1]
    exact ⟨⟨freq, restart, some result⟩, by simp, rfl, rfl, rfl⟩

/-- A call that reported converged and is not for the last frequency of the
list is followed by the call for the next frequency. -/
theorem frequency_loop_progress (freqs : List (List Char)) :
    ∀ (w : σ) (restart_path : List Char) (success : List Char × Bool) (first : Bool)
      (k : Nat) (a : Invocation) (save : List Char),
      (frequency_loop S schema high_prec freqs w restart_path success first).invocations[k]?
        = some a →
      a.result = some (save, true) → k + 1 < freqs.length →
      k + 1 < (frequency_loop S schema high_prec freqs w restart_path success
        first).invocations.length := by
  induction freqs with
  | nil => intro w rp success first k a save ha; simp [frequency_loop] at ha
  | cons freq rest ih =>
    intro w rp success first k a save ha hres hk
    rcases frequency_loop_cases S schema high_prec freq rest w rp success first with
      ⟨_, h⟩ | ⟨restart, _, h⟩ | ⟨restart, result, w', _, hinv, _⟩
    · rw [h] at ha
      simp at ha
    · rw [h] at ha
      cases k with
      | zero =>
        simp only [List.getElem?_cons_zero, Option.some.injEq] at ha
        rw [← ha] at hres
        cases hres
      | succ k => simp at ha
    · rw [hinv] at ha ⊢
      simp only [List.length_cons] at hk ⊢
      cases k with
      | zero =>
        simp only [List.getElem?_cons_zero, Option.some.injEq] at ha
        rw [← ha] at hres
        simp only [Option.some.injEq] at hres
        cases rest with
        | nil => simp at hk
        | cons f2 rest2 =>
          have hhead : restart_or_throw restart result false = some save := by
            rw [hres]
            rfl
          obtain ⟨b, hb, _⟩ := frequency_loop_first_call S schema high_prec f2 rest2 w'
            restart save result false hhead
          have := lt_length_of_getElem? _ _ _ hb
          omega
      | succ k =>
        simp only [List.getElem?_cons_succ] at ha
        have := ih w' restart result false k a save ha hres (by omega)
        omega

/-- The loop ends by an exception of `RunResponse` exactly when the last call
made is one that threw. -/
theorem frequency_loop_run_thrown_iff (freqs : List (List Char)) :
    ∀ (w : σ) (restart_path : List Char) (success : List Char × Bool) (first : Bool),
      (frequency_loop S schema high_prec freqs w restart_path success first).thrown
          = some Thrown.fromRunResponse ↔
        ∃ a : Invocation,
          (frequency_loop S schema high_prec freqs w restart_path success first).invocations.getLast?
            = some a ∧
          a.result = none := by
  induction freqs with
  | nil => intro w rp success first; simp [frequency_loop]
  | cons freq rest ih =>
    intro w rp success first
    rcases frequency_loop_cases S schema high_prec freq rest w rp success first with
      ⟨_, h⟩ | ⟨restart, _, h⟩ | ⟨restart, result, w', _, hinv, hthr⟩
    · rw [h]
      simp
    · rw [h]
      simp
    · rw [hinv, hthr, ih w' restart result false]
      cases hl : (frequency_loop S schema high_prec rest w' restart result false).invocations with
      | nil => simp
      | cons x xs => rw [List.getLast?_cons_cons]

theorem frequency_loop_next_world (freq : List Char) (rest : List (List Char)) (w w' : σ)
    (restart_path restart : List Char) (success result : List Char × Bool) (first : Bool)
    (h : restart_or_throw restart_path success first = some restart)
    (hrun : RunResponse S (S.current_path w schema.moldft_path) freq schema.op schema.xc
      schema.moldft_path restart high_prec = some (result, w')) :
    (frequency_loop S schema high_prec (freq :: rest) w restart_path success first).world
      = (frequency_loop S schema high_prec rest w' restart result false).world := by
  simp [frequency_loop, h, hrun]

/-- The calls of the loop as calls of `RunResponse`: there is a state of the
files for every call, the one of the first call is the state at the start of
the pass after `current_path(schema.moldft_path)`, the result of a call is what
`RunResponse` gives in its state for its frequency and restart path, and the
state of the next call is the one `RunResponse` left, after
`current_path(schema.moldft_path)`.  The files after the loop are those of the
last call when it threw, those it left when it was the call for the last
frequency, and those after one more `current_path(schema.moldft_path)`
otherwise. -/
theorem frequency_loop_trace (freqs : List (List Char)) :
    ∀ (w : σ) (restart_path : List Char) (success : List Char × Bool) (first : Bool),
      ∃ ws : List σ,
        ws.length = (frequency_loop S schema high_prec freqs w restart_path success
          first).invocations.length ∧
        (∀ w0 : σ, ws[0]? = some w0 → w0 = S.current_path w schema.moldft_path) ∧
        (∀ (k : Nat) (a : Invocation) (wk : σ),
          (frequency_loop S schema high_prec freqs w restart_path success first).invocations[k]?
            = some a →
          ws[k]? = some wk →
          a.result = (RunResponse S wk a.frequency schema.op schema.xc schema.moldft_path
            a.restart_path high_prec).map Prod.fst ∧
          ∀ wn : σ, ws[k + 1]? = some wn →
            ∃ (r : List Char × Bool) (w' : σ),
              RunResponse S wk a.frequency schema.op schema.xc schema.moldft_path
                a.restart_path high_prec = some (r, w') ∧
              wn = S.current_path w' schema.moldft_path) ∧
        (∀ (a : Invocation) (wk : σ),
          (frequency_loop S schema high_prec freqs w restart_path success
            first).invocations.getLast? = some a →
          ws.getLast? = some wk →
          (a.result = none →
            (frequency_loop S schema high_prec freqs w restart_path success first).world = wk) ∧
          ∀ (r : List Char × Bool) (w' : σ),
            RunResponse S wk a.frequency schema.op schema.xc schema.moldft_path
              a.restart_path high_prec = some (r, w') →
            ((frequency_loop S schema high_prec freqs w restart_path success
                first).invocations.length = freqs.length →
              (frequency_loop S schema high_prec freqs w restart_path success first).world
                = w') ∧
            ((frequency_loop S schema high_prec freqs w restart_path success
                first).invocations.length ≠ freqs.length →
              (frequency_loop S schema high_prec freqs w restart_path success first).world
                = S.current_path w' schema.moldft_path)) ∧
        ((frequency_loop S schema high_prec freqs w restart_path success first).invocations = [] →
          (freqs = [] →
            (frequency_loop S schema high_prec freqs w restart_path success first).world = w) ∧
          (freqs ≠ [] →
            (frequency_loop S schema high_prec freqs w restart_path success first).world
              = S.current_path w schema.moldft_path)) := by
  induction freqs with
  | nil =>
    intro w rp success first
    exact ⟨[], by simp [frequency_loop]⟩
  | cons freq rest ih =>
    intro w rp success first
    cases h : restart_or_throw rp success first with
    | none =>
      rw [frequency_loop_throw S schema high_prec freq rest w _ _ _ h]
      exact ⟨[], by simp⟩
    | some restart =>
      cases hrun : RunResponse S (S.current_path w schema.moldft_path) freq schema.op schema.xc
          schema.moldft_path restart high_prec with
      | none =>
        rw [frequency_loop_run_throws S schema high_prec freq rest w _ _ _ _ h hrun]
        refine ⟨[S.current_path w schema.moldft_path], rfl, ?_, ?_, ?_, ?_⟩
        · intro w0 h0
          simp only [List.getElem?_cons_zero, Option.some.injEq] at h0
          exact h0.symm
        · intro k a wk ha hwk
          cases k with
          | zero =>
            simp only [List.getElem?_cons_zero, Option.some.injEq] at ha hwk
            subst ha
            subst hwk
            refine ⟨?_, ?_⟩
            · simp only [hrun, Option.map_none']
            · intro wn hwn
              simp at hwn
          | succ k => simp at ha
        · intro a wk ha hwk
          simp only [List.getLast?_singleton, Option.some.injEq] at ha hwk
          subst ha
          subst hwk
          refine ⟨fun _ => rfl, ?_⟩
          intro r w' hr
          simp only [hrun] at hr
          cases hr
        · intro hnil
          cases hnil
      | some r =>
        obtain ⟨result, w'⟩ := r
        rw [(frequency_loop_next S schema high_prec freq rest w w' _ _ _ _ _ h hrun).1,
          frequency_loop_next_world S schema high_prec freq rest w w' _ _ _ _ _ h hrun]
        obtain ⟨ws, hlen, hw0, hall, hlast, hnone⟩ := ih w' restart result false
        refine ⟨S.current_path w schema.moldft_path :: ws, by simp [hlen], ?_, ?_, ?_, ?_⟩
        · intro w0 h0
          simp only [List.getElem?_cons_zero, Option.some.injEq] at h0
          exact h0.symm
        · intro k a wk ha hwk
          cases k with
          | zero =>
            simp only [List.getElem?_cons_zero, Option.some.injEq] at ha hwk
            subst ha
            subst hwk
            refine ⟨?_, ?_⟩
            · simp only [hrun, Option.map_some']
            · intro wn hwn
              simp only [List.getElem?_cons_succ] at hwn
              exact ⟨result, w', hrun, hw0 wn hwn⟩
          | succ k =>
            simp only [List.getElem?_cons_succ] at ha hwk ⊢
            exact hall k a wk ha hwk
        · intro a wk ha hwk
          cases hl : (frequency_loop S schema high_prec rest w' restart result
              false).invocations with
          | nil =>
            have hws : ws = [] := List.length_eq_zero.1 (by rw [hlen, hl]; rfl)
            rw [hl] at ha
            rw [hws] at hwk
            simp only [List.getLast?_singleton, Option.some.injEq] at ha hwk
            subst ha
            subst hwk
            refine ⟨fun hc => Option.noConfusion hc, ?_⟩
            intro r w'' hr
            simp only [hrun, Option.some.injEq, Prod.mk.injEq] at hr
            obtain ⟨_, rfl⟩ := hr
            simp only [List.length_cons, List.length_nil]
            refine ⟨?_, ?_⟩
            · intro hlen1
              have hrest : rest = [] := List.length_eq_zero.1 (by omega)
              exact (hnone hl).1 hrest
            · intro hlen1
              have hrest : rest ≠ [] := by
                intro hc
                rw [hc] at hlen1
                exact hlen1 rfl
              exact (hnone hl).2 hrest
          | cons x xs =>
            rw [hl] at ha
            rw [List.getLast?_cons_cons] at ha
            cases hws : ws with
            | nil =>
              rw [hws, hl] at hlen
              simp at hlen
            | cons y ys =>
              rw [hws, List.getLast?_cons_cons] at hwk
              obtain ⟨h1, h2⟩ := hlast a wk (by rw [hl]; exact ha) (by rw [hws]; exact hwk)
              refine ⟨h1, ?_⟩
              intro r w'' hr
              obtain ⟨h3, h4⟩ := h2 r w'' hr
              rw [hl] at h3 h4
              simp only [List.length_cons] at h3 h4 ⊢
              exact ⟨fun hq => h3 (by omega), fun hq => h4 (by omega)⟩
        · intro hnil
          cases hnil

end FrequencyLoop

/-- Two runs of `runFrequencyTests` over three frequencies.  When the second
run does not converge the third frequency is not run and
`Response_Convergence_Error` leaves the function; when only the third run does
not converge all three are run and nothing is thrown. -/
theorem three_frequencies_runs :
    (runFrequencyTests secondRunFails 0 threeFrequencies false).invocations.map
        (fun i => (i.frequency, i.result.map Prod.snd))
      = [("0.000000".toList, some true), ("0.050000".toList, some false)] ∧
    (runFrequencyTests secondRunFails 0 threeFrequencies false).thrown
      = some Thrown.Response_Convergence_Error ∧
    (runFrequencyTests thirdRunFails 0 threeFrequencies false).invocations.map
        (fun i => (i.frequency, i.result.map Prod.snd))
      = [("0.000000".toList, some true), ("0.050000".toList, some true),
          ("0.100000".toList, some false)] ∧
    (runFrequencyTests thirdRunFails 0 threeFrequencies false).thrown = none := by
  decide

/-- C21: the convergence chain of `runFrequencyTests`.  For every solver, file
state and schema: `RunResponse` is called for the frequencies of the list in
their order (for all of them when nothing is thrown); the first call gets the
fixed first restart path, and every later call gets as restart path the save
path the call before it returned, that call having reported converged;
`Response_Convergence_Error` is thrown exactly when a call that is not for the
last frequency of the list reported not converged, and then that call is the
last one made, so no later frequency is run; when all frequencies were run,
whatever the last call reported, `Response_Convergence_Error` is not thrown.
The calls are made: for a list that is not empty the first call is made, and a
call that reported converged and is not for the last frequency is followed by
the next call.  An exception leaves the function from `RunResponse` exactly when
the last call made threw, and nothing is thrown exactly when all frequencies
were run and the last call did not throw.  Every call is a call of
`RunResponse`: in the state of the files of the call (for the first call the
start state after the two `current_path(schema.moldft_path)`, for a later call
the state the call before it left, after `current_path(schema.moldft_path)`) its
result is what `RunResponse` gives for its frequency and restart path; and the
files afterwards are those of the last call when it threw, those it left when
it was the call for the last frequency, and those after one more
`current_path(schema.moldft_path)` otherwise.  A call throws exactly when the run
path of its frequency cannot be generated, and the path a call returns is the
save path of the run path of its frequency. -/
theorem convergence_chain {σ : Type} (S : ResponseSolver σ) (w : σ) (schema : frequencySchema)
    (high_prec : Bool) :
    ((runFrequencyTests S w schema high_prec).invocations.map Invocation.frequency
      <+: schema.freq) ∧
    ((runFrequencyTests S w schema high_prec).thrown = none →
      (runFrequencyTests S w schema high_prec).invocations.map Invocation.frequency
        = schema.freq) ∧
    (∀ b : Invocation, (runFrequencyTests S w schema high_prec).invocations[0]? = some b →
      b.restart_path = addPath schema.moldft_path
        ("/".toList ++ schema.op ++ "_0-000000.00000/restart_".toList ++ schema.op
          ++ "_0-000000.00000".toList)) ∧
    (∀ (k : Nat) (a b : Invocation),
      (runFrequencyTests S w schema high_prec).invocations[k]? = some a →
      (runFrequencyTests S w schema high_prec).invocations[k + 1]? = some b →
      ∃ save, a.result = some (save, true) ∧ b.restart_path = save) ∧
    ((runFrequencyTests S w schema high_prec).thrown = some Thrown.Response_Convergence_Error ↔
      ∃ (k : Nat) (a : Invocation) (save : List Char),
        (runFrequencyTests S w schema high_prec).invocations[k]? = some a ∧
        a.result = some (save, false) ∧ k + 1 < schema.freq.length) ∧
    ((runFrequencyTests S w schema high_prec).thrown = some Thrown.Response_Convergence_Error →
      (runFrequencyTests S w schema high_prec).invocations.length < schema.freq.length ∧
      ∃ (a : Invocation) (save : List Char),
        (runFrequencyTests S w schema high_prec).invocations.getLast? = some a ∧
        a.result = some (save, false)) ∧
    ((runFrequencyTests S w schema high_prec).invocations.length = schema.freq.length →
      (runFrequencyTests S w schema high_prec).thrown
        ≠ some Thrown.Response_Convergence_Error) ∧
    (schema.freq ≠ [] → (runFrequencyTests S w schema high_prec).invocations ≠ []) ∧
    (∀ (k : Nat) (a : Invocation) (save : List Char),
      (runFrequencyTests S w schema high_prec).invocations[k]? = some a →
      a.result = some (save, true) → k + 1 < schema.freq.length →
      k + 1 < (runFrequencyTests S w schema high_prec).invocations.length) ∧
    ((runFrequencyTests S w schema high_prec).thrown = some Thrown.fromRunResponse ↔
      ∃ a : Invocation,
        (runFrequencyTests S w schema high_prec).invocations.getLast? = some a ∧
        a.result = none) ∧
    ((runFrequencyTests S w schema high_prec).thrown = none ↔
      (runFrequencyTests S w schema high_prec).invocations.length = schema.freq.length ∧
      ∀ a : Invocation,
        (runFrequencyTests S w schema high_prec).invocations.getLast? = some a →
        a.result ≠ none) ∧
    (∃ ws : List σ,
      ws.length = (runFrequencyTests S w schema high_prec).invocations.length ∧
      (∀ w0 : σ, ws[0]? = some w0 →
        w0 = S.current_path (S.current_path w schema.moldft_path) schema.moldft_path) ∧
      (∀ (k : Nat) (a : Invocation) (wk : σ),
        (runFrequencyTests S w schema high_prec).invocations[k]? = some a →
        ws[k]? = some wk →
        a.result = (RunResponse S wk a.frequency schema.op schema.xc schema.moldft_path
          a.restart_path high_prec).map Prod.fst ∧
        ∀ wn : σ, ws[k + 1]? = some wn →
          ∃ (r : List Char × Bool) (w' : σ),
            RunResponse S wk a.frequency schema.op schema.xc schema.moldft_path
              a.restart_path high_prec = some (r, w') ∧
            wn = S.current_path w' schema.moldft_path) ∧
      (∀ (a : Invocation) (wk : σ),
        (runFrequencyTests S w schema high_prec).invocations.getLast? = some a →
        ws.getLast? = some wk →
        (a.result = none → (runFrequencyTests S w schema high_prec).world = wk) ∧
        ∀ (r : List Char × Bool) (w' : σ),
          RunResponse S wk a.frequency schema.op schema.xc schema.moldft_path
            a.restart_path high_prec = some (r, w') →
          ((runFrequencyTests S w schema high_prec).invocations.length = schema.freq.length →
            (runFrequencyTests S w schema high_prec).world = w') ∧
          ((runFrequencyTests S w schema high_prec).invocations.length ≠ schema.freq.length →
            (runFrequencyTests S w schema high_prec).world
              = S.current_path w' schema.moldft_path)) ∧
      (schema.freq = [] →
        (runFrequencyTests S w schema high_prec).world
          = S.current_path w schema.moldft_path)) ∧
    (∀ (k : Nat) (a : Invocation),
      (runFrequencyTests S w schema high_prec).invocations[k]? = some a →
      (a.result = none ↔
        generate_response_frequency_run_path schema.moldft_path schema.op a.frequency schema.xc
          = none) ∧
      ∀ (save : List Char) (converged : Bool), a.result = some (save, converged) →
        ∃ run_path : List Char,
          generate_response_frequency_run_path schema.moldft_path schema.op a.frequency
            schema.xc = some run_path ∧
          save = (generate_frequency_save_path run_path).1) := by
  have hfirst : ∀ (rp : List Char) (success : List Char × Bool),
      restart_or_throw rp success true = some rp := fun _ _ => rfl
  have hstop := frequency_loop_stops S schema high_prec schema.freq
    (S.current_path w schema.moldft_path)
    (addPath schema.moldft_path ("/".toList ++ schema.op ++ "_0-000000.00000/restart_".toList
      ++ schema.op ++ "_0-000000.00000".toList))
    (schema.moldft_path, false) true
  have horder := frequency_loop_order S schema high_prec schema.freq
    (S.current_path w schema.moldft_path)
    (addPath schema.moldft_path ("/".toList ++ schema.op ++ "_0-000000.00000/restart_".toList
      ++ schema.op ++ "_0-000000.00000".toList))
    (schema.moldft_path, false) true
  have hrun := frequency_loop_run_thrown_iff S schema high_prec schema.freq
    (S.current_path w schema.moldft_path)
    (addPath schema.moldft_path ("/".toList ++ schema.op ++ "_0-000000.00000/restart_".toList
      ++ schema.op ++ "_0-000000.00000".toList))
    (schema.moldft_path, false) true
  have hmade : schema.freq ≠ [] → (runFrequencyTests S w schema high_prec).invocations ≠ [] := by
    intro hne hnil
    cases hf : schema.freq with
    | nil => exact hne hf
    | cons f rest =>
      obtain ⟨b, hb, _⟩ := frequency_loop_first_call S schema high_prec f rest
        (S.current_path w schema.moldft_path)
        (addPath schema.moldft_path ("/".toList ++ schema.op
          ++ "_0-000000.00000/restart_".toList ++ schema.op ++ "_0-000000.00000".toList))
        _ (schema.moldft_path, false) true (hfirst _ _)
      unfold runFrequencyTests at hnil
      rw [hf] at hnil
      rw [hnil] at hb
      simp at hb
  refine ⟨?_, ?_, ?_, ?_, ?_, ?_, ?_, hmade, ?_, hrun, ?_, ?_, ?_⟩
  · exact horder.1
  · exact horder.2
  · intro b hb
    have := (frequency_loop_chain S schema high_prec schema.freq _ _ _ _).2 b hb
    rw [hfirst] at this
    exact (Option.some.inj this).symm
  · exact (frequency_loop_chain S schema high_prec schema.freq _ _ _ _).1
  · have h := frequency_loop_thrown_iff S schema high_prec schema.freq
      (S.current_path w schema.moldft_path)
      (addPath schema.moldft_path ("/".toList ++ schema.op
        ++ "_0-000000.00000/restart_".toList ++ schema.op ++ "_0-000000.00000".toList))
      (schema.moldft_path, false) true
    simp only [hfirst, and_false, false_or, reduceCtorEq] at h
    exact h
  · intro hc
    obtain ⟨h1, h2, h3⟩ := hstop hc
    refine ⟨h1, ?_⟩
    cases hl : (runFrequencyTests S w schema high_prec).invocations.getLast? with
    | none =>
      have hnil := List.getLast?_eq_none_iff.1 hl
      have := h2 hnil
      rw [hfirst] at this
      cases this
    | some a =>
      obtain ⟨save, hsave⟩ := h3 a hl
      exact ⟨a, save, rfl, hsave⟩
  · intro hlen hc
    have := (hstop hc).1
    have hlen' : (frequency_loop S schema high_prec schema.freq
        (S.current_path w schema.moldft_path)
        (addPath schema.moldft_path ("/".toList ++ schema.op
          ++ "_0-000000.00000/restart_".toList ++ schema.op ++ "_0-000000.00000".toList))
        (schema.moldft_path, false) true).invocations.length = schema.freq.length := hlen
    omega
  · exact frequency_loop_progress S schema high_prec schema.freq _ _ _ _
  · constructor
    · intro hn
      refine ⟨?_, ?_⟩
      · have := congrArg List.length (horder.2 hn)
        rw [List.length_map] at this
        exact this
      · intro a ha hres
        have hthrown := hrun.2 ⟨a, ha, hres⟩
        have hn' : (frequency_loop S schema high_prec schema.freq
            (S.current_path w schema.moldft_path)
            (addPath schema.moldft_path ("/".toList ++ schema.op
              ++ "_0-000000.00000/restart_".toList ++ schema.op ++ "_0-000000.00000".toList))
            (schema.moldft_path, false) true).thrown = none := hn
        rw [hn'] at hthrown
        cases hthrown
    · rintro ⟨hlen, hlast⟩
      have hlen' : (frequency_loop S schema high_prec schema.freq
          (S.current_path w schema.moldft_path)
          (addPath schema.moldft_path ("/".toList ++ schema.op
            ++ "_0-000000.00000/restart_".toList ++ schema.op ++ "_0-000000.00000".toList))
          (schema.moldft_path, false) true).invocations.length = schema.freq.length := hlen
      cases ht : (runFrequencyTests S w schema high_prec).thrown with
      | none => rfl
      | some t =>
        cases t with
        | Response_Convergence_Error =>
          have := (hstop ht).1
          omega
        | fromRunResponse =>
          obtain ⟨a, ha, hres⟩ := hrun.1 ht
          exact absurd hres (hlast a ha)
  · obtain ⟨ws, hlen, hw0, hall, hlast, hnone⟩ := frequency_loop_trace S schema high_prec
      schema.freq (S.current_path w schema.moldft_path)
      (addPath schema.moldft_path ("/".toList ++ schema.op
        ++ "_0-000000.00000/restart_".toList ++ schema.op ++ "_0-000000.00000".toList))
      (schema.moldft_path, false) true
    refine ⟨ws, hlen, hw0, hall, hlast, ?_⟩
    intro hf
    refine (hnone ?_).1 hf
    have hle := horder.1.length_le
    rw [List.length_map] at hle
    have h0 : schema.freq.length = 0 := List.length_eq_zero.2 hf
    exact List.length_eq_zero.1 (by omega)
  · intro k a ha
    obtain ⟨ws, hlen, _, hall, _, _⟩ := frequency_loop_trace S schema high_prec
      schema.freq (S.current_path w schema.moldft_path)
      (addPath schema.moldft_path ("/".toList ++ schema.op
        ++ "_0-000000.00000/restart_".toList ++ schema.op ++ "_0-000000.00000".toList))
      (schema.moldft_path, false) true
    have hk : k < ws.length := by
      rw [hlen]
      exact lt_length_of_getElem? _ _ _ ha
    obtain ⟨hres, _⟩ := hall k a (ws.get ⟨k, hk⟩) ha (List.getElem?_eq_getElem hk)
    refine ⟨?_, ?_⟩
    · rw [hres, Option.map_eq_none', RunResponse_throws_iff]
    · intro save converged hsome
      rw [hres] at hsome
      cases hcall : RunResponse S (ws.get ⟨k, hk⟩) a.frequency schema.op schema.xc
          schema.moldft_path a.restart_path high_prec with
      | none =>
        rw [hcall] at hsome
        cases hsome
      | some rw1 =>
        obtain ⟨r, w1⟩ := rw1
        rw [hcall] at hsome
        simp only [Option.map_some', Option.some.injEq] at hsome
        obtain ⟨run_path, hp, hsave, _⟩ := RunResponse_returns S _ w1 _ _ _ _ _ _ r hcall
        refine ⟨run_path, hp, ?_⟩
        rw [← hsave, hsome]

end madness
